import Mathlib

/-!
Verification of the project63 runtime (tracing GC, value model with method
caches, bytecode compiler and stack VM) against its natural-language
specification.  Each subsystem is shallowly embedded from the C++ sources:
`gc.cpp`/`gc.h` (namespace `GC`), `value.cpp`/`value.h` (namespace `KlassModel`),
`builtins.cpp` (namespace `IntBuiltins`), `vm.cpp`/`vm.h` (namespace `VMM`) and
`compiler.cpp` (namespace `Comp`).
-/

namespace GC

/-- One heap cell header, mirroring `detail::BoxBase` in gc.h: a valid flag,
a mark flag, a weak-handle refcount (`ptrs`), and — standing in for the
type-erased payload trace — the list of box ids its payload's `trace`
visits.  The intrusive `next` pointer is represented by the position of the
box in the heap list. -/
structure BoxB where
  valid : Bool
  marked : Bool
  ptrs : Nat
  succs : List Nat
deriving Repr, DecidableEq

/-- List-level lookup of a box by id (dereferencing a `BoxBase*`). -/
def lfind (l : List (Nat × BoxB)) (p : Nat) : Option BoxB :=
  (l.find? (fun x => x.1 == p)).map Prod.snd

/-- List-level `box->marked = true` for the box with id `p`. -/
def lmark (l : List (Nat × BoxB)) (p : Nat) : List (Nat × BoxB) :=
  l.map (fun x => if x.1 == p then (x.1, { x.2 with marked := true }) else x)

/-- The collector's box list (`Collector::box_head`), head first.  Each entry
pairs a box id (the address in C++) with its header. -/
structure Heap where
  boxes : List (Nat × BoxB)
deriving Repr, DecidableEq

/-- Finds the box with the given id. -/
def Heap.find (h : Heap) (p : Nat) : Option BoxB :=
  lfind h.boxes p

/-- Sets the mark flag of box `p`. -/
def Heap.mark (h : Heap) (p : Nat) : Heap :=
  ⟨lmark h.boxes p⟩

/-- `marked` flag of box `p` (false for a missing box). -/
def Heap.markedOf (h : Heap) (p : Nat) : Bool :=
  match h.find p with
  | some b => b.marked
  | none => false

/-- `valid` flag of box `p` (false for a missing box), i.e. `Ptr::valid()`. -/
def Heap.validOf (h : Heap) (p : Nat) : Bool :=
  match h.find p with
  | some b => b.valid
  | none => false

/-- List-level count of unmarked boxes. -/
def lcount (l : List (Nat × BoxB)) : Nat :=
  (l.filter (fun x => !x.2.marked)).length

/-- Number of unmarked boxes; used as the mark-loop fuel measure. -/
def Heap.unmarkedCount (h : Heap) : Nat :=
  lcount h.boxes

/-- The tracer body from `Collector::collect`: visiting a pointer to `p`
marks `p` and pushes it on the worklist if it is valid and unmarked. -/
def traceTarget (h : Heap) (q : List Nat) (p : Nat) : Heap × List Nat :=
  match h.find p with
  | some b => if b.valid && !b.marked then (h.mark p, p :: q) else (h, q)
  | none => (h, q)

/-- Runs the tracer over a list of pointer targets in order (one `trace`
invocation visiting each reachable `Ptr`). -/
def traceMany (h : Heap) (q : List Nat) : List Nat → Heap × List Nat
  | [] => (h, q)
  | p :: ps =>
      let hq := traceTarget h q p
      traceMany hq.1 hq.2 ps

/-- The root-seeding phase: each registered root's `trace` is invoked in
turn (`for root = root_head ...`).  A root is represented by the list of box
ids its trace visits. -/
def traceRoots (h : Heap) : List (List Nat) → Heap × List Nat
  | [] => (h, [])
  | r :: rs =>
      let hq := traceRoots h rs
      traceMany hq.1 hq.2 r

/-- The successor list of box `p` as the mark loop reads it. -/
def succsOf (h : Heap) (p : Nat) : List Nat :=
  match h.find p with
  | some b => b.succs
  | none => []

/-- The mark worklist loop (`while (!queue.empty())`): pop a box from the
back and trace its payload.  Fuel-indexed; `unmarkedCount + queue length`
fuel always suffices (proved below). -/
def markLoop : Nat → Heap → List Nat → Heap
  | _, h, [] => h
  | 0, h, _ :: _ => h
  | fuel + 1, h, p :: rest =>
      let hq := traceMany h rest (succsOf h p)
      markLoop fuel hq.1 hq.2

/-- The sweep phase from `Collector::collect`: retained boxes are pushed
back onto `box_head` (reversing the list, as in the source).  Marked boxes
are kept with the mark cleared; unmarked boxes have their payload destroyed
(`valid := false`) and are freed exactly when their weak refcount is zero. -/
def sweep (h : Heap) : Heap :=
  ⟨h.boxes.foldl
    (fun acc x =>
      if x.2.marked then (x.1, { x.2 with marked := false }) :: acc
      else if x.2.ptrs == 0 then acc
      else (x.1, { x.2 with valid := false }) :: acc)
    []⟩

/-- `Collector::collect`: mark from the registered roots, then sweep. -/
def collect (roots : List (List Nat)) (h : Heap) : Heap :=
  let hq := traceRoots h roots
  let h1 := markLoop (hq.1.unmarkedCount + hq.2.length) hq.1 hq.2
  sweep h1

/-- Reachability from the registered roots through chains of valid boxes:
exactly the cells the mark phase is intended to retain. -/
inductive Reachable (roots : List (List Nat)) (h : Heap) : Nat → Prop
  | root (r : List Nat) (hr : r ∈ roots) (p : Nat) (hp : p ∈ r)
      (hv : h.validOf p = true) : Reachable roots h p
  | step (q p : Nat) (hq : Reachable roots h q) (b : BoxB)
      (hb : h.find q = some b) (hp : p ∈ b.succs)
      (hv : h.validOf p = true) : Reachable roots h p

/-- Pointwise relation between a box entry before and after marking:
everything but the mark flag is preserved, and marks only grow. -/
def boxLe (x y : Nat × BoxB) : Prop :=
  x.1 = y.1 ∧ x.2.valid = y.2.valid ∧ x.2.ptrs = y.2.ptrs ∧
    x.2.succs = y.2.succs ∧ (x.2.marked = true → y.2.marked = true)

/-- Mark phases only raise mark flags: box list shape, validity, refcounts
and payloads are untouched. -/
def MarkedLe (h h2 : Heap) : Prop :=
  List.Forall₂ boxLe h.boxes h2.boxes

theorem boxLe_refl (x : Nat × BoxB) : boxLe x x :=
  ⟨rfl, rfl, rfl, rfl, fun hm => hm⟩

theorem boxLe_trans {x y z : Nat × BoxB} (a : boxLe x y) (b : boxLe y z) :
    boxLe x z := by
  obtain ⟨e1, e2, e3, e4, e5⟩ := a
  obtain ⟨f1, f2, f3, f4, f5⟩ := b
  exact ⟨e1.trans f1, e2.trans f2, e3.trans f3, e4.trans f4, fun hm => f5 (e5 hm)⟩

theorem MarkedLe.refl (h : Heap) : MarkedLe h h := by
  rw [MarkedLe, List.forall₂_same]
  exact fun x _ => boxLe_refl x

theorem forall₂_boxLe_trans :
    ∀ {l1 l2 l3 : List (Nat × BoxB)}, List.Forall₂ boxLe l1 l2 →
      List.Forall₂ boxLe l2 l3 → List.Forall₂ boxLe l1 l3 := by
  intro l1 l2 l3 a
  induction a generalizing l3 with
  | nil =>
      intro b
      cases b
      exact List.Forall₂.nil
  | cons hxy _ ih =>
      intro b
      cases b with
      | cons hyz b2 => exact List.Forall₂.cons (boxLe_trans hxy hyz) (ih b2)

theorem MarkedLe.trans {h1 h2 h3 : Heap}
    (a : MarkedLe h1 h2) (b : MarkedLe h2 h3) : MarkedLe h1 h3 :=
  forall₂_boxLe_trans a b

theorem lfind_rel : ∀ {l1 l2 : List (Nat × BoxB)}, List.Forall₂ boxLe l1 l2 →
    ∀ p, (lfind l1 p = none ∧ lfind l2 p = none) ∨
      ∃ b b2, lfind l1 p = some b ∧ lfind l2 p = some b2 ∧
        b.valid = b2.valid ∧ b.ptrs = b2.ptrs ∧ b.succs = b2.succs ∧
        (b.marked = true → b2.marked = true) := by
  intro l1 l2 a
  induction a with
  | nil => exact fun p => Or.inl ⟨rfl, rfl⟩
  | @cons x y l1 l2 hxy _ ih =>
      intro p
      obtain ⟨e1, e2, e3, e4, e5⟩ := hxy
      by_cases hp : x.1 = p
      · refine Or.inr ⟨x.2, y.2, ?_, ?_, e2, e3, e4, e5⟩
        · simp [lfind, List.find?, hp]
        · simp [lfind, List.find?, e1 ▸ hp]
      · have hxp : (x.1 == p) = false := by simp [hp]
        have hyp : (y.1 == p) = false := by simp [← e1, hp]
        simpa [lfind, List.find?, hxp, hyp] using ih p

theorem MarkedLe.find_rel {h h2 : Heap} (hle : MarkedLe h h2) (p : Nat) :
    (h.find p = none ∧ h2.find p = none) ∨
    ∃ b b2, h.find p = some b ∧ h2.find p = some b2 ∧
      b.valid = b2.valid ∧ b.ptrs = b2.ptrs ∧ b.succs = b2.succs ∧
      (b.marked = true → b2.marked = true) :=
  lfind_rel hle p

theorem MarkedLe.validOf_eq {h h2 : Heap} (hle : MarkedLe h h2) (p : Nat) :
    h2.validOf p = h.validOf p := by
  rcases hle.find_rel p with ⟨e1, e2⟩ | ⟨b, b2, e1, e2, hv, _⟩ <;>
    simp [Heap.validOf, e1, e2]
  exact hv.symm

theorem MarkedLe.markedOf_mono {h h2 : Heap} (hle : MarkedLe h h2) (p : Nat)
    (hm : h.markedOf p = true) : h2.markedOf p = true := by
  rcases hle.find_rel p with ⟨e1, _⟩ | ⟨b, b2, e1, e2, _, _, _, hmono⟩
  · simp [Heap.markedOf, e1] at hm
  · simp [Heap.markedOf, e1] at hm
    simp [Heap.markedOf, e2, hmono hm]

theorem MarkedLe.succsOf_eq {h h2 : Heap} (hle : MarkedLe h h2) (p : Nat) :
    succsOf h2 p = succsOf h p := by
  rcases hle.find_rel p with ⟨e1, e2⟩ | ⟨b, b2, e1, e2, _, _, hs, _⟩ <;>
    simp [succsOf, e1, e2]
  exact hs.symm

theorem mark_markedLe (h : Heap) (p : Nat) : MarkedLe h (h.mark p) := by
  rw [MarkedLe, Heap.mark]
  show List.Forall₂ boxLe h.boxes (lmark h.boxes p)
  rw [lmark, List.forall₂_map_right_iff]
  rw [List.forall₂_same]
  intro x _
  by_cases hp : x.1 = p <;> simp [hp, boxLe, boxLe_refl]

theorem lfind_cons (x : Nat × BoxB) (l : List (Nat × BoxB)) (p : Nat) :
    lfind (x :: l) p = if x.1 = p then some x.2 else lfind l p := by
  by_cases h : x.1 = p
  · simp [lfind, List.find?_cons_of_pos, h]
  · simp [lfind, List.find?_cons_of_neg, h]

theorem lmark_cons (x : Nat × BoxB) (l : List (Nat × BoxB)) (p : Nat) :
    lmark (x :: l) p =
      (if x.1 = p then (x.1, { x.2 with marked := true }) else x) :: lmark l p := by
  by_cases h : x.1 = p <;> simp [lmark, h]

theorem lfind_mark_self : ∀ {l : List (Nat × BoxB)} {p : Nat} {b : BoxB},
    lfind l p = some b → lfind (lmark l p) p = some { b with marked := true } := by
  intro l
  induction l with
  | nil => intro p b hf; simp [lfind] at hf
  | cons x l ih =>
      intro p b hf
      rw [lfind_cons] at hf
      rw [lmark_cons]
      by_cases hp : x.1 = p
      · rw [if_pos hp] at hf
        cases hf
        rw [if_pos hp, lfind_cons, if_pos hp]
      · rw [if_neg hp] at hf
        rw [if_neg hp, lfind_cons, if_neg hp]
        exact ih hf

theorem find_mark_self {h : Heap} {p : Nat} {b : BoxB} (hf : h.find p = some b) :
    (h.mark p).find p = some { b with marked := true } :=
  lfind_mark_self hf

theorem lfind_mark_other : ∀ {l : List (Nat × BoxB)} {p x : Nat}, x ≠ p →
    lfind (lmark l p) x = lfind l x := by
  intro l
  induction l with
  | nil => intro p x _; simp [lfind, lmark]
  | cons y l ih =>
      intro p x hx
      rw [lmark_cons, lfind_cons, lfind_cons]
      by_cases hp : y.1 = p
      · have hyx : ¬ y.1 = x := fun e => hx (e ▸ hp)
        rw [if_pos hp]
        simp only [if_neg hyx]
        exact ih hx
      · rw [if_neg hp]
        by_cases hyx : y.1 = x
        · rw [if_pos hyx, if_pos hyx]
        · rw [if_neg hyx, if_neg hyx]
          exact ih hx

theorem find_mark_other {h : Heap} {p x : Nat} (hx : x ≠ p) :
    (h.mark p).find x = h.find x :=
  lfind_mark_other hx

theorem markedOf_mark {h : Heap} {p x : Nat}
    (hm : (h.mark p).markedOf x = true) : x = p ∨ h.markedOf x = true := by
  by_cases hx : x = p
  · exact Or.inl hx
  · right
    rwa [Heap.markedOf, find_mark_other hx, ← Heap.markedOf] at hm

theorem lcount_mark_le : ∀ (l : List (Nat × BoxB)) (p : Nat),
    lcount (lmark l p) ≤ lcount l := by
  intro l p
  induction l with
  | nil => simp [lcount, lmark]
  | cons x l ih =>
      rw [lmark_cons]
      by_cases hp : x.1 = p
      · rw [if_pos hp]
        by_cases hm : x.2.marked
        · simpa [lcount, List.filter, hm] using ih
        · simp only [lcount, List.filter, Bool.not_eq_true] at ih ⊢
          simp [hm]
          omega
      · rw [if_neg hp]
        by_cases hm : x.2.marked <;>
          simpa [lcount, List.filter, hm] using ih

theorem lcount_mark_lt : ∀ {l : List (Nat × BoxB)} {p : Nat} {b : BoxB},
    lfind l p = some b → b.marked = false → lcount (lmark l p) < lcount l := by
  intro l
  induction l with
  | nil => intro p b hf _; simp [lfind] at hf
  | cons x l ih =>
      intro p b hf hm
      rw [lfind_cons] at hf
      rw [lmark_cons]
      by_cases hp : x.1 = p
      · rw [if_pos hp] at hf
        cases hf
        rw [if_pos hp]
        have := lcount_mark_le l p
        simp only [lcount, List.filter, hm] at *
        simp [hm] at this ⊢
        omega
      · rw [if_neg hp] at hf
        rw [if_neg hp]
        have := ih hf hm
        by_cases hxm : x.2.marked <;>
          simpa [lcount, List.filter, hxm] using this

theorem validOf_exists {h : Heap} {p : Nat} (hv : h.validOf p = true) :
    ∃ b, h.find p = some b ∧ b.valid = true := by
  unfold Heap.validOf at hv
  cases hf : h.find p with
  | none => rw [hf] at hv; cases hv
  | some b => rw [hf] at hv; exact ⟨b, rfl, hv⟩

theorem markedOf_find {h : Heap} {p : Nat} {b : BoxB}
    (hf : h.find p = some b) : h.markedOf p = b.marked := by
  simp [Heap.markedOf, hf]

theorem markedOf_mark_self {h : Heap} {p : Nat} {b : BoxB}
    (hf : h.find p = some b) : (h.mark p).markedOf p = true := by
  simp [Heap.markedOf, find_mark_self hf]

/-- Case analysis of the tracer body: either it does nothing (missing,
invalid, or already-marked target), or it marks and enqueues the target. -/
theorem traceTarget_eq (h : Heap) (q : List Nat) (p : Nat) :
    (traceTarget h q p = (h, q) ∧
      (h.validOf p = false ∨ h.markedOf p = true)) ∨
    (h.validOf p = true ∧ h.markedOf p = false ∧
      traceTarget h q p = (h.mark p, p :: q)) := by
  unfold traceTarget
  cases hf : h.find p with
  | none => exact Or.inl ⟨rfl, Or.inl (by simp [Heap.validOf, hf])⟩
  | some b =>
      by_cases hv : b.valid
      · by_cases hm : b.marked
        · exact Or.inl ⟨by simp [hv, hm], Or.inr (by simp [Heap.markedOf, hf, hm])⟩
        · refine Or.inr ⟨by simp [Heap.validOf, hf, hv], ?_, by simp [hv, hm]⟩
          rw [markedOf_find hf]
          simpa using hm
      · refine Or.inl ⟨by simp [hv], Or.inl ?_⟩
        simp [Heap.validOf, hf]
        simpa using hv

theorem traceTarget_markedLe (h : Heap) (q : List Nat) (p : Nat) :
    MarkedLe h (traceTarget h q p).1 := by
  rcases traceTarget_eq h q p with ⟨he, _⟩ | ⟨_, _, he⟩ <;> rw [he]
  · exact MarkedLe.refl h
  · exact mark_markedLe h p

theorem traceTarget_measure (h : Heap) (q : List Nat) (p : Nat) :
    (traceTarget h q p).1.unmarkedCount + (traceTarget h q p).2.length ≤
      h.unmarkedCount + q.length := by
  rcases traceTarget_eq h q p with ⟨he, _⟩ | ⟨hv, hm, he⟩ <;> rw [he]
  obtain ⟨b, hf, _⟩ := validOf_exists hv
  rw [markedOf_find hf] at hm
  have := lcount_mark_lt hf hm
  simp only [Heap.unmarkedCount, Heap.mark, List.length_cons]
  omega

theorem traceTarget_queue_sup (h : Heap) (q : List Nat) (p : Nat) :
    ∀ x ∈ q, x ∈ (traceTarget h q p).2 := by
  rcases traceTarget_eq h q p with ⟨he, _⟩ | ⟨_, _, he⟩ <;> rw [he] <;>
    intro x hx
  · exact hx
  · exact List.mem_cons_of_mem p hx

theorem traceTarget_queue_sub (h : Heap) (q : List Nat) (p : Nat) :
    ∀ x ∈ (traceTarget h q p).2, x = p ∨ x ∈ q := by
  rcases traceTarget_eq h q p with ⟨he, _⟩ | ⟨_, _, he⟩ <;> rw [he] <;>
    intro x hx
  · exact Or.inr hx
  · simpa using hx

theorem traceTarget_marks (h : Heap) (q : List Nat) (p : Nat)
    (hv : h.validOf p = true) : (traceTarget h q p).1.markedOf p = true := by
  rcases traceTarget_eq h q p with ⟨he, hc⟩ | ⟨hv2, _, he⟩ <;> rw [he]
  · rcases hc with hc | hc
    · rw [hv] at hc; cases hc
    · exact hc
  · obtain ⟨b, hf, _⟩ := validOf_exists hv2
    exact markedOf_mark_self hf

theorem traceTarget_marked_of (h : Heap) (q : List Nat) (p : Nat) (x : Nat)
    (hm : (traceTarget h q p).1.markedOf x = true) :
    h.markedOf x = true ∨ x ∈ (traceTarget h q p).2 := by
  rcases traceTarget_eq h q p with ⟨he, _⟩ | ⟨_, _, he⟩ <;> rw [he] at hm ⊢
  · exact Or.inl hm
  · rcases markedOf_mark hm with he2 | hm2
    · exact Or.inr (by simp [he2])
    · exact Or.inl hm2

theorem traceTarget_queue_marked (h : Heap) (q : List Nat) (p : Nat)
    (hq : ∀ x ∈ q, h.markedOf x = true) :
    ∀ x ∈ (traceTarget h q p).2, (traceTarget h q p).1.markedOf x = true := by
  intro x hx
  rcases traceTarget_eq h q p with ⟨he, _⟩ | ⟨hv, _, he⟩ <;> rw [he] at hx ⊢
  · exact hq x hx
  · rcases List.mem_cons.mp hx with he2 | hxq
    · subst he2
      obtain ⟨b, hf, _⟩ := validOf_exists hv
      exact markedOf_mark_self hf
    · exact (mark_markedLe h p).markedOf_mono x (hq x hxq)

theorem traceMany_markedLe : ∀ (ps : List Nat) (h : Heap) (q : List Nat),
    MarkedLe h (traceMany h q ps).1 := by
  intro ps
  induction ps with
  | nil => intro h q; exact MarkedLe.refl h
  | cons p ps ih =>
      intro h q
      rw [traceMany]
      exact (traceTarget_markedLe h q p).trans
        (ih (traceTarget h q p).1 (traceTarget h q p).2)

theorem traceMany_measure : ∀ (ps : List Nat) (h : Heap) (q : List Nat),
    (traceMany h q ps).1.unmarkedCount + (traceMany h q ps).2.length ≤
      h.unmarkedCount + q.length := by
  intro ps
  induction ps with
  | nil => intro h q; rw [traceMany]
  | cons p ps ih =>
      intro h q
      rw [traceMany]
      exact le_trans (ih (traceTarget h q p).1 (traceTarget h q p).2)
        (traceTarget_measure h q p)

theorem traceMany_queue_sup : ∀ (ps : List Nat) (h : Heap) (q : List Nat),
    ∀ x ∈ q, x ∈ (traceMany h q ps).2 := by
  intro ps
  induction ps with
  | nil => intro h q x hx; exact hx
  | cons p ps ih =>
      intro h q x hx
      rw [traceMany]
      exact ih (traceTarget h q p).1 (traceTarget h q p).2 x
        (traceTarget_queue_sup h q p x hx)

theorem traceMany_queue_sub : ∀ (ps : List Nat) (h : Heap) (q : List Nat),
    ∀ x ∈ (traceMany h q ps).2, x ∈ ps ∨ x ∈ q := by
  intro ps
  induction ps with
  | nil => intro h q x hx; exact Or.inr hx
  | cons p ps ih =>
      intro h q x hx
      rw [traceMany] at hx
      rcases ih (traceTarget h q p).1 (traceTarget h q p).2 x hx with hps | hq2
      · exact Or.inl (List.mem_cons_of_mem p hps)
      · rcases traceTarget_queue_sub h q p x hq2 with he | hq3
        · exact Or.inl (by simp [he])
        · exact Or.inr hq3

theorem traceMany_marks : ∀ (ps : List Nat) (h : Heap) (q : List Nat),
    ∀ s ∈ ps, h.validOf s = true → (traceMany h q ps).1.markedOf s = true := by
  intro ps
  induction ps with
  | nil => intro h q s hs; cases hs
  | cons p ps ih =>
      intro h q s hs hv
      rw [traceMany]
      rcases List.mem_cons.mp hs with he | hs2
      · subst he
        exact (traceMany_markedLe ps (traceTarget h q s).1
            (traceTarget h q s).2).markedOf_mono s
          (traceTarget_marks h q s hv)
      · refine ih (traceTarget h q p).1 (traceTarget h q p).2 s hs2 ?_
        rw [(traceTarget_markedLe h q p).validOf_eq s]
        exact hv

theorem traceMany_marked_of : ∀ (ps : List Nat) (h : Heap) (q : List Nat),
    ∀ x, (traceMany h q ps).1.markedOf x = true →
      h.markedOf x = true ∨ x ∈ (traceMany h q ps).2 := by
  intro ps
  induction ps with
  | nil => intro h q x hm; exact Or.inl hm
  | cons p ps ih =>
      intro h q x hm
      rw [traceMany] at hm ⊢
      rcases ih (traceTarget h q p).1 (traceTarget h q p).2 x hm with hm1 | hq2
      · rcases traceTarget_marked_of h q p x hm1 with hm0 | hq1
        · exact Or.inl hm0
        · exact Or.inr (traceMany_queue_sup ps (traceTarget h q p).1
            (traceTarget h q p).2 x hq1)
      · exact Or.inr hq2

theorem traceMany_queue_marked : ∀ (ps : List Nat) (h : Heap) (q : List Nat),
    (∀ x ∈ q, h.markedOf x = true) →
    ∀ x ∈ (traceMany h q ps).2, (traceMany h q ps).1.markedOf x = true := by
  intro ps
  induction ps with
  | nil => intro h q hq x hx; exact hq x hx
  | cons p ps ih =>
      intro h q hq x hx
      rw [traceMany] at hx ⊢
      exact ih (traceTarget h q p).1 (traceTarget h q p).2
        (traceTarget_queue_marked h q p hq) x hx

theorem traceTarget_queue_valid (h : Heap) (q : List Nat) (p : Nat)
    (hq : ∀ x ∈ q, h.validOf x = true) :
    ∀ x ∈ (traceTarget h q p).2, h.validOf x = true := by
  intro x hx
  rcases traceTarget_eq h q p with ⟨he, _⟩ | ⟨hv, _, he⟩ <;> rw [he] at hx
  · exact hq x hx
  · rcases List.mem_cons.mp hx with he2 | hxq
    · exact he2 ▸ hv
    · exact hq x hxq

theorem traceMany_queue_valid : ∀ (ps : List Nat) (h : Heap) (q : List Nat),
    (∀ x ∈ q, h.validOf x = true) →
    ∀ x ∈ (traceMany h q ps).2, h.validOf x = true := by
  intro ps
  induction ps with
  | nil => intro h q hq x hx; exact hq x hx
  | cons p ps ih =>
      intro h q hq x hx
      rw [traceMany] at hx
      have hq1 : ∀ y ∈ (traceTarget h q p).2, (traceTarget h q p).1.validOf y = true := by
        intro y hy
        rw [(traceTarget_markedLe h q p).validOf_eq y]
        exact traceTarget_queue_valid h q p hq y hy
      have := ih (traceTarget h q p).1 (traceTarget h q p).2 hq1 x hx
      rwa [(traceTarget_markedLe h q p).validOf_eq x] at this

theorem traceRoots_markedLe (h : Heap) : ∀ (rs : List (List Nat)),
    MarkedLe h (traceRoots h rs).1 := by
  intro rs
  induction rs with
  | nil => exact MarkedLe.refl h
  | cons r rs ih =>
      rw [traceRoots]
      exact ih.trans (traceMany_markedLe r (traceRoots h rs).1 (traceRoots h rs).2)

theorem traceRoots_measure (h : Heap) : ∀ (rs : List (List Nat)),
    (traceRoots h rs).1.unmarkedCount + (traceRoots h rs).2.length ≤
      h.unmarkedCount := by
  intro rs
  induction rs with
  | nil => rw [traceRoots]; simp
  | cons r rs ih =>
      rw [traceRoots]
      exact le_trans
        (traceMany_measure r (traceRoots h rs).1 (traceRoots h rs).2) ih

theorem traceRoots_marks (h : Heap) : ∀ (rs : List (List Nat)),
    ∀ r ∈ rs, ∀ p ∈ r, h.validOf p = true →
      (traceRoots h rs).1.markedOf p = true := by
  intro rs
  induction rs with
  | nil => intro r hr; cases hr
  | cons r0 rs ih =>
      intro r hr p hp hv
      rw [traceRoots]
      rcases List.mem_cons.mp hr with he | hr2
      · subst he
        refine traceMany_marks r (traceRoots h rs).1 (traceRoots h rs).2 p hp ?_
        rw [(traceRoots_markedLe h rs).validOf_eq p]
        exact hv
      · exact (traceMany_markedLe r0 (traceRoots h rs).1
          (traceRoots h rs).2).markedOf_mono p (ih r hr2 p hp hv)

theorem traceRoots_marked_of (h : Heap) : ∀ (rs : List (List Nat)),
    ∀ x, (traceRoots h rs).1.markedOf x = true →
      h.markedOf x = true ∨ x ∈ (traceRoots h rs).2 := by
  intro rs
  induction rs with
  | nil => intro x hm; exact Or.inl hm
  | cons r rs ih =>
      intro x hm
      rw [traceRoots] at hm ⊢
      rcases traceMany_marked_of r (traceRoots h rs).1 (traceRoots h rs).2 x hm
        with hm1 | hq
      · rcases ih x hm1 with hm0 | hq0
        · exact Or.inl hm0
        · exact Or.inr (traceMany_queue_sup r (traceRoots h rs).1
            (traceRoots h rs).2 x hq0)
      · exact Or.inr hq

theorem traceRoots_queue_sub (h : Heap) : ∀ (rs : List (List Nat)),
    ∀ x ∈ (traceRoots h rs).2, ∃ r ∈ rs, x ∈ r := by
  intro rs
  induction rs with
  | nil => intro x hx; cases hx
  | cons r rs ih =>
      intro x hx
      rw [traceRoots] at hx
      rcases traceMany_queue_sub r (traceRoots h rs).1 (traceRoots h rs).2 x hx
        with hr | hq
      · exact ⟨r, List.mem_cons_self r rs, hr⟩
      · obtain ⟨r2, hr2, hx2⟩ := ih x hq
        exact ⟨r2, List.mem_cons_of_mem r hr2, hx2⟩

theorem traceRoots_queue_valid (h : Heap) : ∀ (rs : List (List Nat)),
    ∀ x ∈ (traceRoots h rs).2, h.validOf x = true := by
  intro rs
  induction rs with
  | nil => intro x hx; cases hx
  | cons r rs ih =>
      intro x hx
      rw [traceRoots] at hx
      have hq : ∀ y ∈ (traceRoots h rs).2, (traceRoots h rs).1.validOf y = true := by
        intro y hy
        rw [(traceRoots_markedLe h rs).validOf_eq y]
        exact ih y hy
      have := traceMany_queue_valid r (traceRoots h rs).1 (traceRoots h rs).2 hq x hx
      rwa [(traceRoots_markedLe h rs).validOf_eq x] at this

theorem traceRoots_queue_marked (h : Heap) : ∀ (rs : List (List Nat)),
    ∀ x ∈ (traceRoots h rs).2, (traceRoots h rs).1.markedOf x = true := by
  intro rs
  induction rs with
  | nil => intro x hx; cases hx
  | cons r rs ih =>
      intro x hx
      rw [traceRoots] at hx ⊢
      exact traceMany_queue_marked r (traceRoots h rs).1 (traceRoots h rs).2 ih x hx

theorem markLoop_markedLe : ∀ (fuel : Nat) (h : Heap) (q : List Nat),
    MarkedLe h (markLoop fuel h q) := by
  intro fuel
  induction fuel with
  | zero =>
      intro h q
      cases q <;> exact MarkedLe.refl h
  | succ fuel ih =>
      intro h q
      cases q with
      | nil => exact MarkedLe.refl h
      | cons p rest =>
          rw [markLoop]
          exact (traceMany_markedLe (succsOf h p) h rest).trans
            (ih (traceMany h rest (succsOf h p)).1
              (traceMany h rest (succsOf h p)).2)

/-- Soundness of the worklist loop: it only marks boxes reachable from the
roots in the original heap. -/
theorem markLoop_sound (roots : List (List Nat)) (h0 : Heap) :
    ∀ (fuel : Nat) (h : Heap) (q : List Nat),
      MarkedLe h0 h →
      (∀ x, h.markedOf x = true → Reachable roots h0 x) →
      (∀ x ∈ q, Reachable roots h0 x) →
      (∀ x ∈ q, h.validOf x = true) →
      ∀ x, (markLoop fuel h q).markedOf x = true → Reachable roots h0 x := by
  intro fuel
  induction fuel with
  | zero =>
      intro h q _ hmk _ _ x hm
      cases q <;> exact hmk x hm
  | succ fuel ih =>
      intro h q hle hmk hqr hqv x hm
      cases q with
      | nil => exact hmk x hm
      | cons p rest =>
          rw [markLoop] at hm
          have hb0 : ∀ s ∈ succsOf h p, h0.validOf s = true →
              Reachable roots h0 s := by
            intro s hs hv
            have hsucc : succsOf h p = succsOf h0 p := hle.succsOf_eq p
            rw [hsucc] at hs
            cases hf0 : h0.find p with
            | none => rw [succsOf, hf0] at hs; cases hs
            | some b =>
                rw [succsOf, hf0] at hs
                exact Reachable.step p s (hqr p (List.mem_cons_self p rest))
                  b hf0 hs hv
          refine ih (traceMany h rest (succsOf h p)).1
            (traceMany h rest (succsOf h p)).2 ?_ ?_ ?_ ?_ x hm
          · exact hle.trans (traceMany_markedLe (succsOf h p) h rest)
          · intro y hy
            rcases traceMany_marked_of (succsOf h p) h rest y hy with hm1 | hq1
            · exact hmk y hm1
            · have hvq := traceMany_queue_valid (succsOf h p) h rest
                (fun z hz => hqv z (List.mem_cons_of_mem p hz)) y hq1
              have hv0 : h0.validOf y = true := by
                rwa [← hle.validOf_eq y]
              rcases traceMany_queue_sub (succsOf h p) h rest y hq1 with hs | hr
              · exact hb0 y hs hv0
              · exact hqr y (List.mem_cons_of_mem p hr)
          · intro y hy
            have hvq := traceMany_queue_valid (succsOf h p) h rest
              (fun z hz => hqv z (List.mem_cons_of_mem p hz)) y hy
            have hv0 : h0.validOf y = true := by
              rwa [← hle.validOf_eq y]
            rcases traceMany_queue_sub (succsOf h p) h rest y hy with hs | hr
            · exact hb0 y hs hv0
            · exact hqr y (List.mem_cons_of_mem p hr)
          · intro y hy
            have hvq := traceMany_queue_valid (succsOf h p) h rest
              (fun z hz => hqv z (List.mem_cons_of_mem p hz)) y hy
            rwa [(traceMany_markedLe (succsOf h p) h rest).validOf_eq y]

/-- Closure property established by the completed mark phase: every marked
box has all its valid successors marked. -/
def Closed (h : Heap) : Prop :=
  ∀ p, h.markedOf p = true → ∀ s ∈ succsOf h p, h.validOf s = true →
    h.markedOf s = true

/-- Completeness of the worklist loop: with sufficient fuel (the unmarked
count plus the queue length) the loop drains the queue and closes the mark
set under tracing. -/
theorem markLoop_comp : ∀ (fuel : Nat) (h : Heap) (q : List Nat),
    h.unmarkedCount + q.length ≤ fuel →
    (∀ x ∈ q, h.markedOf x = true) →
    (∀ x, h.markedOf x = true → x ∈ q ∨
      (∀ s ∈ succsOf h x, h.validOf s = true → h.markedOf s = true)) →
    Closed (markLoop fuel h q) := by
  intro fuel
  induction fuel with
  | zero =>
      intro h q hf hqm hinv
      cases q with
      | nil =>
          intro p hm s hs hv
          rcases hinv p hm with hq | hc
          · cases hq
          · exact hc s hs hv
      | cons p rest => simp at hf
  | succ fuel ih =>
      intro h q hf hqm hinv
      cases q with
      | nil =>
          intro p hm s hs hv
          rcases hinv p hm with hq | hc
          · cases hq
          · exact hc s hs hv
      | cons p rest =>
          rw [markLoop]
          set tm := traceMany h rest (succsOf h p) with htm
          have hle : MarkedLe h tm.1 := traceMany_markedLe (succsOf h p) h rest
          refine ih tm.1 tm.2 ?_ ?_ ?_
          · have hme := traceMany_measure (succsOf h p) h rest
            rw [← htm] at hme
            simp only [List.length_cons] at hf
            omega
          · exact traceMany_queue_marked (succsOf h p) h rest
              (fun z hz => hqm z (List.mem_cons_of_mem p hz))
          · intro x hmx
            rcases traceMany_marked_of (succsOf h p) h rest x hmx with hm1 | hq1
            · rcases hinv x hm1 with hq0 | hc0
              · rcases List.mem_cons.mp hq0 with he | hr
                · subst he
                  right
                  intro s hs hv
                  rw [hle.succsOf_eq x] at hs
                  rw [hle.validOf_eq s] at hv
                  exact traceMany_marks (succsOf h x) h rest s hs hv
                · exact Or.inl (traceMany_queue_sup (succsOf h p) h rest x hr)
              · right
                intro s hs hv
                rw [hle.succsOf_eq x] at hs
                rw [hle.validOf_eq s] at hv
                exact hle.markedOf_mono s (hc0 s hs hv)
            · exact Or.inl hq1

/-- The whole mark phase: seed from the registered roots, then drain the
worklist. -/
def markPhase (roots : List (List Nat)) (h : Heap) : Heap :=
  let hq := traceRoots h roots
  markLoop (hq.1.unmarkedCount + hq.2.length) hq.1 hq.2

theorem collect_eq (roots : List (List Nat)) (h : Heap) :
    collect roots h = sweep (markPhase roots h) := rfl

theorem markPhase_markedLe (roots : List (List Nat)) (h : Heap) :
    MarkedLe h (markPhase roots h) :=
  (traceRoots_markedLe h roots).trans
    (markLoop_markedLe _ (traceRoots h roots).1 (traceRoots h roots).2)

/-- The mark phase marks exactly the boxes reachable from the registered
roots (starting from an all-unmarked heap, as the collector maintains). -/
theorem markPhase_marked_iff (roots : List (List Nat)) (h0 : Heap)
    (hunmarked : ∀ p, h0.markedOf p = false) :
    ∀ p, (markPhase roots h0).markedOf p = true ↔ Reachable roots h0 p := by
  have hq1r : ∀ x ∈ (traceRoots h0 roots).2, Reachable roots h0 x := by
    intro x hx
    obtain ⟨r, hr, hxr⟩ := traceRoots_queue_sub h0 roots x hx
    exact Reachable.root r hr x hxr (traceRoots_queue_valid h0 roots x hx)
  intro p
  constructor
  · intro hm
    refine markLoop_sound roots h0 _ (traceRoots h0 roots).1
      (traceRoots h0 roots).2 (traceRoots_markedLe h0 roots) ?_ hq1r ?_ p hm
    · intro x hx
      rcases traceRoots_marked_of h0 roots x hx with hm0 | hq
      · rw [hunmarked x] at hm0; cases hm0
      · exact hq1r x hq
    · intro x hx
      rw [(traceRoots_markedLe h0 roots).validOf_eq x]
      exact traceRoots_queue_valid h0 roots x hx
  · intro hr
    have hclosed : Closed (markPhase roots h0) := by
      refine markLoop_comp _ (traceRoots h0 roots).1 (traceRoots h0 roots).2
        le_rfl (traceRoots_queue_marked h0 roots) ?_
      intro x hx
      rcases traceRoots_marked_of h0 roots x hx with hm0 | hq
      · rw [hunmarked x] at hm0; cases hm0
      · exact Or.inl hq
    have hle : MarkedLe h0 (markPhase roots h0) := markPhase_markedLe roots h0
    induction hr with
    | root r hrr q hq hv =>
        exact (markLoop_markedLe _ (traceRoots h0 roots).1
            (traceRoots h0 roots).2).markedOf_mono q
          (traceRoots_marks h0 roots r hrr q hq hv)
    | step q s hq b hb hs hv ih =>
        refine hclosed q ih s ?_ ?_
        · rw [hle.succsOf_eq q, succsOf, hb]
          exact hs
        · rw [hle.validOf_eq s]
          exact hv

/-- The per-box transformation applied by the sweep loop. -/
def sweepF (x : Nat × BoxB) : Option (Nat × BoxB) :=
  if x.2.marked then some (x.1, { x.2 with marked := false })
  else if x.2.ptrs == 0 then none
  else some (x.1, { x.2 with valid := false })

theorem sweepF_key {x y : Nat × BoxB} (hf : sweepF x = some y) : y.1 = x.1 := by
  unfold sweepF at hf
  by_cases hm : x.2.marked
  · rw [if_pos hm] at hf; cases hf; rfl
  · rw [if_neg hm] at hf
    by_cases hp : (x.2.ptrs == 0) = true
    · rw [if_pos hp] at hf; cases hf
    · rw [if_neg hp] at hf; cases hf; rfl

theorem sweep_foldl : ∀ (l : List (Nat × BoxB)) (acc : List (Nat × BoxB)),
    l.foldl (fun acc x =>
      if x.2.marked then (x.1, { x.2 with marked := false }) :: acc
      else if x.2.ptrs == 0 then acc
      else (x.1, { x.2 with valid := false }) :: acc) acc
    = (l.filterMap sweepF).reverse ++ acc := by
  intro l
  induction l with
  | nil => intro acc; simp
  | cons x l ih =>
      intro acc
      rw [List.foldl_cons, List.filterMap_cons]
      by_cases hm : x.2.marked
      · simp only [if_pos hm, sweepF, List.reverse_cons]
        rw [ih]
        simp
      · by_cases hp : (x.2.ptrs == 0) = true
        · simp only [if_neg hm, if_pos hp, sweepF]
          rw [ih]
        · simp only [if_neg hm, if_neg hp, sweepF, List.reverse_cons]
          rw [ih]
          simp

theorem sweep_boxes (h : Heap) :
    (sweep h).boxes = (h.boxes.filterMap sweepF).reverse := by
  rw [sweep, sweep_foldl]
  simp

theorem keys_filterMap_sublist : ∀ (l : List (Nat × BoxB)),
    ((l.filterMap sweepF).map Prod.fst).Sublist (l.map Prod.fst) := by
  intro l
  induction l with
  | nil => simp
  | cons x l ih =>
      rw [List.filterMap_cons]
      cases hf : sweepF x with
      | none => exact ih.cons x.1
      | some y =>
          simp only [List.map_cons, sweepF_key hf]
          exact ih.cons₂ x.1

theorem forall₂_keys_eq : ∀ {l1 l2 : List (Nat × BoxB)},
    List.Forall₂ boxLe l1 l2 → l1.map Prod.fst = l2.map Prod.fst := by
  intro l1 l2 hle
  induction hle with
  | nil => rfl
  | cons hxy _ ih => simp [hxy.1, ih]

theorem MarkedLe.keys_eq {h h2 : Heap} (hle : MarkedLe h h2) :
    h.boxes.map Prod.fst = h2.boxes.map Prod.fst :=
  forall₂_keys_eq hle

theorem lfind_of_mem : ∀ {l : List (Nat × BoxB)} {p : Nat} {b : BoxB},
    (l.map Prod.fst).Nodup → (p, b) ∈ l → lfind l p = some b := by
  intro l
  induction l with
  | nil => intro p b _ hm; cases hm
  | cons x l ih =>
      intro p b hnd hm
      rw [List.map_cons, List.nodup_cons] at hnd
      rcases List.mem_cons.mp hm with he | hm2
      · subst he
        rw [lfind_cons, if_pos rfl]
      · rw [lfind_cons]
        have hx1 : x.1 ≠ p := by
          intro he
          exact hnd.1 (he ▸ (List.mem_map.mpr ⟨(p, b), hm2, rfl⟩))
        rw [if_neg hx1]
        exact ih hnd.2 hm2

theorem mem_of_lfind : ∀ {l : List (Nat × BoxB)} {p : Nat} {b : BoxB},
    lfind l p = some b → (p, b) ∈ l := by
  intro l
  induction l with
  | nil => intro p b hf; simp [lfind] at hf
  | cons x l ih =>
      intro p b hf
      rw [lfind_cons] at hf
      by_cases hp : x.1 = p
      · rw [if_pos hp] at hf
        cases hf
        subst hp
        exact List.mem_cons_self x l
      · rw [if_neg hp] at hf
        exact List.mem_cons_of_mem x (ih hf)

theorem lfind_eq_none_iff : ∀ {l : List (Nat × BoxB)} {p : Nat},
    lfind l p = none ↔ ∀ b, (p, b) ∉ l := by
  intro l
  induction l with
  | nil => intro p; simp [lfind]
  | cons x l ih =>
      intro p
      rw [lfind_cons]
      by_cases hp : x.1 = p
      · rw [if_pos hp]
        constructor
        · intro hf; cases hf
        · intro hb
          subst hp
          exact absurd (List.mem_cons_self x l) (hb x.2)
      · rw [if_neg hp]
        rw [ih]
        constructor
        · intro hb b hm
          rcases List.mem_cons.mp hm with he | hm2
          · exact hp (congrArg Prod.fst he.symm)
          · exact hb b hm2
        · intro hb b hm
          exact hb b (List.mem_cons_of_mem x hm)

theorem keys_unique : ∀ {l : List (Nat × BoxB)} {p : Nat} {a b : BoxB},
    (l.map Prod.fst).Nodup → (p, a) ∈ l → (p, b) ∈ l → a = b := by
  intro l p a b hnd ha hb
  have h1 := lfind_of_mem hnd ha
  have h2 := lfind_of_mem hnd hb
  rw [h1] at h2
  cases h2
  rfl

theorem sweep_keys_nodup {h : Heap} (hnd : (h.boxes.map Prod.fst).Nodup) :
    ((sweep h).boxes.map Prod.fst).Nodup := by
  rw [sweep_boxes, List.map_reverse, List.nodup_reverse]
  exact List.Sublist.nodup (keys_filterMap_sublist h.boxes) hnd

theorem sweep_find_marked {h : Heap} {p : Nat} {b : BoxB}
    (hnd : (h.boxes.map Prod.fst).Nodup)
    (hf : h.find p = some b) (hm : b.marked = true) :
    (sweep h).find p = some { b with marked := false } := by
  have hmem : (p, { b with marked := false }) ∈ (sweep h).boxes := by
    rw [sweep_boxes, List.mem_reverse]
    exact List.mem_filterMap.mpr ⟨(p, b), mem_of_lfind hf, by simp [sweepF, hm]⟩
  exact lfind_of_mem (sweep_keys_nodup hnd) hmem

theorem sweep_find_kept {h : Heap} {p : Nat} {b : BoxB}
    (hnd : (h.boxes.map Prod.fst).Nodup)
    (hf : h.find p = some b) (hm : b.marked = false) (hp : b.ptrs ≠ 0) :
    (sweep h).find p = some { b with valid := false } := by
  have hmem : (p, { b with valid := false }) ∈ (sweep h).boxes := by
    rw [sweep_boxes, List.mem_reverse]
    refine List.mem_filterMap.mpr ⟨(p, b), mem_of_lfind hf, ?_⟩
    simp [sweepF, hm, hp]
  exact lfind_of_mem (sweep_keys_nodup hnd) hmem

theorem sweep_find_deleted {h : Heap} {p : Nat} {b : BoxB}
    (hnd : (h.boxes.map Prod.fst).Nodup)
    (hf : h.find p = some b) (hm : b.marked = false) (hp : b.ptrs = 0) :
    (sweep h).find p = none := by
  rw [Heap.find, lfind_eq_none_iff]
  intro b2 hmem
  rw [sweep_boxes, List.mem_reverse] at hmem
  obtain ⟨x, hx, hfx⟩ := List.mem_filterMap.mp hmem
  have hkey : x.1 = p := by
    have := sweepF_key hfx
    simpa using this.symm
  have hxmem : (p, x.2) ∈ h.boxes := by
    have : x = (p, x.2) := by
      rw [← hkey]
    rw [← this]
    exact hx
  have hxb : x.2 = b := keys_unique hnd hxmem (mem_of_lfind hf)
  rw [show x = (p, x.2) by rw [← hkey], hxb] at hfx
  simp [sweepF, hm, hp] at hfx

theorem markedOf_false_of_entries {h : Heap}
    (hu : ∀ x ∈ h.boxes, x.2.marked = false) : ∀ p, h.markedOf p = false := by
  intro p
  unfold Heap.markedOf
  cases hf : h.find p with
  | none => rfl
  | some b => exact hu (p, b) (mem_of_lfind hf)

theorem Reachable.valid {roots : List (List Nat)} {h : Heap} {p : Nat}
    (hr : Reachable roots h p) : h.validOf p = true := by
  cases hr with
  | root r hrr p hp hv => exact hv
  | step q p hq b hb hp hv => exact hv

/-- C2: after any collection, every cell reachable from a registered live
root (through chains of valid cells) is still valid, and every cell that is
unreachable from the roots and held by no weak handle has had its payload
destroyed and its header freed (it is gone from the box list).  The
hypotheses state that box ids (addresses) are distinct and that all mark
flags are clear when the collection starts, as the collector maintains. -/
theorem gc_collect_reachability_closure (roots : List (List Nat)) (h : Heap)
    (hnd : (h.boxes.map Prod.fst).Nodup)
    (hu : ∀ x ∈ h.boxes, x.2.marked = false) :
    (∀ p, Reachable roots h p → (collect roots h).validOf p = true) ∧
    (∀ p b, h.find p = some b → ¬ Reachable roots h p → b.ptrs = 0 →
      (collect roots h).find p = none) := by
  have hum := markedOf_false_of_entries hu
  have hiff := markPhase_marked_iff roots h hum
  have hle : MarkedLe h (markPhase roots h) := markPhase_markedLe roots h
  have hndM : ((markPhase roots h).boxes.map Prod.fst).Nodup := by
    rwa [← hle.keys_eq]
  constructor
  · intro p hr
    obtain ⟨b, hf, hbv⟩ := validOf_exists hr.valid
    rcases hle.find_rel p with ⟨he, _⟩ | ⟨b1, bM, hf1, hfM, hvv, _, _, _⟩
    · rw [hf] at he; cases he
    · rw [hf] at hf1
      cases hf1
      have hmM : bM.marked = true := by
        have := (hiff p).mpr hr
        rwa [markedOf_find hfM] at this
      rw [collect_eq, Heap.validOf, sweep_find_marked hndM hfM hmM]
      rw [← hvv]
      exact hbv
  · intro p b hf hnr hp0
    rcases hle.find_rel p with ⟨he, _⟩ | ⟨b1, bM, hf1, hfM, _, hpp, _, _⟩
    · rw [hf] at he; cases he
    · rw [hf] at hf1
      cases hf1
      have hmM : bM.marked = false := by
        cases hc : bM.marked
        · rfl
        · exact absurd ((hiff p).mp (by rw [markedOf_find hfM, hc]))  hnr
      have hptrs : bM.ptrs = 0 := by rw [← hpp]; exact hp0
      rw [collect_eq]
      exact sweep_find_deleted hndM hfM hmM hptrs

/-- Concrete heap for the C2 witness: box 0 is a root target pointing at
box 1; box 2 is garbage with no weak handles. -/
def gcDemoHeap : Heap :=
  ⟨[(0, ⟨true, false, 0, [1]⟩), (1, ⟨true, false, 0, []⟩),
    (2, ⟨true, false, 0, []⟩)]⟩

theorem gc_collect_reachability_closure_witness :
    (collect [[0]] gcDemoHeap).validOf 1 = true ∧
    (collect [[0]] gcDemoHeap).find 2 = none := by
  have hth := gc_collect_reachability_closure [[0]] gcDemoHeap
    (by decide) (by decide)
  constructor
  · refine hth.1 1 ?_
    refine Reachable.step 0 1 ?_ ⟨true, false, 0, [1]⟩ (by decide)
      (by decide) (by decide)
    exact Reachable.root [0] (by simp) 0 (by simp) (by decide)
  · refine hth.2 2 ⟨true, false, 0, []⟩ (by decide) ?_ rfl
    intro hr
    cases hr with
    | root r hrr p hp hv =>
        simp only [List.mem_singleton] at hrr
        subst hrr
        simp at hp
    | step q p hq b hb hp hv =>
        have hmem := mem_of_lfind hb
        fin_cases hmem <;> simp_all

/-- Concrete heap for C3: a single unreachable cell held by one weak
handle. -/
def weakHeldHeap : Heap := ⟨[(0, ⟨true, false, 1, []⟩)]⟩

/-- C3 counterexample: a cell held by a weak handle at collection time is
NOT seeded into the mark worklist and does NOT survive the sweep with its
payload intact — the collector destroys its payload (valid flag cleared)
and only retains the header. -/
theorem gc_weakheld_destroyed_counterexample :
    (markPhase [] weakHeldHeap).markedOf 0 = false ∧
    (collect [] weakHeldHeap).validOf 0 = false ∧
    (collect [] weakHeldHeap).find 0 ≠ none := by decide

/-- C3 amended: the mark phase seeds its worklist only from the registered
roots; a cell whose weak-handle refcount is nonzero but which is
unreachable from the roots is left unmarked, so the sweep destroys its
payload (clearing the valid flag) and retains only its header for the
outstanding weak handles. -/
theorem gc_weakheld_sweep_amended (roots : List (List Nat)) (h : Heap)
    (hnd : (h.boxes.map Prod.fst).Nodup)
    (hu : ∀ x ∈ h.boxes, x.2.marked = false)
    (p : Nat) (b : BoxB)
    (hf : h.find p = some b) (hnr : ¬ Reachable roots h p) (hp : b.ptrs ≠ 0) :
    (collect roots h).find p =
      some ⟨false, false, b.ptrs, b.succs⟩ := by
  have hum := markedOf_false_of_entries hu
  have hiff := markPhase_marked_iff roots h hum
  have hle : MarkedLe h (markPhase roots h) := markPhase_markedLe roots h
  have hndM : ((markPhase roots h).boxes.map Prod.fst).Nodup := by
    rwa [← hle.keys_eq]
  rcases hle.find_rel p with ⟨he, _⟩ | ⟨b1, bM, hf1, hfM, _, hpp, hss, _⟩
  · rw [hf] at he; cases he
  · rw [hf] at hf1
    cases hf1
    have hmM : bM.marked = false := by
      cases hc : bM.marked
      · rfl
      · exact absurd ((hiff p).mp (by rw [markedOf_find hfM, hc])) hnr
    have hptrs : bM.ptrs ≠ 0 := by rw [← hpp]; exact hp
    rw [collect_eq, sweep_find_kept hndM hfM hmM hptrs]
    cases bM
    simp_all

theorem gc_weakheld_sweep_amended_witness :
    (collect [] weakHeldHeap).find 0 = some ⟨false, false, 1, []⟩ := by
  refine gc_weakheld_sweep_amended [] weakHeldHeap (by decide) (by decide)
    0 ⟨true, false, 1, []⟩ (by decide) ?_ (by decide)
  intro hr
  cases hr with
  | root r hrr p hp hv => simp at hrr
  | step q p hq b hb hp hv =>
      have hmem := mem_of_lfind hb
      fin_cases hmem
      simp_all

end GC

namespace KlassModel

/-!
Shallow embedding of the class method tables from `value.h`/`value.cpp`.
A `Ptr<bool>` validity token is a heap cell of booleans, modelled as an
index into a token list; `Ptr<Klass>` is an index into a class list.
Method values are opaque to the caching algorithm and are modelled as
natural numbers.
-/

/-- `detail::MethodEntry`: a value, an ownership flag, and the id of the
shared `Ptr<bool>` validity token. -/
structure MEntry where
  value : Nat
  own : Bool
  valid : Nat
deriving Repr, DecidableEq

/-- The mutable part of a `Klass`: its method table, its `klass` (meta)
handle and its optional `base` handle.  The property bag plays no role in
method lookup and is omitted. -/
structure KlassD where
  methods : List (String × MEntry)
  klass : Option Nat
  base : Option Nat
deriving Repr, DecidableEq

/-- The heap as the method-cache algorithm sees it: all class objects and
all allocated `Ptr<bool>` token cells. -/
structure World where
  classes : List KlassD
  tokens : List Bool
deriving Repr, DecidableEq

/-- Dereference a `Ptr<Klass>`. -/
def World.cls (w : World) (c : Nat) : Option KlassD :=
  w.classes[c]?

/-- Dereference a `Ptr<bool>` token (false for a dangling id, which never
occurs in reachable worlds). -/
def World.token (w : World) (t : Nat) : Bool :=
  w.tokens.getD t false

/-- `*ptr = v` on a token cell. -/
def World.setToken (w : World) (t : Nat) (v : Bool) : World :=
  { w with tokens := w.tokens.set t v }

/-- `ctx.alloc<bool>(v)`: appends a fresh token cell and returns its id. -/
def World.allocToken (w : World) (v : Bool) : World × Nat :=
  ({ w with tokens := w.tokens ++ [v] }, w.tokens.length)

/-- In-place update of a class object. -/
def World.updateCls (w : World) (c : Nat) (k : KlassD) : World :=
  { w with classes := w.classes.set c k }

/-- `methods.find(name)` on an `unordered_map` modelled as an association
list with distinct keys. -/
def mfind (m : List (String × MEntry)) (n : String) : Option MEntry :=
  (m.find? (fun x => x.1 == n)).map Prod.snd

/-- `methods.insert_or_assign(name, e)`. -/
def minsert : List (String × MEntry) → String → MEntry → List (String × MEntry)
  | [], n, e => [(n, e)]
  | x :: l, n, e => if x.1 = n then (n, e) :: l else x :: minsert l n e

/-- `methods.erase(name)`. -/
def merase : List (String × MEntry) → String → List (String × MEntry)
  | [], _ => []
  | x :: l, n => if x.1 = n then l else x :: merase l n

/-- The method entry stored at class `c` under name `n`. -/
def entryAt (w : World) (c : Nat) (n : String) : Option MEntry :=
  (w.cls c).bind (fun k => mfind k.methods n)

/-- The OWNED method entry at class `c` under `n` (cached inherited entries
are not owned). -/
def ownOf (w : World) (c : Nat) (n : String) : Option MEntry :=
  match entryAt w c n with
  | some e => if e.own then some e else none
  | none => none

/-- The base (superclass) pointer of class `c`. -/
def baseOf (w : World) (c : Nat) : Option Nat :=
  (w.cls c).bind (fun k => k.base)

/-- The nearest class on the base chain of `c` (starting at `c` itself)
holding an owned entry for `n`, with that entry.  Fuel-indexed; the number
of classes bounds every well-formed chain. -/
def ownerAt : Nat → World → Nat → String → Option (Nat × MEntry)
  | 0, _, _, _ => none
  | fuel + 1, w, c, n =>
      match w.cls c with
      | none => none
      | some k =>
          match mfind k.methods n with
          | some e =>
              if e.own then some (c, e)
              else
                match k.base with
                | none => none
                | some b => ownerAt fuel w b n
          | none =>
              match k.base with
              | none => none
              | some b => ownerAt fuel w b n

/-- The specification-side lookup from the claim: a naive walk of the base
chain to the nearest class holding an owned entry for `n`, returning that
entry's value (ignoring all cached inherited entries and tokens). -/
def naiveLookup (w : World) (c : Nat) (n : String) : Option Nat :=
  (ownerAt (w.classes.length + 1) w c n).map (fun x => x.2.value)

/-- `Klass::lookup_rec` from value.cpp: consult the own table (purging an
invalidated cached entry), otherwise look up the base chain and cache the
found pair (value, token) as an inherited entry.  Returns the found pair
and the updated world; fuel-indexed. -/
def lookupRec : Nat → World → Nat → String → Option (Nat × Nat) × World
  | 0, w, _, _ => (none, w)
  | fuel + 1, w, c, n =>
      match w.cls c with
      | none => (none, w)
      | some k =>
          let step : World → Option Nat → Option (Nat × Nat) × World :=
            fun w1 base =>
              match base with
              | none => (none, w1)
              | some b =>
                  let r := lookupRec fuel w1 b n
                  match r.1 with
                  | none => (none, r.2)
                  | some vt =>
                      match r.2.cls c with
                      | none => (some vt, r.2)
                      | some k3 =>
                          (some vt, r.2.updateCls c
                            { k3 with methods :=
                                minsert k3.methods n ⟨vt.1, false, vt.2⟩ })
          match mfind k.methods n with
          | some e =>
              if e.own || w.token e.valid then (some (e.value, e.valid), w)
              else step (w.updateCls c { k with methods := merase k.methods n })
                k.base
          | none => step w k.base

/-- `Klass::lookup`. -/
def lookup (w : World) (c : Nat) (n : String) : Option Nat × World :=
  let r := lookupRec (w.classes.length + 1) w c n
  (r.1.map Prod.fst, r.2)

/-- `Klass::remove`: removes only owned entries, flipping their token. -/
def remove (w : World) (c : Nat) (n : String) : Option Nat × World :=
  match w.cls c with
  | none => (none, w)
  | some k =>
      match mfind k.methods n with
      | some e =>
          if e.own then
            ((some e.value),
              (w.setToken e.valid false).updateCls c
                { k with methods := merase k.methods n })
          else (none, w)
      | none => (none, w)

/-- `Klass::define_fixup`: walk the base chain; at the first owned entry,
flip its token and give it a fresh one; erase cached entries on the way. -/
def defineFixup : Nat → World → Nat → String → World
  | 0, w, _, _ => w
  | fuel + 1, w, c, n =>
      match w.cls c with
      | none => w
      | some k =>
          match mfind k.methods n with
          | some e =>
              if e.own then
                let w2 := w.setToken e.valid false
                let a := w2.allocToken true
                a.1.updateCls c
                  { k with methods := minsert k.methods n { e with valid := a.2 } }
              else
                let w2 := w.updateCls c { k with methods := merase k.methods n }
                match k.base with
                | none => w2
                | some b => defineFixup fuel w2 b n
          | none =>
              match k.base with
              | none => w
              | some b => defineFixup fuel w b n

/-- `Klass::define`: update an owned entry in place (flipping its token and
allocating a fresh one), or run the fixup pass on the base chain and insert
a new owned entry with a fresh token. -/
def define (w : World) (c : Nat) (n : String) (v : Nat) : World :=
  match w.cls c with
  | none => w
  | some k =>
      let slow : World :=
        let w2 := match k.base with
          | none => w
          | some b => defineFixup (w.classes.length + 1) w b n
        let a := w2.allocToken true
        match a.1.cls c with
        | none => a.1
        | some k3 =>
            a.1.updateCls c
              { k3 with methods := minsert k3.methods n ⟨v, true, a.2⟩ }
      match mfind k.methods n with
      | some e =>
          if e.own then
            let w2 := w.setToken e.valid false
            let a := w2.allocToken true
            a.1.updateCls c
              { k with methods := minsert k.methods n ⟨v, true, a.2⟩ }
          else slow
      | none => slow

/-- One interface operation on the class system. -/
inductive Op where
  | defineOp (c : Nat) (n : String) (v : Nat)
  | removeOp (c : Nat) (n : String)
  | lookupOp (c : Nat) (n : String)
deriving Repr, DecidableEq

/-- Applying an operation to the world (lookup mutates the caches). -/
def applyOp (w : World) : Op → World
  | .defineOp c n v => define w c n v
  | .removeOp c n => (remove w c n).2
  | .lookupOp c n => (lookup w c n).2

/-- Running a sequence of interface operations. -/
def runOps (w : World) (ops : List Op) : World :=
  ops.foldl applyOp w

theorem mfind_cons (x : String × MEntry) (l : List (String × MEntry)) (n : String) :
    mfind (x :: l) n = if x.1 = n then some x.2 else mfind l n := by
  by_cases h : x.1 = n
  · simp [mfind, List.find?_cons_of_pos, h]
  · simp [mfind, List.find?_cons_of_neg, h]

theorem mfind_minsert_self : ∀ (m : List (String × MEntry)) (n : String) (e : MEntry),
    mfind (minsert m n e) n = some e := by
  intro m
  induction m with
  | nil => intro n e; simp [minsert, mfind_cons]
  | cons x l ih =>
      intro n e
      rw [minsert]
      by_cases h : x.1 = n
      · rw [if_pos h, mfind_cons, if_pos rfl]
      · rw [if_neg h, mfind_cons, if_neg h]
        exact ih n e

theorem mfind_minsert_other : ∀ (m : List (String × MEntry)) (n n2 : String)
    (e : MEntry), n2 ≠ n → mfind (minsert m n e) n2 = mfind m n2 := by
  intro m
  induction m with
  | nil =>
      intro n n2 e hne
      simp [minsert, mfind_cons, mfind, Ne.symm hne]
  | cons x l ih =>
      intro n n2 e hne
      rw [minsert]
      by_cases h : x.1 = n
      · rw [if_pos h, mfind_cons, mfind_cons,
          if_neg (fun he => hne he.symm),
          if_neg (fun (he : x.1 = n2) => hne (he.symm.trans h))]
      · rw [if_neg h, mfind_cons, mfind_cons]
        by_cases h2 : x.1 = n2
        · rw [if_pos h2, if_pos h2]
        · rw [if_neg h2, if_neg h2]
          exact ih n n2 e hne

theorem mfind_merase_other : ∀ (m : List (String × MEntry)) (n n2 : String),
    n2 ≠ n → mfind (merase m n) n2 = mfind m n2 := by
  intro m
  induction m with
  | nil => intro n n2 _; simp [merase]
  | cons x l ih =>
      intro n n2 hne
      rw [merase]
      by_cases h : x.1 = n
      · rw [if_pos h, mfind_cons,
          if_neg (fun (he : x.1 = n2) => hne (he.symm.trans h))]
      · rw [if_neg h, mfind_cons, mfind_cons]
        by_cases h2 : x.1 = n2
        · rw [if_pos h2, if_pos h2]
        · rw [if_neg h2, if_neg h2]
          exact ih n n2 hne

theorem mfind_merase_self : ∀ (m : List (String × MEntry)) (n : String),
    (m.map Prod.fst).Nodup → mfind (merase m n) n = none := by
  intro m
  induction m with
  | nil => intro n _; simp [merase, mfind]
  | cons x l ih =>
      intro n hnd
      rw [List.map_cons, List.nodup_cons] at hnd
      rw [merase]
      by_cases h : x.1 = n
      · rw [if_pos h]
        have hfn : List.find? (fun y => y.1 == n) l = none := by
          rw [List.find?_eq_none]
          intro y hy hbeq
          have hy1 : y.1 = n := by simpa using hbeq
          refine hnd.1 ?_
          rw [h, ← hy1]
          exact List.mem_map.mpr ⟨y, hy, rfl⟩
        simp [mfind, hfn]
      · rw [if_neg h, mfind_cons, if_neg h]
        exact ih n hnd.2

theorem keys_minsert_subset : ∀ (m : List (String × MEntry)) (n : String)
    (e : MEntry) (y : String), y ∈ (minsert m n e).map Prod.fst →
      y = n ∨ y ∈ m.map Prod.fst := by
  intro m
  induction m with
  | nil =>
      intro n e y hy
      rw [minsert] at hy
      simp at hy
      exact Or.inl hy
  | cons x l ih =>
      intro n e y hy
      rw [minsert] at hy
      by_cases h : x.1 = n
      · rw [if_pos h] at hy
        rcases List.mem_map.mp hy with ⟨z, hz, hzy⟩
        rcases List.mem_cons.mp hz with he | hz2
        · subst he; exact Or.inl hzy.symm
        · exact Or.inr (List.mem_map.mpr ⟨z, List.mem_cons_of_mem x hz2, hzy⟩)
      · rw [if_neg h] at hy
        rcases List.mem_map.mp hy with ⟨z, hz, hzy⟩
        rcases List.mem_cons.mp hz with he | hz2
        · subst he
          exact Or.inr (by simp [← hzy])
        · rcases ih n e y (List.mem_map.mpr ⟨z, hz2, hzy⟩) with hn | hm
          · exact Or.inl hn
          · exact Or.inr (List.mem_cons_of_mem x.1 hm)

theorem keys_minsert_nodup : ∀ (m : List (String × MEntry)) (n : String)
    (e : MEntry), (m.map Prod.fst).Nodup → ((minsert m n e).map Prod.fst).Nodup := by
  intro m
  induction m with
  | nil => intro n e _; simp [minsert]
  | cons x l ih =>
      intro n e hnd
      rw [List.map_cons, List.nodup_cons] at hnd
      rw [minsert]
      by_cases h : x.1 = n
      · rw [if_pos h]
        rw [List.map_cons, List.nodup_cons]
        exact ⟨h ▸ hnd.1, hnd.2⟩
      · rw [if_neg h]
        rw [List.map_cons, List.nodup_cons]
        refine ⟨?_, ih n e hnd.2⟩
        intro hx
        rcases keys_minsert_subset l n e x.1 hx with he | hm
        · exact h he
        · exact hnd.1 hm

theorem keys_merase_sublist : ∀ (m : List (String × MEntry)) (n : String),
    ((merase m n).map Prod.fst).Sublist (m.map Prod.fst) := by
  intro m
  induction m with
  | nil => intro n; simp [merase]
  | cons x l ih =>
      intro n
      rw [merase]
      by_cases h : x.1 = n
      · rw [if_pos h, List.map_cons]
        exact (List.Sublist.refl _).cons x.1
      · rw [if_neg h, List.map_cons, List.map_cons]
        exact (ih n).cons₂ x.1

theorem keys_merase_nodup (m : List (String × MEntry)) (n : String)
    (hnd : (m.map Prod.fst).Nodup) : ((merase m n).map Prod.fst).Nodup :=
  List.Sublist.nodup (keys_merase_sublist m n) hnd

theorem cls_lt {w : World} {c : Nat} {k : KlassD} (hc : w.cls c = some k) :
    c < w.classes.length := by
  by_contra hn
  rw [World.cls, List.getElem?_eq_none (by omega)] at hc
  cases hc

theorem cls_update_self {w : World} {c : Nat} {k0 : KlassD}
    (hc : w.cls c = some k0) (k : KlassD) :
    (w.updateCls c k).cls c = some k := by
  rw [World.updateCls, World.cls]
  show (w.classes.set c k)[c]? = some k
  rw [List.getElem?_set_self']
  rw [World.cls] at hc
  rw [List.getElem?_eq_getElem (cls_lt hc)]
  rfl

theorem cls_update_other (w : World) (c : Nat) (k : KlassD) (d : Nat)
    (hd : d ≠ c) : (w.updateCls c k).cls d = w.cls d := by
  rw [World.updateCls, World.cls, World.cls]
  exact List.getElem?_set_ne (fun he => hd he.symm)

theorem cls_update_length (w : World) (c : Nat) (k : KlassD) :
    (w.updateCls c k).classes.length = w.classes.length := by
  simp [World.updateCls]

theorem tokens_update (w : World) (c : Nat) (k : KlassD) :
    (w.updateCls c k).tokens = w.tokens := rfl

theorem classes_setToken (w : World) (t : Nat) (v : Bool) :
    (w.setToken t v).classes = w.classes := rfl

theorem classes_allocToken (w : World) (v : Bool) :
    (w.allocToken v).1.classes = w.classes := rfl

theorem token_set_self {w : World} {t : Nat} (ht : t < w.tokens.length)
    (v : Bool) : (w.setToken t v).token t = v := by
  simp [World.setToken, World.token, List.getD_eq_getElem?_getD,
    List.getElem?_set_self', List.getElem?_eq_getElem ht]

theorem token_set_other (w : World) (t : Nat) (v : Bool) (t2 : Nat)
    (ht : t2 ≠ t) : (w.setToken t v).token t2 = w.token t2 := by
  simp [World.setToken, World.token, List.getD_eq_getElem?_getD,
    List.getElem?_set_ne (fun he => ht he.symm)]

theorem tokens_set_length (w : World) (t : Nat) (v : Bool) :
    (w.setToken t v).tokens.length = w.tokens.length := by
  simp [World.setToken]

theorem token_alloc_old (w : World) (v : Bool) (t : Nat)
    (ht : t < w.tokens.length) : (w.allocToken v).1.token t = w.token t := by
  simp [World.allocToken, World.token, List.getD_eq_getElem?_getD,
    List.getElem?_append_left ht]

theorem token_alloc_new (w : World) (v : Bool) :
    (w.allocToken v).1.token (w.allocToken v).2 = v := by
  simp [World.allocToken, World.token, List.getD_eq_getElem?_getD,
    List.getElem?_append_right (le_refl w.tokens.length)]

theorem tokens_alloc_length (w : World) (v : Bool) :
    (w.allocToken v).1.tokens.length = w.tokens.length + 1 := by
  simp [World.allocToken]

theorem token_default (w : World) {t : Nat} (ht : w.tokens.length ≤ t) :
    w.token t = false := by
  simp [World.token, List.getD_eq_getElem?_getD, List.getElem?_eq_none ht]

/-- Well-formed base chains: allocation order makes every base id smaller
than the class id (the spec's chain-termination invariant). -/
def WF (w : World) : Prop :=
  ∀ c b, baseOf w c = some b → b < c

/-- `ownerAt` restated through the owned-entry view. -/
theorem ownerAt_succ (fuel : Nat) (w : World) (c : Nat) (n : String) :
    ownerAt (fuel + 1) w c n =
      match w.cls c with
      | none => none
      | some k =>
          match ownOf w c n with
          | some e => some (c, e)
          | none =>
              match k.base with
              | none => none
              | some b => ownerAt fuel w b n := by
  cases hc : w.cls c with
  | none => simp [ownerAt, hc]
  | some k =>
      cases hm : mfind k.methods n with
      | none => simp [ownerAt, hc, ownOf, entryAt, hm]
      | some e =>
          by_cases ho : e.own = true
          · simp [ownerAt, hc, ownOf, entryAt, hm, ho]
          · simp only [Bool.not_eq_true] at ho
            simp [ownerAt, hc, ownOf, entryAt, hm, ho]

theorem ownerAt_none {w : World} {c : Nat} (hc : w.cls c = none)
    (fuel : Nat) (n : String) : ownerAt (fuel + 1) w c n = none := by
  rw [ownerAt_succ]
  simp [hc]

theorem ownerAt_own {w : World} {c : Nat} {k : KlassD} {n : String} {e : MEntry}
    (hc : w.cls c = some k) (ho : ownOf w c n = some e) (fuel : Nat) :
    ownerAt (fuel + 1) w c n = some (c, e) := by
  rw [ownerAt_succ]
  simp [hc, ho]

theorem ownerAt_base {w : World} {c : Nat} {k : KlassD} {n : String} {b : Nat}
    (hc : w.cls c = some k) (ho : ownOf w c n = none)
    (hb : k.base = some b) (fuel : Nat) :
    ownerAt (fuel + 1) w c n = ownerAt fuel w b n := by
  rw [ownerAt_succ]
  simp [hc, ho, hb]

theorem ownerAt_base_none {w : World} {c : Nat} {k : KlassD} {n : String}
    (hc : w.cls c = some k) (ho : ownOf w c n = none)
    (hb : k.base = none) (fuel : Nat) :
    ownerAt (fuel + 1) w c n = none := by
  rw [ownerAt_succ]
  simp [hc, ho, hb]

theorem ownerAt_fuel_ge {w : World} (hwf : WF w) :
    ∀ c, ∀ fuel, c + 1 ≤ fuel → ∀ n, ownerAt fuel w c n = ownerAt (c + 1) w c n := by
  intro c
  induction c using Nat.strong_induction_on with
  | _ c ih =>
      intro fuel hfuel n
      match fuel, hfuel with
      | fuel + 1, hfuel =>
        cases hc : w.cls c with
        | none => rw [ownerAt_none hc, ownerAt_none hc]
        | some k =>
            cases ho : ownOf w c n with
            | some e => rw [ownerAt_own hc ho, ownerAt_own hc ho]
            | none =>
                cases hb : k.base with
                | none => rw [ownerAt_base_none hc ho hb, ownerAt_base_none hc ho hb]
                | some b =>
                    have hblt : b < c := hwf c b (by rw [baseOf, hc]; exact hb)
                    rw [ownerAt_base hc ho hb, ownerAt_base hc ho hb]
                    rw [ih b hblt fuel (by omega) n, ih b hblt c (by omega) n]

/-- `ownerAt` with the canonical fuel used by the interface functions. -/
def ownerTop (w : World) (c : Nat) (n : String) : Option (Nat × MEntry) :=
  ownerAt (w.classes.length + 1) w c n

theorem ownerTop_none {w : World} {c : Nat} (hc : w.cls c = none) (n : String) :
    ownerTop w c n = none :=
  ownerAt_none hc _ n

theorem ownerTop_own {w : World} {c : Nat} {k : KlassD} {n : String} {e : MEntry}
    (hc : w.cls c = some k) (ho : ownOf w c n = some e) :
    ownerTop w c n = some (c, e) :=
  ownerAt_own hc ho _

theorem ownerTop_base {w : World} {c : Nat} {k : KlassD} {n : String} {b : Nat}
    (hwf : WF w) (hc : w.cls c = some k) (ho : ownOf w c n = none)
    (hb : k.base = some b) : ownerTop w c n = ownerTop w b n := by
  have hclt : c < w.classes.length := cls_lt hc
  have hblt : b < c := hwf c b (by rw [baseOf, hc]; exact hb)
  rw [ownerTop, ownerAt_base hc ho hb, ownerTop]
  rw [ownerAt_fuel_ge hwf b w.classes.length (by omega) n,
    ownerAt_fuel_ge hwf b (w.classes.length + 1) (by omega) n]

theorem ownerTop_base_none {w : World} {c : Nat} {k : KlassD} {n : String}
    (hc : w.cls c = some k) (ho : ownOf w c n = none)
    (hb : k.base = none) : ownerTop w c n = none :=
  ownerAt_base_none hc ho hb _

/-- Owners found by the chain walk are genuine owned entries. -/
theorem ownerAt_entryAt : ∀ (fuel : Nat) (w : World) (c : Nat) (n : String)
    {a : Nat} {e : MEntry}, ownerAt fuel w c n = some (a, e) →
      entryAt w a n = some e ∧ e.own = true := by
  intro fuel
  induction fuel with
  | zero => intro w c n a e h; rw [ownerAt] at h; cases h
  | succ fuel ih =>
      intro w c n a e h
      cases hc : w.cls c with
      | none => rw [ownerAt_none hc] at h; cases h
      | some k =>
          cases ho : ownOf w c n with
          | some e2 =>
              rw [ownerAt_own hc ho] at h
              simp only [Option.some.injEq, Prod.mk.injEq] at h
              obtain ⟨rfl, rfl⟩ := h
              rw [ownOf] at ho
              cases he : entryAt w c n with
              | none => rw [he] at ho; cases ho
              | some e3 =>
                  rw [he] at ho
                  by_cases hown : e3.own = true
                  · simp only [hown, if_true] at ho
                    simp only [Option.some.injEq] at ho
                    subst ho
                    exact ⟨rfl, hown⟩
                  · simp only [hown, if_false] at ho
                    cases ho
          | none =>
              cases hb : k.base with
              | none => rw [ownerAt_base_none hc ho hb] at h; cases h
              | some b =>
                  rw [ownerAt_base hc ho hb] at h
                  exact ih w b n h

theorem ownerTop_entryAt {w : World} {c : Nat} {n : String} {a : Nat} {e : MEntry}
    (h : ownerTop w c n = some (a, e)) : entryAt w a n = some e ∧ e.own = true :=
  ownerAt_entryAt _ w c n h

/-- Chain-walk results change only through the single class whose owned
view changed: either the walk result is untouched, or both walks pass
through the changed class `a0`. -/
theorem ownerAt_one_change {w w2 : World} {n : String} {a0 : Nat}
    (hwf : WF w) (hwf2 : WF w2)
    (hcls : ∀ d, (w2.cls d) = none ↔ (w.cls d) = none)
    (hbase : ∀ d, baseOf w2 d = baseOf w d)
    (hown : ∀ d, d ≠ a0 → ownOf w2 d n = ownOf w d n) :
    ∀ d, ownerTop w2 d n = ownerTop w d n ∨
      (ownerTop w d n = ownerTop w a0 n ∧ ownerTop w2 d n = ownerTop w2 a0 n) := by
  intro d
  induction d using Nat.strong_induction_on with
  | _ d ih =>
      by_cases hd : d = a0
      · subst hd
        exact Or.inr ⟨rfl, rfl⟩
      · cases hc : w.cls d with
        | none =>
            have hc2 : w2.cls d = none := (hcls d).mpr hc
            left
            rw [ownerTop_none hc, ownerTop_none hc2]
        | some k =>
            cases hc2 : w2.cls d with
            | none =>
                rw [(hcls d).mp hc2] at hc
                cases hc
            | some k2 =>
                have hoeq : ownOf w2 d n = ownOf w d n := hown d hd
                cases ho : ownOf w d n with
                | some e =>
                    left
                    rw [ownerTop_own hc ho, ownerTop_own hc2 (hoeq.trans ho)]
                | none =>
                    have hbeq : k2.base = k.base := by
                      have := hbase d
                      rw [baseOf, baseOf, hc, hc2] at this
                      exact this
                    cases hb : k.base with
                    | none =>
                        left
                        rw [ownerTop_base_none hc ho hb,
                          ownerTop_base_none hc2 (hoeq.trans ho) (hbeq.trans hb)]
                    | some b =>
                        have hblt : b < d := hwf d b (by rw [baseOf, hc]; exact hb)
                        rw [ownerTop_base hwf hc ho hb,
                          ownerTop_base hwf2 hc2 (hoeq.trans ho) (hbeq.trans hb)]
                        exact ih b hblt

theorem cls_setToken (w : World) (t : Nat) (v : Bool) (c : Nat) :
    (w.setToken t v).cls c = w.cls c := rfl

theorem cls_allocToken (w : World) (v : Bool) (c : Nat) :
    (w.allocToken v).1.cls c = w.cls c := rfl

theorem entryAt_setToken (w : World) (t : Nat) (v : Bool) (c : Nat) (n : String) :
    entryAt (w.setToken t v) c n = entryAt w c n := rfl

theorem entryAt_allocToken (w : World) (v : Bool) (c : Nat) (n : String) :
    entryAt (w.allocToken v).1 c n = entryAt w c n := rfl

theorem baseOf_setToken (w : World) (t : Nat) (v : Bool) (c : Nat) :
    baseOf (w.setToken t v) c = baseOf w c := rfl

theorem baseOf_allocToken (w : World) (v : Bool) (c : Nat) :
    baseOf (w.allocToken v).1 c = baseOf w c := rfl

theorem entryAt_update_self {w : World} {c : Nat} {k : KlassD}
    (hc : w.cls c = some k) (m : List (String × MEntry)) (n : String) :
    entryAt (w.updateCls c { k with methods := m }) c n = mfind m n := by
  rw [entryAt, cls_update_self hc]
  rfl

theorem entryAt_update_other (w : World) (c : Nat) (k : KlassD) {d : Nat}
    (hd : d ≠ c) (n : String) :
    entryAt (w.updateCls c k) d n = entryAt w d n := by
  rw [entryAt, cls_update_other w c k d hd, entryAt]

theorem baseOf_update_methods {w : World} {c : Nat} {k : KlassD}
    (hc : w.cls c = some k) (m : List (String × MEntry)) (d : Nat) :
    baseOf (w.updateCls c { k with methods := m }) d = baseOf w d := by
  by_cases hd : d = c
  · subst hd
    rw [baseOf, cls_update_self hc, baseOf, hc]
    rfl
  · rw [baseOf, cls_update_other w c _ d hd, baseOf]

theorem clsNone_update (w : World) {c : Nat} {k : KlassD}
    (hc : w.cls c = some k) (k2 : KlassD) (d : Nat) :
    ((w.updateCls c k2).cls d = none ↔ w.cls d = none) := by
  by_cases hd : d = c
  · subst hd
    rw [cls_update_self hc k2, hc]
    simp
  · rw [cls_update_other w c k2 d hd]

theorem wf_update_methods {w : World} {c : Nat} {k : KlassD}
    (hc : w.cls c = some k) (m : List (String × MEntry)) (hwf : WF w) :
    WF (w.updateCls c { k with methods := m }) := by
  intro d b hdb
  rw [baseOf_update_methods hc m d] at hdb
  exact hwf d b hdb

theorem wf_setToken {w : World} (hwf : WF w) (t : Nat) (v : Bool) :
    WF (w.setToken t v) := by
  intro d b hdb
  rw [baseOf_setToken] at hdb
  exact hwf d b hdb

theorem wf_allocToken {w : World} (hwf : WF w) (v : Bool) :
    WF (w.allocToken v).1 := by
  intro d b hdb
  rw [baseOf_allocToken] at hdb
  exact hwf d b hdb

theorem ownOf_congr_entry {w w2 : World} {c : Nat} {n : String}
    (he : entryAt w2 c n = entryAt w c n) : ownOf w2 c n = ownOf w c n := by
  rw [ownOf, ownOf, he]

/-- If no owned view changed at all, the chain walk is unchanged. -/
theorem ownerTop_congr {w w2 : World} {n : String}
    (hlen : w2.classes.length = w.classes.length)
    (hwf : WF w) (hwf2 : WF w2)
    (hcls : ∀ d, (w2.cls d) = none ↔ (w.cls d) = none)
    (hbase : ∀ d, baseOf w2 d = baseOf w d)
    (hown : ∀ d, ownOf w2 d n = ownOf w d n) :
    ∀ d, ownerTop w2 d n = ownerTop w d n := by
  intro d
  rcases @ownerAt_one_change w w2 n w.classes.length hwf hwf2 hcls hbase
      (fun d _ => hown d) d with h | ⟨h1, h2⟩
  · exact h
  · have hcnone : w.cls w.classes.length = none := by
      rw [World.cls, List.getElem?_eq_none (le_refl _)]
    have hcnone2 : w2.cls w.classes.length = none := by
      rw [World.cls, List.getElem?_eq_none (by omega)]
    rw [h1, h2, ownerTop_none hcnone, ownerTop_none hcnone2]

/-- The state invariant of the method-cache machinery, as maintained by
`Klass::define`, `Klass::remove` and `Klass::lookup`:
method maps have distinct keys; every entry's token cell is allocated;
owned entries carry a live token; live tokens of owned entries identify
their entry; and every cached entry whose token is live replicates the
value of the nearest owned entry up the base chain, sharing its token. -/
structure Inv (w : World) : Prop where
  wf : WF w
  nodupKeys : ∀ c k, w.cls c = some k → (k.methods.map Prod.fst).Nodup
  tokBound : ∀ c n e, entryAt w c n = some e → e.valid < w.tokens.length
  ownValid : ∀ c n e, entryAt w c n = some e → e.own = true →
    w.token e.valid = true
  ownTokUnique : ∀ c n e c2 n2 e2, entryAt w c n = some e → e.own = true →
    entryAt w c2 n2 = some e2 → e2.own = true → e.valid = e2.valid →
    c = c2 ∧ n = n2
  cacheOk : ∀ c n e, entryAt w c n = some e → e.own = false →
    w.token e.valid = true →
    ∃ a e2, ownerTop w c n = some (a, e2) ∧
      e2.value = e.value ∧ e2.valid = e.valid

/-- Shape equality: same classes (as a domain) and same base chain. -/
def EquivShape (w w2 : World) : Prop :=
  w2.classes.length = w.classes.length ∧
  (∀ d, (w2.cls d = none ↔ w.cls d = none)) ∧
  (∀ d, baseOf w2 d = baseOf w d)

theorem equivShape_update_methods {w : World} {c : Nat} {k : KlassD}
    (hc : w.cls c = some k) (m : List (String × MEntry)) :
    EquivShape w (w.updateCls c { k with methods := m }) :=
  ⟨cls_update_length w c _, fun d => clsNone_update w hc _ d,
    fun d => baseOf_update_methods hc m d⟩

theorem equivShape_refl (w : World) : EquivShape w w :=
  ⟨rfl, fun _ => Iff.rfl, fun _ => rfl⟩

theorem equivShape_trans {w1 w2 w3 : World} (a : EquivShape w1 w2)
    (b : EquivShape w2 w3) : EquivShape w1 w3 :=
  ⟨b.1.trans a.1, fun d => (b.2.1 d).trans (a.2.1 d),
    fun d => (b.2.2 d).trans (a.2.2 d)⟩

theorem equivShape_setToken (w : World) (t : Nat) (v : Bool) :
    EquivShape w (w.setToken t v) :=
  ⟨rfl, fun _ => Iff.rfl, fun _ => rfl⟩

theorem equivShape_allocToken (w : World) (v : Bool) :
    EquivShape w (w.allocToken v).1 :=
  ⟨rfl, fun _ => Iff.rfl, fun _ => rfl⟩

theorem equivShape_wf {w w2 : World} (hsh : EquivShape w w2) (hwf : WF w) :
    WF w2 := by
  intro d b hdb
  rw [hsh.2.2 d] at hdb
  exact hwf d b hdb

/-- `ownerTop` congruence packaged over `EquivShape`. -/
theorem ownerTop_congr_shape {w w2 : World} {n : String}
    (hsh : EquivShape w w2) (hwf : WF w)
    (hown : ∀ d, ownOf w2 d n = ownOf w d n) :
    ∀ d, ownerTop w2 d n = ownerTop w d n :=
  ownerTop_congr hsh.1 hwf (equivShape_wf hsh hwf) hsh.2.1 hsh.2.2 hown

/-- Erasing a cached (non-owned) entry preserves the invariant and changes
neither the owned views nor the tokens. -/
theorem inv_erase_cache {w : World} {c : Nat} {k : KlassD} {n : String}
    {e : MEntry} (hInv : Inv w) (hc : w.cls c = some k)
    (he : mfind k.methods n = some e) (hno : e.own = false) :
    Inv (w.updateCls c { k with methods := merase k.methods n }) ∧
    EquivShape w (w.updateCls c { k with methods := merase k.methods n }) ∧
    (∀ d n2, ownOf (w.updateCls c { k with methods := merase k.methods n }) d n2 =
      ownOf w d n2) ∧
    (w.updateCls c { k with methods := merase k.methods n }).tokens = w.tokens ∧
    (∀ d n2 e2,
      entryAt (w.updateCls c { k with methods := merase k.methods n }) d n2 =
        some e2 → entryAt w d n2 = some e2) := by
  set w2 := w.updateCls c { k with methods := merase k.methods n } with hw2
  have hsh : EquivShape w w2 := equivShape_update_methods hc _
  have hnd : (k.methods.map Prod.fst).Nodup := hInv.nodupKeys c k hc
  have hsub : ∀ d n2 e2, entryAt w2 d n2 = some e2 → entryAt w d n2 = some e2 := by
    intro d n2 e2 h2
    by_cases hd : d = c
    · subst hd
      rw [entryAt_update_self hc] at h2
      by_cases hn : n2 = n
      · subst hn
        rw [mfind_merase_self k.methods n2 hnd] at h2
        cases h2
      · rw [mfind_merase_other k.methods n n2 hn] at h2
        rw [entryAt, hc]
        exact h2
    · rwa [entryAt_update_other w c _ hd] at h2
  have hown : ∀ d n2, ownOf w2 d n2 = ownOf w d n2 := by
    intro d n2
    by_cases hd : d = c
    · subst hd
      by_cases hn : n2 = n
      · subst hn
        rw [ownOf, ownOf, entryAt_update_self hc,
          mfind_merase_self k.methods n2 hnd, entryAt, hc]
        simp only [Option.some_bind, he]
        simp [hno]
      · rw [ownOf, ownOf, entryAt_update_self hc,
          mfind_merase_other k.methods n n2 hn, entryAt, hc]
        simp only [Option.some_bind]
    · rw [ownOf, ownOf, entryAt_update_other w c _ hd]
  have htok : w2.tokens = w.tokens := rfl
  have htokf : ∀ t, w2.token t = w.token t := fun t => rfl
  refine ⟨?_, hsh, hown, htok, hsub⟩
  constructor
  · exact equivShape_wf hsh hInv.wf
  · intro d kd hkd
    by_cases hd : d = c
    · subst hd
      rw [hw2, cls_update_self hc] at hkd
      cases hkd
      exact keys_merase_nodup k.methods n hnd
    · rw [hw2, cls_update_other w c _ d hd] at hkd
      exact hInv.nodupKeys d kd hkd
  · intro d n2 e2 h2
    rw [htok]
    exact hInv.tokBound d n2 e2 (hsub d n2 e2 h2)
  · intro d n2 e2 h2 hown2
    rw [htokf]
    exact hInv.ownValid d n2 e2 (hsub d n2 e2 h2) hown2
  · intro d n2 e2 d3 n3 e3 h2 ho2 h3 ho3 hv
    exact hInv.ownTokUnique d n2 e2 d3 n3 e3 (hsub d n2 e2 h2) ho2
      (hsub d3 n3 e3 h3) ho3 hv
  · intro d n2 e2 h2 ho2 hv
    rw [htokf] at hv
    obtain ⟨a, e3, hoa, hval, hvd⟩ :=
      hInv.cacheOk d n2 e2 (hsub d n2 e2 h2) ho2 hv
    refine ⟨a, e3, ?_, hval, hvd⟩
    rw [ownerTop_congr_shape hsh hInv.wf (fun d2 => hown d2 n2) d]
    exact hoa

/-- Inserting a fresh cached entry copied from the nearest owner preserves
the invariant and changes neither the owned views nor the tokens. -/
theorem inv_insert_cache {w : World} {c : Nat} {k : KlassD} {n : String}
    {a : Nat} {e2 : MEntry} (hInv : Inv w) (hc : w.cls c = some k)
    (he : entryAt w c n = none) (howner : ownerTop w c n = some (a, e2)) :
    Inv (w.updateCls c
      { k with methods := minsert k.methods n ⟨e2.value, false, e2.valid⟩ }) ∧
    EquivShape w (w.updateCls c
      { k with methods := minsert k.methods n ⟨e2.value, false, e2.valid⟩ }) ∧
    (∀ d n2, ownOf (w.updateCls c
      { k with methods := minsert k.methods n ⟨e2.value, false, e2.valid⟩ }) d n2 =
      ownOf w d n2) ∧
    (w.updateCls c
      { k with methods := minsert k.methods n ⟨e2.value, false, e2.valid⟩ }).tokens =
      w.tokens := by
  set en : MEntry := ⟨e2.value, false, e2.valid⟩ with hen
  set w2 := w.updateCls c { k with methods := minsert k.methods n en } with hw2
  have hsh : EquivShape w w2 := equivShape_update_methods hc _
  have hnd : (k.methods.map Prod.fst).Nodup := hInv.nodupKeys c k hc
  have hcases : ∀ d n2 e3, entryAt w2 d n2 = some e3 →
      (d = c ∧ n2 = n ∧ e3 = en) ∨ entryAt w d n2 = some e3 := by
    intro d n2 e3 h2
    by_cases hd : d = c
    · subst hd
      rw [entryAt_update_self hc] at h2
      by_cases hn : n2 = n
      · subst hn
        rw [mfind_minsert_self] at h2
        cases h2
        exact Or.inl ⟨rfl, rfl, rfl⟩
      · rw [mfind_minsert_other k.methods n n2 en hn] at h2
        right
        rw [entryAt, hc]
        exact h2
    · right
      rwa [entryAt_update_other w c _ hd] at h2
  have hown : ∀ d n2, ownOf w2 d n2 = ownOf w d n2 := by
    intro d n2
    by_cases hd : d = c
    · subst hd
      by_cases hn : n2 = n
      · subst hn
        rw [ownOf, ownOf, entryAt_update_self hc, mfind_minsert_self, he]
        simp [hen]
      · rw [ownOf, ownOf, entryAt_update_self hc,
          mfind_minsert_other k.methods n n2 en hn, entryAt, hc]
        simp only [Option.some_bind]
    · rw [ownOf, ownOf, entryAt_update_other w c _ hd]
  have htok : w2.tokens = w.tokens := rfl
  have htokf : ∀ t, w2.token t = w.token t := fun t => rfl
  have howner2 := ownerTop_entryAt howner
  refine ⟨?_, hsh, hown, htok⟩
  constructor
  · exact equivShape_wf hsh hInv.wf
  · intro d kd hkd
    by_cases hd : d = c
    · subst hd
      rw [hw2, cls_update_self hc] at hkd
      cases hkd
      exact keys_minsert_nodup k.methods n en hnd
    · rw [hw2, cls_update_other w c _ d hd] at hkd
      exact hInv.nodupKeys d kd hkd
  · intro d n2 e3 h2
    rw [htok]
    rcases hcases d n2 e3 h2 with ⟨_, _, he3⟩ | hold
    · subst he3
      exact hInv.tokBound a n e2 howner2.1
    · exact hInv.tokBound d n2 e3 hold
  · intro d n2 e3 h2 ho2
    rw [htokf]
    rcases hcases d n2 e3 h2 with ⟨_, _, he3⟩ | hold
    · subst he3
      cases ho2
    · exact hInv.ownValid d n2 e3 hold ho2
  · intro d n2 e3 d3 n3 e4 h2 ho2 h3 ho3 hv
    rcases hcases d n2 e3 h2 with ⟨_, _, he3⟩ | hold
    · subst he3; cases ho2
    · rcases hcases d3 n3 e4 h3 with ⟨_, _, he4⟩ | hold2
      · subst he4; cases ho3
      · exact hInv.ownTokUnique d n2 e3 d3 n3 e4 hold ho2 hold2 ho3 hv
  · intro d n2 e3 h2 ho2 hv
    rw [htokf] at hv
    have hOTeq : ∀ d2, ownerTop w2 d2 n2 = ownerTop w d2 n2 :=
      ownerTop_congr_shape hsh hInv.wf (fun d2 => hown d2 n2)
    rcases hcases d n2 e3 h2 with ⟨hd, hn, he3⟩ | hold
    · subst hd; subst hn; subst he3
      exact ⟨a, e2, (hOTeq d).trans howner, rfl, rfl⟩
    · obtain ⟨a2, e4, hoa, hval, hvd⟩ := hInv.cacheOk d n2 e3 hold ho2 hv
      exact ⟨a2, e4, (hOTeq d).trans hoa, hval, hvd⟩

theorem lookupRec_clsnone {w : World} {c : Nat} (hc : w.cls c = none)
    (fuel : Nat) (n : String) : lookupRec (fuel + 1) w c n = (none, w) := by
  simp [lookupRec, hc]

theorem lookupRec_hit {w : World} {c : Nat} {k : KlassD} {n : String} {e : MEntry}
    (hc : w.cls c = some k) (he : mfind k.methods n = some e)
    (hcond : (e.own || w.token e.valid) = true) (fuel : Nat) :
    lookupRec (fuel + 1) w c n = (some (e.value, e.valid), w) := by
  simp [lookupRec, hc, he, hcond]

theorem lookupRec_miss_basenone {w : World} {c : Nat} {k : KlassD} {n : String}
    (hc : w.cls c = some k) (he : mfind k.methods n = none)
    (hb : k.base = none) (fuel : Nat) :
    lookupRec (fuel + 1) w c n = (none, w) := by
  simp [lookupRec, hc, he, hb]

/-- The tail of `Klass::lookup_rec` after the recursive base lookup: cache
the found (value, token) pair as an inherited entry. -/
def lookupRecCont (c : Nat) (n : String) (r : Option (Nat × Nat) × World) :
    Option (Nat × Nat) × World :=
  match r.1 with
  | none => (none, r.2)
  | some vt =>
      match r.2.cls c with
      | none => (some vt, r.2)
      | some k3 =>
          (some vt, r.2.updateCls c
            { k3 with methods := minsert k3.methods n ⟨vt.1, false, vt.2⟩ })

theorem lookupRec_miss_base {w : World} {c : Nat} {k : KlassD} {n : String}
    {b : Nat} (hc : w.cls c = some k) (he : mfind k.methods n = none)
    (hb : k.base = some b) (fuel : Nat) :
    lookupRec (fuel + 1) w c n = lookupRecCont c n (lookupRec fuel w b n) := by
  simp [lookupRec, lookupRecCont, hc, he, hb]

theorem lookupRec_purge_basenone {w : World} {c : Nat} {k : KlassD} {n : String}
    {e : MEntry} (hc : w.cls c = some k) (he : mfind k.methods n = some e)
    (hcond : (e.own || w.token e.valid) = false) (hb : k.base = none) (fuel : Nat) :
    lookupRec (fuel + 1) w c n =
      (none, w.updateCls c { k with methods := merase k.methods n }) := by
  simp [lookupRec, hc, he, hcond, hb]

theorem lookupRec_purge_base {w : World} {c : Nat} {k : KlassD} {n : String}
    {e : MEntry} {b : Nat} (hc : w.cls c = some k)
    (he : mfind k.methods n = some e)
    (hcond : (e.own || w.token e.valid) = false) (hb : k.base = some b) (fuel : Nat) :
    lookupRec (fuel + 1) w c n = lookupRecCont c n (lookupRec fuel
      (w.updateCls c { k with methods := merase k.methods n }) b n) := by
  simp [lookupRec, lookupRecCont, hc, he, hcond, hb]

/-- The correctness bundle for one `lookup_rec` call on class `c`: the
returned pair is the (value, token) of the nearest owner, and the world is
only changed by consistent cache traffic. -/
def LookupGood (w : World) (c : Nat) (n : String)
    (r : Option (Nat × Nat) × World) : Prop :=
  r.1 = (ownerTop w c n).map (fun x => (x.2.value, x.2.valid)) ∧
  Inv r.2 ∧ EquivShape w r.2 ∧
  (∀ d n2, ownOf r.2 d n2 = ownOf w d n2) ∧
  r.2.tokens = w.tokens ∧
  (∀ d n2, c < d → entryAt r.2 d n2 = entryAt w d n2)

theorem lookupBase_correct
    {w w1 : World} {c b : Nat} {k : KlassD} {n : String} {fuel : Nat}
    (hInvW : Inv w) (hInv1 : Inv w1)
    (hsh1 : EquivShape w w1)
    (hown1 : ∀ d n2, ownOf w1 d n2 = ownOf w d n2)
    (htok1 : w1.tokens = w.tokens)
    (hent1 : ∀ d n2, d ≠ c → entryAt w1 d n2 = entryAt w d n2)
    (hcw : w.cls c = some k) (hOwnC : ownOf w c n = none)
    (hb : k.base = some b) (hblt : b < c)
    (hentc1 : entryAt w1 c n = none)
    (IH : LookupGood w1 b n (lookupRec fuel w1 b n)) :
    LookupGood w c n (lookupRecCont c n (lookupRec fuel w1 b n)) := by
  obtain ⟨hr1, hrInv, hrsh, hrown, hrtok, hrent⟩ := IH
  have hOT1 : ∀ d, ownerTop w1 d n = ownerTop w d n :=
    ownerTop_congr_shape hsh1 hInvW.wf (fun d => hown1 d n)
  have hOTr : ∀ d, ownerTop (lookupRec fuel w1 b n).2 d n = ownerTop w1 d n :=
    ownerTop_congr_shape hrsh hInv1.wf (fun d => hrown d n)
  have hcb : ownerTop w c n = ownerTop w b n :=
    ownerTop_base hInvW.wf hcw hOwnC hb
  cases hrv : (lookupRec fuel w1 b n).1 with
  | none =>
      have hres : lookupRecCont c n (lookupRec fuel w1 b n) =
          (none, (lookupRec fuel w1 b n).2) := by
        simp [lookupRecCont, hrv]
      rw [hres]
      have hot : ownerTop w1 b n = none := by
        rw [hrv] at hr1
        exact Option.map_eq_none'.mp hr1.symm
      refine ⟨?_, hrInv, equivShape_trans hsh1 hrsh,
        fun d n2 => (hrown d n2).trans (hown1 d n2),
        hrtok.trans htok1, ?_⟩
      · rw [hcb, ← hOT1 b, hot]
        rfl
      · intro d n2 hd
        rw [hrent d n2 (by omega), hent1 d n2 (by omega)]
  | some vt =>
      rw [hrv] at hr1
      cases how : ownerTop w1 b n with
      | none => rw [how] at hr1; cases hr1
      | some ae =>
          rw [how] at hr1
          simp only [Option.map_some', Option.some.injEq] at hr1
          have hwc : ownerTop w c n = some ae := by
            rw [hcb, ← hOT1 b, how]
          cases hk3 : (lookupRec fuel w1 b n).2.cls c with
          | none =>
              have hnone : w1.cls c = none := (hrsh.2.1 c).mp hk3
              have : w.cls c = none := (hsh1.2.1 c).mp hnone
              rw [hcw] at this
              cases this
          | some k3 =>
              have hentc_r : entryAt (lookupRec fuel w1 b n).2 c n = none :=
                (hrent c n hblt).trans hentc1
              have howner3 : ownerTop (lookupRec fuel w1 b n).2 c n =
                  some (ae.1, ae.2) := by
                rw [hOTr c, hOT1 c, hwc]
              obtain ⟨hInvI, hshI, hownI, htokI⟩ :=
                inv_insert_cache hrInv hk3 hentc_r howner3
              have hres : lookupRecCont c n (lookupRec fuel w1 b n) =
                  (some vt, (lookupRec fuel w1 b n).2.updateCls c
                    { k3 with methods :=
                        minsert k3.methods n ⟨vt.1, false, vt.2⟩ }) := by
                simp [lookupRecCont, hrv, hk3]
              rw [hres]
              subst hr1
              refine ⟨?_, hInvI, equivShape_trans (equivShape_trans hsh1 hrsh) hshI,
                fun d n2 => ((hownI d n2).trans (hrown d n2)).trans (hown1 d n2),
                (htokI.trans hrtok).trans htok1, ?_⟩
              · rw [hwc]
                rfl
              · intro d n2 hd
                rw [entryAt_update_other _ c _ (by omega) n2,
                  hrent d n2 (by omega), hent1 d n2 (by omega)]

theorem lookupRec_correct : ∀ c fuel, c + 1 ≤ fuel → ∀ (w : World) (n : String),
    Inv w → LookupGood w c n (lookupRec fuel w c n) := by
  intro c
  induction c using Nat.strong_induction_on with
  | _ c ih =>
      intro fuel hfuel w n hInv
      match fuel, hfuel with
      | fuel + 1, hfuel =>
        cases hc : w.cls c with
        | none =>
            rw [lookupRec_clsnone hc]
            refine ⟨?_, hInv, equivShape_refl w, fun _ _ => rfl, rfl,
              fun _ _ _ => rfl⟩
            rw [ownerTop_none hc]
            rfl
        | some k =>
          cases he : mfind k.methods n with
          | some e =>
              by_cases hcond : (e.own || w.token e.valid) = true
              · rw [lookupRec_hit hc he hcond]
                refine ⟨?_, hInv, equivShape_refl w, fun _ _ => rfl, rfl,
                  fun _ _ _ => rfl⟩
                cases ho : e.own with
                | true =>
                    have hOwnC : ownOf w c n = some e := by
                      rw [ownOf, entryAt, hc]
                      simp [he, ho]
                    rw [ownerTop_own hc hOwnC]
                    rfl
                | false =>
                    have htokv : w.token e.valid = true := by
                      rw [ho] at hcond
                      simpa using hcond
                    have hent : entryAt w c n = some e := by
                      rw [entryAt, hc]
                      simpa using he
                    obtain ⟨a, e2, hoa, hval, hvd⟩ :=
                      hInv.cacheOk c n e hent ho htokv
                    rw [hoa]
                    simp [hval, hvd]
              · have hcond2 : (e.own || w.token e.valid) = false := by
                  simpa using hcond
                have hno : e.own = false := by
                  rcases Bool.or_eq_false_iff.mp hcond2 with ⟨h1, _⟩
                  exact h1
                obtain ⟨hInvE, hshE, hownE, htokE, hsubE⟩ :=
                  inv_erase_cache hInv hc he hno
                have hOwnC : ownOf w c n = none := by
                  rw [ownOf, entryAt, hc]
                  simp [he, hno]
                have hentc1 : entryAt (w.updateCls c
                    { k with methods := merase k.methods n }) c n = none := by
                  rw [entryAt_update_self hc]
                  exact mfind_merase_self _ _ (hInv.nodupKeys c k hc)
                cases hb : k.base with
                | none =>
                    rw [lookupRec_purge_basenone hc he hcond2 hb]
                    refine ⟨?_, hInvE, hshE, hownE, htokE, ?_⟩
                    · rw [ownerTop_base_none hc hOwnC hb]
                      rfl
                    · intro d n2 hd
                      exact entryAt_update_other w c _ (by omega) n2
                | some b =>
                    have hblt : b < c := hInv.wf c b (by rw [baseOf, hc]; exact hb)
                    rw [lookupRec_purge_base hc he hcond2 hb]
                    exact lookupBase_correct hInv hInvE hshE hownE htokE
                      (fun d n2 hd => entryAt_update_other w c _ hd n2)
                      hc hOwnC hb hblt hentc1
                      (ih b hblt fuel (by omega) _ n hInvE)
          | none =>
              have hOwnC : ownOf w c n = none := by
                rw [ownOf, entryAt, hc]
                simp [he]
              have hentc : entryAt w c n = none := by
                rw [entryAt, hc]
                simpa using he
              cases hb : k.base with
              | none =>
                  rw [lookupRec_miss_basenone hc he hb]
                  refine ⟨?_, hInv, equivShape_refl w, fun _ _ => rfl, rfl,
                    fun _ _ _ => rfl⟩
                  rw [ownerTop_base_none hc hOwnC hb]
                  rfl
              | some b =>
                  have hblt : b < c := hInv.wf c b (by rw [baseOf, hc]; exact hb)
                  rw [lookupRec_miss_base hc he hb]
                  exact lookupBase_correct hInv hInv (equivShape_refl w)
                    (fun _ _ => rfl) rfl (fun _ _ _ => rfl)
                    hc hOwnC hb hblt hentc
                    (ih b hblt fuel (by omega) w n hInv)

/-- Renewing an owned entry (flip the old token, allocate a fresh live one,
store a possibly-new value) preserves the invariant.  This is the shared
core of `Klass::define`'s fast path and of `define_fixup`'s stop case. -/
theorem inv_renew_own {w : World} {x : Nat} {k : KlassD} {n : String}
    {e : MEntry} (hInv : Inv w) (hc : w.cls x = some k)
    (he : mfind k.methods n = some e) (ho : e.own = true) (vNew : Nat) :
    Inv (((w.setToken e.valid false).allocToken true).1.updateCls x
      { k with methods := minsert k.methods n ⟨vNew, true, w.tokens.length⟩ }) ∧
    EquivShape w (((w.setToken e.valid false).allocToken true).1.updateCls x
      { k with methods := minsert k.methods n ⟨vNew, true, w.tokens.length⟩ }) ∧
    (∀ d n2, n2 ≠ n →
      entryAt (((w.setToken e.valid false).allocToken true).1.updateCls x
        { k with methods := minsert k.methods n ⟨vNew, true, w.tokens.length⟩ }) d n2 =
      entryAt w d n2) ∧
    (∀ d e2,
      entryAt (((w.setToken e.valid false).allocToken true).1.updateCls x
        { k with methods := minsert k.methods n ⟨vNew, true, w.tokens.length⟩ }) d n =
        some e2 → e2.own = false → entryAt w d n = some e2) ∧
    (∀ d n2, x < d →
      entryAt (((w.setToken e.valid false).allocToken true).1.updateCls x
        { k with methods := minsert k.methods n ⟨vNew, true, w.tokens.length⟩ }) d n2 =
      entryAt w d n2) ∧
    (((w.setToken e.valid false).allocToken true).1.updateCls x
      { k with methods := minsert k.methods n ⟨vNew, true, w.tokens.length⟩ }).tokens.length =
      w.tokens.length + 1 ∧
    (∀ t, t < w.tokens.length → t ≠ e.valid →
      (((w.setToken e.valid false).allocToken true).1.updateCls x
        { k with methods := minsert k.methods n ⟨vNew, true, w.tokens.length⟩ }).token t =
      w.token t) ∧
    (((w.setToken e.valid false).allocToken true).1.updateCls x
      { k with methods := minsert k.methods n ⟨vNew, true, w.tokens.length⟩ }).token e.valid =
      false ∧
    (((w.setToken e.valid false).allocToken true).1.updateCls x
      { k with methods := minsert k.methods n ⟨vNew, true, w.tokens.length⟩ }).token
        w.tokens.length = true ∧
    (∀ d, d ≠ x →
      ownOf (((w.setToken e.valid false).allocToken true).1.updateCls x
        { k with methods := minsert k.methods n ⟨vNew, true, w.tokens.length⟩ }) d n =
      ownOf w d n) ∧
    ownOf (((w.setToken e.valid false).allocToken true).1.updateCls x
      { k with methods := minsert k.methods n ⟨vNew, true, w.tokens.length⟩ }) x n =
      some ⟨vNew, true, w.tokens.length⟩ := by
  set enew : MEntry := ⟨vNew, true, w.tokens.length⟩ with hen
  set wt := ((w.setToken e.valid false).allocToken true).1 with hwt
  set w2 := wt.updateCls x { k with methods := minsert k.methods n enew } with hw2
  have hct : wt.cls x = some k := hc
  have hnd : (k.methods.map Prod.fst).Nodup := hInv.nodupKeys x k hc
  have hevb : e.valid < w.tokens.length :=
    hInv.tokBound x n e (by rw [entryAt, hc]; simpa using he)
  have htlen : w2.tokens.length = w.tokens.length + 1 := by
    rw [hw2, tokens_update]
    rw [hwt, tokens_alloc_length, tokens_set_length]
  have htok_old : ∀ t, t < w.tokens.length → t ≠ e.valid →
      w2.token t = w.token t := by
    intro t ht hne
    show wt.token t = w.token t
    rw [hwt, token_alloc_old _ _ _ (by rw [tokens_set_length]; exact ht),
      token_set_other _ _ _ _ hne]
  have htok_flip : w2.token e.valid = false := by
    show wt.token e.valid = false
    rw [hwt, token_alloc_old _ _ _ (by rw [tokens_set_length]; exact hevb),
      token_set_self (by exact hevb) false]
  have htok_new : w2.token w.tokens.length = true := by
    show wt.token w.tokens.length = true
    have : w.tokens.length = ((w.setToken e.valid false).allocToken true).2 := by
      rw [World.allocToken, tokens_set_length]
    rw [hwt, this]
    exact token_alloc_new (w.setToken e.valid false) true
  have hsh : EquivShape w w2 :=
    equivShape_trans
      (equivShape_trans (equivShape_setToken w e.valid false)
        (equivShape_allocToken (w.setToken e.valid false) true))
      (equivShape_update_methods hct _)
  have hcases : ∀ d n2 e3, entryAt w2 d n2 = some e3 →
      (d = x ∧ n2 = n ∧ e3 = enew) ∨ entryAt w d n2 = some e3 := by
    intro d n2 e3 h2
    by_cases hd : d = x
    · subst hd
      rw [hw2, entryAt_update_self hct] at h2
      by_cases hn : n2 = n
      · subst hn
        rw [mfind_minsert_self] at h2
        cases h2
        exact Or.inl ⟨rfl, rfl, rfl⟩
      · rw [mfind_minsert_other k.methods n n2 enew hn] at h2
        right
        rw [entryAt, hc]
        exact h2
    · right
      rw [hw2, entryAt_update_other wt x _ hd] at h2
      exact h2
  have hent_other : ∀ d n2, n2 ≠ n → entryAt w2 d n2 = entryAt w d n2 := by
    intro d n2 hn
    by_cases hd : d = x
    · subst hd
      rw [hw2, entryAt_update_self hct,
        mfind_minsert_other k.methods n n2 enew hn, entryAt, hc]
      simp only [Option.some_bind]
    · rw [hw2, entryAt_update_other wt x _ hd]
      rfl
  have hent_tall : ∀ d n2, x < d → entryAt w2 d n2 = entryAt w d n2 := by
    intro d n2 hd
    rw [hw2, entryAt_update_other wt x _ (by omega)]
    rfl
  have hent_x : entryAt w2 x n = some enew := by
    rw [hw2, entryAt_update_self hct, mfind_minsert_self]
  have hown_other : ∀ d, d ≠ x → ownOf w2 d n = ownOf w d n := by
    intro d hd
    rw [ownOf, ownOf, hw2, entryAt_update_other wt x _ hd]
    rfl
  have hown_x : ownOf w2 x n = some enew := by
    rw [ownOf, hent_x]
    simp [hen]
  have hsub_cache : ∀ d e2, entryAt w2 d n = some e2 → e2.own = false →
      entryAt w d n = some e2 := by
    intro d e2 h2 ho2
    rcases hcases d n e2 h2 with ⟨_, _, he2⟩ | hold
    · rw [he2, hen] at ho2; cases ho2
    · exact hold
  refine ⟨?_, hsh, hent_other, hsub_cache, hent_tall, htlen, htok_old,
    htok_flip, htok_new, hown_other, hown_x⟩
  constructor
  · exact equivShape_wf hsh hInv.wf
  · intro d kd hkd
    by_cases hd : d = x
    · subst hd
      rw [hw2, cls_update_self hct] at hkd
      cases hkd
      exact keys_minsert_nodup k.methods n enew hnd
    · rw [hw2, cls_update_other wt x _ d hd] at hkd
      exact hInv.nodupKeys d kd hkd
  · intro d n2 e3 h2
    rcases hcases d n2 e3 h2 with ⟨_, _, he3⟩ | hold
    · rw [he3]
      show w.tokens.length < w2.tokens.length
      omega
    · have := hInv.tokBound d n2 e3 hold
      omega
  · intro d n2 e3 h2 ho2
    rcases hcases d n2 e3 h2 with ⟨_, _, he3⟩ | hold
    · rw [he3]
      exact htok_new
    · have hb3 := hInv.tokBound d n2 e3 hold
      by_cases hv3 : e3.valid = e.valid
      · exfalso
        obtain ⟨hdx, hnn⟩ := hInv.ownTokUnique d n2 e3 x n e hold ho2
          (by rw [entryAt, hc]; simpa using he) ho hv3
        subst hdx
        subst hnn
        rw [hent_x] at h2
        have hee : e3 = enew := by simpa using h2.symm
        rw [hee] at hv3
        have hlv : w.tokens.length = e.valid := hv3
        omega
      · rw [htok_old e3.valid hb3 hv3]
        exact hInv.ownValid d n2 e3 hold ho2
  · intro d n2 e3 d3 n3 e4 h2 ho2 h3 ho3 hv
    rcases hcases d n2 e3 h2 with ⟨hdx, hnn, he3⟩ | hold
    · rcases hcases d3 n3 e4 h3 with ⟨hdx2, hnn2, he4⟩ | hold2
      · exact ⟨hdx.trans hdx2.symm, hnn.trans hnn2.symm⟩
      · exfalso
        have hb4 := hInv.tokBound d3 n3 e4 hold2
        rw [he3] at hv
        have hlv : w.tokens.length = e4.valid := hv
        omega
    · rcases hcases d3 n3 e4 h3 with ⟨hdx2, hnn2, he4⟩ | hold2
      · exfalso
        have hb3 := hInv.tokBound d n2 e3 hold
        rw [he4] at hv
        have hlv : e3.valid = w.tokens.length := hv
        omega
      · exact hInv.ownTokUnique d n2 e3 d3 n3 e4 hold ho2 hold2 ho3 hv
  · intro d n2 e3 h2 ho2 htv
    rcases hcases d n2 e3 h2 with ⟨_, _, he3⟩ | hold
    · rw [he3, hen] at ho2; cases ho2
    · have hb3 := hInv.tokBound d n2 e3 hold
      by_cases hv3 : e3.valid = e.valid
      · exfalso
        rw [hv3, htok_flip] at htv
        cases htv
      · rw [htok_old e3.valid hb3 hv3] at htv
        obtain ⟨a, e4, hoa, hval, hvd⟩ := hInv.cacheOk d n2 e3 hold ho2 htv
        by_cases hn2 : n2 = n
        · subst hn2
          have hchange := ownerAt_one_change
            hInv.wf (equivShape_wf hsh hInv.wf)
            hsh.2.1 hsh.2.2 hown_other
          rcases hchange d with hceq | ⟨hcw2, hcw3⟩
          · exact ⟨a, e4, hceq.trans hoa, hval, hvd⟩
          · exfalso
            have hox : ownOf w x n2 = some e := by
              rw [ownOf, entryAt, hc]
              simp [he, ho]
            have hwx : ownerTop w x n2 = some (x, e) := ownerTop_own hc hox
            rw [hoa, hwx] at hcw2
            cases hcw2
            rw [hvd] at hv3
            exact hv3 rfl
        · have howncongr : ∀ d2, ownOf w2 d2 n2 = ownOf w d2 n2 := by
            intro d2
            rw [ownOf, ownOf, hent_other d2 n2 hn2]
          have := ownerTop_congr_shape hsh hInv.wf howncongr d
          exact ⟨a, e4, this.trans hoa, hval, hvd⟩

theorem defineFixup_clsnone {w : World} {c : Nat} (hc : w.cls c = none)
    (fuel : Nat) (n : String) : defineFixup (fuel + 1) w c n = w := by
  simp [defineFixup, hc]

theorem defineFixup_own {w : World} {c : Nat} {k : KlassD} {n : String}
    {e : MEntry} (hc : w.cls c = some k) (he : mfind k.methods n = some e)
    (ho : e.own = true) (fuel : Nat) :
    defineFixup (fuel + 1) w c n =
      ((w.setToken e.valid false).allocToken true).1.updateCls c
        { k with methods :=
            minsert k.methods n ⟨e.value, true, w.tokens.length⟩ } := by
  simp [defineFixup, hc, he, ho, World.allocToken, World.setToken]

theorem defineFixup_cache_basenone {w : World} {c : Nat} {k : KlassD}
    {n : String} {e : MEntry} (hc : w.cls c = some k)
    (he : mfind k.methods n = some e) (ho : e.own = false)
    (hb : k.base = none) (fuel : Nat) :
    defineFixup (fuel + 1) w c n =
      w.updateCls c { k with methods := merase k.methods n } := by
  simp [defineFixup, hc, he, ho, hb]

theorem defineFixup_cache_base {w : World} {c : Nat} {k : KlassD}
    {n : String} {e : MEntry} {b : Nat} (hc : w.cls c = some k)
    (he : mfind k.methods n = some e) (ho : e.own = false)
    (hb : k.base = some b) (fuel : Nat) :
    defineFixup (fuel + 1) w c n =
      defineFixup fuel
        (w.updateCls c { k with methods := merase k.methods n }) b n := by
  simp [defineFixup, hc, he, ho, hb]

theorem defineFixup_absent_basenone {w : World} {c : Nat} {k : KlassD}
    {n : String} (hc : w.cls c = some k) (he : mfind k.methods n = none)
    (hb : k.base = none) (fuel : Nat) :
    defineFixup (fuel + 1) w c n = w := by
  simp [defineFixup, hc, he, hb]

theorem defineFixup_absent_base {w : World} {c : Nat} {k : KlassD}
    {n : String} {b : Nat} (hc : w.cls c = some k)
    (he : mfind k.methods n = none) (hb : k.base = some b) (fuel : Nat) :
    defineFixup (fuel + 1) w c n = defineFixup fuel w b n := by
  simp [defineFixup, hc, he, hb]

theorem token_of_tokens_eq {w w2 : World} (h : w2.tokens = w.tokens) :
    ∀ t, w2.token t = w.token t := by
  intro t
  rw [World.token, World.token, h]

/-- The behavioural specification of `Klass::define_fixup` on name `n`
starting at class `x`: entries under other names are untouched, no cached
entry is created, and if the chain from `x` has a nearest owner `(aF, eF)`
then exactly its token is flipped and replaced by a fresh live one, all
other owned views being preserved. -/
theorem defineFixup_spec : ∀ x fuel, x + 1 ≤ fuel → ∀ (w : World) (n : String),
    Inv w →
    Inv (defineFixup fuel w x n) ∧
    EquivShape w (defineFixup fuel w x n) ∧
    (∀ d n2, n2 ≠ n → entryAt (defineFixup fuel w x n) d n2 = entryAt w d n2) ∧
    (∀ d e2, entryAt (defineFixup fuel w x n) d n = some e2 → e2.own = false →
      entryAt w d n = some e2) ∧
    (∀ d n2, x < d → entryAt (defineFixup fuel w x n) d n2 = entryAt w d n2) ∧
    (match ownerTop w x n with
     | none => (defineFixup fuel w x n).tokens = w.tokens ∧
         (∀ d, ownOf (defineFixup fuel w x n) d n = ownOf w d n)
     | some af =>
         (∀ t, t < w.tokens.length → t ≠ af.2.valid →
           (defineFixup fuel w x n).token t = w.token t) ∧
         (defineFixup fuel w x n).token af.2.valid = false ∧
         (∀ d, d ≠ af.1 → ownOf (defineFixup fuel w x n) d n = ownOf w d n) ∧
         (∃ tF, w.tokens.length ≤ tF ∧
           ownOf (defineFixup fuel w x n) af.1 n =
             some { af.2 with valid := tF } ∧
           (defineFixup fuel w x n).token tF = true) ∧
         w.tokens.length ≤ (defineFixup fuel w x n).tokens.length) := by
  intro x
  induction x using Nat.strong_induction_on with
  | _ x ih =>
      intro fuel hfuel w n hInv
      match fuel, hfuel with
      | fuel + 1, hfuel =>
        cases hc : w.cls x with
        | none =>
            rw [defineFixup_clsnone hc]
            rw [ownerTop_none hc]
            exact ⟨hInv, equivShape_refl w, fun _ _ _ => rfl,
              fun _ _ h _ => h, fun _ _ _ => rfl, rfl, fun _ => rfl⟩
        | some k =>
          cases he : mfind k.methods n with
          | some e =>
            cases ho : e.own with
            | true =>
                rw [defineFixup_own hc he ho]
                obtain ⟨hI, hsh, hother, hsubC, htall, hlen, htokO, htokF,
                  htokN, hoOther, hoX⟩ := inv_renew_own hInv hc he ho e.value
                have hownX : ownOf w x n = some e := by
                  rw [ownOf, entryAt, hc]
                  simp [he, ho]
                rw [ownerTop_own hc hownX]
                refine ⟨hI, hsh, hother, hsubC, htall, htokO, htokF,
                  hoOther, ⟨w.tokens.length, le_rfl, ?_, htokN⟩, by omega⟩
                rw [hoX]
                have hconv : ({ e with valid := w.tokens.length } : MEntry) =
                    ⟨e.value, true, w.tokens.length⟩ := by
                  cases e
                  simp_all
                rw [hconv]
            | false =>
                obtain ⟨hInvE, hshE, hownE, htokE, hsubE⟩ :=
                  inv_erase_cache hInv hc he ho
                have hnd := hInv.nodupKeys x k hc
                have hent1_other : ∀ d n2, n2 ≠ n →
                    entryAt (w.updateCls x
                      { k with methods := merase k.methods n }) d n2 =
                    entryAt w d n2 := by
                  intro d n2 hn
                  by_cases hd : d = x
                  · subst hd
                    rw [entryAt_update_self hc,
                      mfind_merase_other k.methods n n2 hn, entryAt, hc]
                    simp only [Option.some_bind]
                  · rw [entryAt_update_other w x _ hd]
                have hent1_tall : ∀ d n2, x < d →
                    entryAt (w.updateCls x
                      { k with methods := merase k.methods n }) d n2 =
                    entryAt w d n2 := by
                  intro d n2 hd
                  rw [entryAt_update_other w x _ (by omega)]
                have hOT1 : ∀ d, ownerTop (w.updateCls x
                    { k with methods := merase k.methods n }) d n =
                    ownerTop w d n :=
                  ownerTop_congr_shape hshE hInv.wf (fun d => hownE d n)
                have hOwnC : ownOf w x n = none := by
                  rw [ownOf, entryAt, hc]
                  simp [he, ho]
                cases hb : k.base with
                | none =>
                    rw [defineFixup_cache_basenone hc he ho hb]
                    rw [ownerTop_base_none hc hOwnC hb]
                    exact ⟨hInvE, hshE, hent1_other, fun d e2 h h2 => hsubE d n e2 h,
                      hent1_tall, htokE, fun d => hownE d n⟩
                | some b =>
                    have hblt : b < x := hInv.wf x b (by rw [baseOf, hc]; exact hb)
                    rw [defineFixup_cache_base hc he ho hb]
                    obtain ⟨hI2, hsh2, hother2, hsub2, htall2, hmatch2⟩ :=
                      ih b hblt fuel (by omega) _ n hInvE
                    have hcb : ownerTop w x n = ownerTop w b n :=
                      ownerTop_base hInv.wf hc hOwnC hb
                    have htokEf := token_of_tokens_eq htokE
                    have htokElen : (w.updateCls x
                        { k with methods := merase k.methods n }).tokens.length =
                        w.tokens.length := by rw [htokE]
                    refine ⟨hI2, equivShape_trans hshE hsh2, ?_, ?_, ?_, ?_⟩
                    · intro d n2 hn
                      rw [hother2 d n2 hn, hent1_other d n2 hn]
                    · intro d e2 h h2
                      exact hsubE d n e2 (hsub2 d e2 h h2)
                    · intro d n2 hd
                      rw [htall2 d n2 (by omega), hent1_tall d n2 hd]
                    · rw [hcb, ← hOT1 b]
                      rcases hsc : ownerTop (w.updateCls x
                          { k with methods := merase k.methods n }) b n with _ | af
                      · rw [hsc] at hmatch2
                        exact ⟨hmatch2.1.trans htokE,
                          fun d => (hmatch2.2 d).trans (hownE d n)⟩
                      · rw [hsc] at hmatch2
                        obtain ⟨hm1, hm2, hm3, ⟨tF, htF1, htF2, htF3⟩, hm5⟩ := hmatch2
                        refine ⟨?_, ?_, ?_, ⟨tF, ?_, ?_, htF3⟩, ?_⟩
                        · intro t ht hne
                          rw [hm1 t (by omega) hne, htokEf t]
                        · exact hm2
                        · intro d hd
                          rw [hm3 d hd, hownE d n]
                        · omega
                        · exact htF2
                        · omega
          | none =>
              have hOwnC : ownOf w x n = none := by
                rw [ownOf, entryAt, hc]
                simp [he]
              cases hb : k.base with
              | none =>
                  rw [defineFixup_absent_basenone hc he hb]
                  rw [ownerTop_base_none hc hOwnC hb]
                  exact ⟨hInv, equivShape_refl w, fun _ _ _ => rfl,
                    fun _ _ h _ => h, fun _ _ _ => rfl, rfl, fun _ => rfl⟩
              | some b =>
                  have hblt : b < x := hInv.wf x b (by rw [baseOf, hc]; exact hb)
                  rw [defineFixup_absent_base hc he hb]
                  obtain ⟨hI2, hsh2, hother2, hsub2, htall2, hmatch2⟩ :=
                    ih b hblt fuel (by omega) w n hInv
                  have hcb : ownerTop w x n = ownerTop w b n :=
                    ownerTop_base hInv.wf hc hOwnC hb
                  refine ⟨hI2, hsh2, hother2, hsub2, ?_, ?_⟩
                  · intro d n2 hd
                    exact htall2 d n2 (by omega)
                  · rw [hcb]
                    exact hmatch2

theorem remove_own_eq {w : World} {c : Nat} {k : KlassD} {n : String}
    {e : MEntry} (hc : w.cls c = some k) (he : mfind k.methods n = some e)
    (ho : e.own = true) :
    remove w c n = (some e.value, (w.setToken e.valid false).updateCls c
      { k with methods := merase k.methods n }) := by
  simp [remove, hc, he, ho]

theorem remove_unchanged {w : World} {c : Nat} {n : String}
    (h : ∀ k, w.cls c = some k →
      ∀ e, mfind k.methods n = some e → e.own = false) :
    (remove w c n).2 = w := by
  cases hc : w.cls c with
  | none => simp [remove, hc]
  | some k =>
      cases he : mfind k.methods n with
      | none => simp [remove, hc, he]
      | some e => simp [remove, hc, he, h k hc e he]

/-- `Klass::remove` preserves the cache invariant. -/
theorem inv_remove (w : World) (c : Nat) (n : String) (hInv : Inv w) :
    Inv (remove w c n).2 := by
  cases hc : w.cls c with
  | none => rw [remove_unchanged (by intro k hk; rw [hc] at hk; cases hk)]; exact hInv
  | some k =>
    cases he : mfind k.methods n with
    | none =>
        rw [remove_unchanged ?_]
        · exact hInv
        · intro k2 hk2 e2 he2
          rw [hc] at hk2
          cases hk2
          rw [he] at he2
          cases he2
    | some e =>
      cases ho : e.own with
      | false =>
          rw [remove_unchanged ?_]
          · exact hInv
          · intro k2 hk2 e2 he2
            rw [hc] at hk2
            cases hk2
            rw [he] at he2
            cases he2
            exact ho
      | true =>
        rw [remove_own_eq hc he ho]
        have hnd := hInv.nodupKeys c k hc
        have hevb : e.valid < w.tokens.length :=
          hInv.tokBound c n e (by rw [entryAt, hc]; simpa using he)
        set wt := w.setToken e.valid false with hwt
        have hct : wt.cls c = some k := hc
        set w2 := wt.updateCls c { k with methods := merase k.methods n } with hw2
        have hsh : EquivShape w w2 :=
          equivShape_trans (equivShape_setToken w e.valid false)
            (equivShape_update_methods hct _)
        have htlen : w2.tokens.length = w.tokens.length := by
          rw [hw2, tokens_update, hwt, tokens_set_length]
        have htok_flip : w2.token e.valid = false := by
          show wt.token e.valid = false
          rw [hwt, token_set_self hevb false]
        have htok_old : ∀ t, t ≠ e.valid → w2.token t = w.token t := by
          intro t hne
          show wt.token t = w.token t
          rw [hwt, token_set_other w e.valid false t hne]
        have hcases : ∀ d n2 e3, entryAt w2 d n2 = some e3 →
            entryAt w d n2 = some e3 ∧ ¬(d = c ∧ n2 = n) := by
          intro d n2 e3 h2
          by_cases hd : d = c
          · subst hd
            rw [hw2, entryAt_update_self hct] at h2
            by_cases hn : n2 = n
            · subst hn
              rw [mfind_merase_self k.methods n2 hnd] at h2
              cases h2
            · rw [mfind_merase_other k.methods n n2 hn] at h2
              exact ⟨by rw [entryAt, hc]; exact h2, fun hcc => hn hcc.2⟩
          · rw [hw2, entryAt_update_other wt c _ hd] at h2
            exact ⟨h2, fun hcc => hd hcc.1⟩
        have hown_other : ∀ d, d ≠ c → ownOf w2 d n = ownOf w d n := by
          intro d hd
          rw [ownOf, ownOf, hw2, entryAt_update_other wt c _ hd]
          rfl
        have hent_other : ∀ d n2, n2 ≠ n → entryAt w2 d n2 = entryAt w d n2 := by
          intro d n2 hn
          by_cases hd : d = c
          · subst hd
            rw [hw2, entryAt_update_self hct,
              mfind_merase_other k.methods n n2 hn, entryAt, hc]
            simp only [Option.some_bind]
          · rw [hw2, entryAt_update_other wt c _ hd]
            rfl
        have hOwnW : ownOf w c n = some e := by
          rw [ownOf, entryAt, hc]
          simp [he, ho]
        constructor
        · exact equivShape_wf hsh hInv.wf
        · intro d kd hkd
          by_cases hd : d = c
          · subst hd
            rw [hw2, cls_update_self hct] at hkd
            cases hkd
            exact keys_merase_nodup k.methods n hnd
          · rw [hw2, cls_update_other wt c _ d hd] at hkd
            exact hInv.nodupKeys d kd hkd
        · intro d n2 e3 h2
          rw [htlen]
          exact hInv.tokBound d n2 e3 (hcases d n2 e3 h2).1
        · intro d n2 e3 h2 ho3
          obtain ⟨hold, hnot⟩ := hcases d n2 e3 h2
          by_cases hv3 : e3.valid = e.valid
          · exfalso
            obtain ⟨hdc, hnn⟩ := hInv.ownTokUnique d n2 e3 c n e hold ho3
              (by rw [entryAt, hc]; simpa using he) ho hv3
            exact hnot ⟨hdc, hnn⟩
          · rw [htok_old e3.valid hv3]
            exact hInv.ownValid d n2 e3 hold ho3
        · intro d n2 e3 d3 n3 e4 h2 ho2 h3 ho3 hv
          exact hInv.ownTokUnique d n2 e3 d3 n3 e4 (hcases d n2 e3 h2).1 ho2
            (hcases d3 n3 e4 h3).1 ho3 hv
        · intro d n2 e3 h2 ho2 htv
          obtain ⟨hold, _⟩ := hcases d n2 e3 h2
          by_cases hv3 : e3.valid = e.valid
          · exfalso
            rw [hv3, htok_flip] at htv
            cases htv
          · rw [htok_old e3.valid hv3] at htv
            obtain ⟨a, e4, hoa, hval, hvd⟩ := hInv.cacheOk d n2 e3 hold ho2 htv
            by_cases hn2 : n2 = n
            · subst hn2
              have hchange := ownerAt_one_change
                hInv.wf (equivShape_wf hsh hInv.wf)
                hsh.2.1 hsh.2.2 hown_other
              rcases hchange d with hceq | ⟨hcw2, _⟩
              · exact ⟨a, e4, hceq.trans hoa, hval, hvd⟩
              · exfalso
                have hwx : ownerTop w c n2 = some (c, e) := ownerTop_own hc hOwnW
                rw [hoa, hwx] at hcw2
                cases hcw2
                rw [hvd] at hv3
                exact hv3 rfl
            · have howncongr : ∀ d2, ownOf w2 d2 n2 = ownOf w d2 n2 := by
                intro d2
                rw [ownOf, ownOf, hent_other d2 n2 hn2]
              have := ownerTop_congr_shape hsh hInv.wf howncongr d
              exact ⟨a, e4, this.trans hoa, hval, hvd⟩

/-- Inserting a new owned entry with a freshly allocated live token into a
class that owns nothing under that name preserves the invariant, provided
every possible nearest owner up the chain from `c` has a dead or
freshly-renewed token (established by the preceding fixup pass). -/
theorem inv_insert_own {w2 : World} {c : Nat} {k3 : KlassD} {n : String}
    (v wOldLen : Nat) (hInv2 : Inv w2) (hk3 : w2.cls c = some k3)
    (hOwnC : ownOf w2 c n = none)
    (hguard : ∀ af, ownerTop w2 c n = some af →
      w2.token af.2.valid = false ∨ wOldLen ≤ af.2.valid)
    (hcbound : ∀ d e3, entryAt w2 d n = some e3 → e3.own = false →
      e3.valid < wOldLen) :
    Inv ((w2.allocToken true).1.updateCls c
      { k3 with methods := minsert k3.methods n ⟨v, true, w2.tokens.length⟩ }) := by
  set enew : MEntry := ⟨v, true, w2.tokens.length⟩ with hen
  set wt := (w2.allocToken true).1 with hwt
  have hct : wt.cls c = some k3 := hk3
  set wp := wt.updateCls c { k3 with methods := minsert k3.methods n enew } with hwp
  have hnd := hInv2.nodupKeys c k3 hk3
  have hsh : EquivShape w2 wp :=
    equivShape_trans (equivShape_allocToken w2 true)
      (equivShape_update_methods hct _)
  have htlen : wp.tokens.length = w2.tokens.length + 1 := by
    rw [hwp, tokens_update, hwt, tokens_alloc_length]
  have htok_old : ∀ t, t < w2.tokens.length → wp.token t = w2.token t := by
    intro t ht
    show wt.token t = w2.token t
    rw [hwt, token_alloc_old w2 true t ht]
  have htok_new : wp.token w2.tokens.length = true := by
    show wt.token w2.tokens.length = true
    rw [hwt]
    exact token_alloc_new w2 true
  have hcases : ∀ d n2 e3, entryAt wp d n2 = some e3 →
      (d = c ∧ n2 = n ∧ e3 = enew) ∨ entryAt w2 d n2 = some e3 := by
    intro d n2 e3 h2
    by_cases hd : d = c
    · subst hd
      rw [hwp, entryAt_update_self hct] at h2
      by_cases hn : n2 = n
      · subst hn
        rw [mfind_minsert_self] at h2
        cases h2
        exact Or.inl ⟨rfl, rfl, rfl⟩
      · rw [mfind_minsert_other k3.methods n n2 enew hn] at h2
        right
        rw [entryAt, hk3]
        exact h2
    · right
      rw [hwp, entryAt_update_other wt c _ hd] at h2
      exact h2
  have hent_other : ∀ d n2, n2 ≠ n → entryAt wp d n2 = entryAt w2 d n2 := by
    intro d n2 hn
    by_cases hd : d = c
    · subst hd
      rw [hwp, entryAt_update_self hct,
        mfind_minsert_other k3.methods n n2 enew hn, entryAt, hk3]
      simp only [Option.some_bind]
    · rw [hwp, entryAt_update_other wt c _ hd]
      rfl
  have hown_other : ∀ d, d ≠ c → ownOf wp d n = ownOf w2 d n := by
    intro d hd
    rw [ownOf, ownOf, hwp, entryAt_update_other wt c _ hd]
    rfl
  have hent_c : entryAt wp c n = some enew := by
    rw [hwp, entryAt_update_self hct, mfind_minsert_self]
  have hown_c : ownOf wp c n = some enew := by
    rw [ownOf, hent_c]
    simp [hen]
  constructor
  · exact equivShape_wf hsh hInv2.wf
  · intro d kd hkd
    by_cases hd : d = c
    · subst hd
      rw [hwp, cls_update_self hct] at hkd
      cases hkd
      exact keys_minsert_nodup k3.methods n enew hnd
    · rw [hwp, cls_update_other wt c _ d hd] at hkd
      exact hInv2.nodupKeys d kd hkd
  · intro d n2 e3 h2
    rcases hcases d n2 e3 h2 with ⟨_, _, he3⟩ | hold
    · rw [he3]
      show w2.tokens.length < wp.tokens.length
      omega
    · have := hInv2.tokBound d n2 e3 hold
      omega
  · intro d n2 e3 h2 ho3
    rcases hcases d n2 e3 h2 with ⟨_, _, he3⟩ | hold
    · rw [he3]
      exact htok_new
    · have hb3 := hInv2.tokBound d n2 e3 hold
      rw [htok_old e3.valid hb3]
      exact hInv2.ownValid d n2 e3 hold ho3
  · intro d n2 e3 d3 n3 e4 h2 ho2 h3 ho3 hv
    rcases hcases d n2 e3 h2 with ⟨hdx, hnn, he3⟩ | hold
    · rcases hcases d3 n3 e4 h3 with ⟨hdx2, hnn2, he4⟩ | hold2
      · exact ⟨hdx.trans hdx2.symm, hnn.trans hnn2.symm⟩
      · exfalso
        have hb4 := hInv2.tokBound d3 n3 e4 hold2
        rw [he3] at hv
        have hlv : w2.tokens.length = e4.valid := hv
        omega
    · rcases hcases d3 n3 e4 h3 with ⟨hdx2, hnn2, he4⟩ | hold2
      · exfalso
        have hb3 := hInv2.tokBound d n2 e3 hold
        rw [he4] at hv
        have hlv : e3.valid = w2.tokens.length := hv
        omega
      · exact hInv2.ownTokUnique d n2 e3 d3 n3 e4 hold ho2 hold2 ho3 hv
  · intro d n2 e3 h2 ho2 htv
    rcases hcases d n2 e3 h2 with ⟨_, _, he3⟩ | hold
    · rw [he3, hen] at ho2
      cases ho2
    · have hb3 := hInv2.tokBound d n2 e3 hold
      rw [htok_old e3.valid hb3] at htv
      obtain ⟨a, e4, hoa, hval, hvd⟩ := hInv2.cacheOk d n2 e3 hold ho2 htv
      by_cases hn2 : n2 = n
      · subst hn2
        have hchange := ownerAt_one_change
          hInv2.wf (equivShape_wf hsh hInv2.wf)
          hsh.2.1 hsh.2.2 hown_other
        rcases hchange d with hceq | ⟨hcw2, _⟩
        · exact ⟨a, e4, hceq.trans hoa, hval, hvd⟩
        · exfalso
          rw [hoa] at hcw2
          rcases hguard (a, e4) hcw2.symm with hdead | hfresh
          · have hdead2 : w2.token e4.valid = false := hdead
            rw [hvd] at hdead2
            rw [hdead2] at htv
            cases htv
          · have hfresh2 : wOldLen ≤ e4.valid := hfresh
            have := hcbound d e3 hold ho2
            omega
      · have howncongr : ∀ d2, ownOf wp d2 n2 = ownOf w2 d2 n2 := by
          intro d2
          rw [ownOf, ownOf, hent_other d2 n2 hn2]
        have := ownerTop_congr_shape hsh hInv2.wf howncongr d
        exact ⟨a, e4, this.trans hoa, hval, hvd⟩

theorem define_clsnone_eq {w : World} {c : Nat} (hc : w.cls c = none)
    (n : String) (v : Nat) : define w c n v = w := by
  simp [define, hc]

theorem define_own_eq {w : World} {c : Nat} {k : KlassD} {n : String}
    {e : MEntry} (hc : w.cls c = some k) (he : mfind k.methods n = some e)
    (ho : e.own = true) (v : Nat) :
    define w c n v = ((w.setToken e.valid false).allocToken true).1.updateCls c
      { k with methods := minsert k.methods n ⟨v, true, w.tokens.length⟩ } := by
  simp [define, hc, he, ho, World.allocToken, World.setToken]

theorem define_cache_basenone_eq {w : World} {c : Nat} {k : KlassD} {n : String}
    {e : MEntry} (hc : w.cls c = some k) (he : mfind k.methods n = some e)
    (ho : e.own = false) (hb : k.base = none) (v : Nat) :
    define w c n v = (w.allocToken true).1.updateCls c
      { k with methods := minsert k.methods n ⟨v, true, w.tokens.length⟩ } := by
  have hc' : w.classes[c]? = some k := hc
  simp [define, hc, he, ho, hb, World.allocToken, World.cls, hc']

theorem define_cache_base_eq {w : World} {c : Nat} {k : KlassD} {n : String}
    {e : MEntry} {b : Nat} {k3 : KlassD} (hc : w.cls c = some k)
    (he : mfind k.methods n = some e) (ho : e.own = false)
    (hb : k.base = some b)
    (hk3 : (defineFixup (w.classes.length + 1) w b n).cls c = some k3) (v : Nat) :
    define w c n v =
      ((defineFixup (w.classes.length + 1) w b n).allocToken true).1.updateCls c
        { k3 with methods := minsert k3.methods n ⟨v, true, (defineFixup (w.classes.length + 1) w b n).tokens.length⟩ } := by
  have hc' : w.classes[c]? = some k := hc
  have hk3' : (defineFixup (w.classes.length + 1) w b n).classes[c]? = some k3 := hk3
  simp [define, hc', he, ho, hb, World.allocToken, World.cls, hk3']

theorem define_absent_basenone_eq {w : World} {c : Nat} {k : KlassD} {n : String}
    (hc : w.cls c = some k) (he : mfind k.methods n = none)
    (hb : k.base = none) (v : Nat) :
    define w c n v = (w.allocToken true).1.updateCls c
      { k with methods := minsert k.methods n ⟨v, true, w.tokens.length⟩ } := by
  have hc' : w.classes[c]? = some k := hc
  simp [define, hc, he, hb, World.allocToken, World.cls, hc']

theorem define_absent_base_eq {w : World} {c : Nat} {k : KlassD} {n : String}
    {b : Nat} {k3 : KlassD} (hc : w.cls c = some k)
    (he : mfind k.methods n = none) (hb : k.base = some b)
    (hk3 : (defineFixup (w.classes.length + 1) w b n).cls c = some k3) (v : Nat) :
    define w c n v =
      ((defineFixup (w.classes.length + 1) w b n).allocToken true).1.updateCls c
        { k3 with methods := minsert k3.methods n ⟨v, true, (defineFixup (w.classes.length + 1) w b n).tokens.length⟩ } := by
  have hc' : w.classes[c]? = some k := hc
  have hk3' : (defineFixup (w.classes.length + 1) w b n).classes[c]? = some k3 := hk3
  simp [define, hc', he, hb, World.allocToken, World.cls, hk3']

/-- Shared argument for `Klass::define`'s slow path: run the fixup pass on
the base chain, then insert a fresh owned entry; the invariant survives. -/
theorem inv_define_slow {w : World} {c : Nat} {k : KlassD} {n : String}
    {b : Nat} (hInv : Inv w) (hc : w.cls c = some k)
    (hOwnCw : ownOf w c n = none) (hb : k.base = some b) :
    ∃ k3, (defineFixup (w.classes.length + 1) w b n).cls c = some k3 ∧
    ∀ v, Inv (((defineFixup (w.classes.length + 1) w b n).allocToken true).1.updateCls c
      { k3 with methods := minsert k3.methods n ⟨v, true, (defineFixup (w.classes.length + 1) w b n).tokens.length⟩ }) := by
  have hclt : c < w.classes.length := cls_lt hc
  have hblt : b < c := hInv.wf c b (by rw [baseOf, hc]; exact hb)
  obtain ⟨hI2, hsh2, hother2, hsub2, htall2, hmatch2⟩ :=
    defineFixup_spec b (w.classes.length + 1) (by omega) w n hInv
  set w2 := defineFixup (w.classes.length + 1) w b n with hw2
  cases hk3c : w2.cls c with
  | none =>
      exfalso
      have := (hsh2.2.1 c).mp hk3c
      rw [hc] at this
      cases this
  | some k3 =>
      refine ⟨k3, rfl, ?_⟩
      intro v
      have hOwnC2 : ownOf w2 c n = none := by
        rw [ownOf_congr_entry (htall2 c n hblt)]
        exact hOwnCw
      have hbk3 : k3.base = some b := by
        have hbb := hsh2.2.2 c
        rw [baseOf, baseOf, hk3c, hc] at hbb
        simp only [Option.some_bind] at hbb
        rw [hbb]
        exact hb
      have hcw2b : ownerTop w2 c n = ownerTop w2 b n :=
        ownerTop_base hI2.wf hk3c hOwnC2 hbk3
      refine inv_insert_own v w.tokens.length hI2 hk3c hOwnC2 ?_ ?_
      · intro af haf
        rw [hcw2b] at haf
        cases hsc : ownerTop w b n with
        | none =>
            exfalso
            rw [hsc] at hmatch2
            have hcongr : ∀ d, ownerTop w2 d n = ownerTop w d n :=
              ownerTop_congr_shape hsh2 hInv.wf hmatch2.2
            rw [hcongr b, hsc] at haf
            cases haf
        | some af0 =>
            rw [hsc] at hmatch2
            obtain ⟨hm1, hm2, hm3, ⟨tF, htF1, htF2, htF3⟩, hm5⟩ := hmatch2
            have hchange := ownerAt_one_change
              hInv.wf hI2.wf hsh2.2.1 hsh2.2.2 hm3
            rcases hchange b with hceq | ⟨_, hcw3⟩
            · rw [hceq, hsc] at haf
              cases haf
              exact Or.inl hm2
            · have hclsaF : w2.cls af0.1 ≠ none := by
                intro hnone
                rw [ownOf, entryAt, hnone] at htF2
                cases htF2
              cases hkaF : w2.cls af0.1 with
              | none => exact absurd hkaF hclsaF
              | some kaF =>
                  have : ownerTop w2 af0.1 n = some (af0.1, { af0.2 with valid := tF }) :=
                    ownerTop_own hkaF htF2
                  rw [hcw3, this] at haf
                  cases haf
                  exact Or.inr htF1
      · intro d e3 h h2
        exact hInv.tokBound d n e3 (hsub2 d e3 h h2)

/-- `Klass::define` preserves the cache invariant. -/
theorem inv_define (w : World) (c : Nat) (n : String) (v : Nat) (hInv : Inv w) :
    Inv (define w c n v) := by
  cases hc : w.cls c with
  | none => rw [define_clsnone_eq hc]; exact hInv
  | some k =>
    cases he : mfind k.methods n with
    | some e =>
      cases ho : e.own with
      | true =>
          rw [define_own_eq hc he ho]
          exact (inv_renew_own hInv hc he ho v).1
      | false =>
          have hOwnCw : ownOf w c n = none := by
            rw [ownOf, entryAt, hc]
            simp [he, ho]
          cases hb : k.base with
          | none =>
              rw [define_cache_basenone_eq hc he ho hb]
              refine inv_insert_own v w.tokens.length hInv hc hOwnCw ?_ ?_
              · intro af haf
                rw [ownerTop_base_none hc hOwnCw hb] at haf
                cases haf
              · intro d e3 h h2
                exact hInv.tokBound d n e3 h
          | some b =>
              obtain ⟨k3, hk3, hall⟩ := inv_define_slow hInv hc hOwnCw hb
              rw [define_cache_base_eq hc he ho hb hk3]
              exact hall v
    | none =>
        have hOwnCw : ownOf w c n = none := by
          rw [ownOf, entryAt, hc]
          simp [he]
        cases hb : k.base with
        | none =>
            rw [define_absent_basenone_eq hc he hb]
            refine inv_insert_own v w.tokens.length hInv hc hOwnCw ?_ ?_
            · intro af haf
              rw [ownerTop_base_none hc hOwnCw hb] at haf
              cases haf
            · intro d e3 h h2
              exact hInv.tokBound d n e3 h
        | some b =>
            obtain ⟨k3, hk3, hall⟩ := inv_define_slow hInv hc hOwnCw hb
            rw [define_absent_base_eq hc he hb hk3]
            exact hall v

/-- `Klass::lookup` preserves the cache invariant. -/
theorem inv_lookup (w : World) (c : Nat) (n : String) (hInv : Inv w) :
    Inv (lookup w c n).2 := by
  show Inv (lookupRec (w.classes.length + 1) w c n).2
  cases hc : w.cls c with
  | none =>
      rw [lookupRec_clsnone hc]
      exact hInv
  | some k =>
      have hclt := cls_lt hc
      exact (lookupRec_correct c (w.classes.length + 1) (by omega) w n hInv).2.1

/-- Every interface operation preserves the invariant. -/
theorem inv_applyOp (w : World) (op : Op) (hInv : Inv w) :
    Inv (applyOp w op) := by
  cases op with
  | defineOp c n v => exact inv_define w c n v hInv
  | removeOp c n => exact inv_remove w c n hInv
  | lookupOp c n => exact inv_lookup w c n hInv

theorem inv_runOps (w : World) (ops : List Op) (hInv : Inv w) :
    Inv (runOps w ops) := by
  induction ops generalizing w with
  | nil => exact hInv
  | cons op ops ih => exact ih (applyOp w op) (inv_applyOp w op hInv)

/-- A pristine class chain (well-founded bases, no methods defined yet)
satisfies the cache invariant. -/
theorem inv_initial (w : World) (hwf : WF w)
    (hempty : ∀ k ∈ w.classes, k.methods = []) : Inv w := by
  have hent : ∀ c n, entryAt w c n = none := by
    intro c n
    rw [entryAt]
    cases hc : w.cls c with
    | none => rfl
    | some k =>
        have hk : k ∈ w.classes := by
          have hc' : w.classes[c]? = some k := hc
          exact List.getElem?_mem hc'
        rw [Option.some_bind, hempty k hk]
        rfl
  refine ⟨hwf, ?_, ?_, ?_, ?_, ?_⟩
  · intro c k hc
    have hk : k ∈ w.classes := List.getElem?_mem hc
    rw [hempty k hk]
    exact List.nodup_nil
  · intro c n e he; rw [hent c n] at he; cases he
  · intro c n e he; rw [hent c n] at he; cases he
  · intro c n e c2 n2 e2 he; rw [hent c n] at he; cases he
  · intro c n e he; rw [hent c n] at he; cases he

/-- On any invariant-satisfying world, `Klass::lookup` computes exactly the
naive owned-entry walk of the base chain. -/
theorem lookup_eq_naive (w : World) (c : Nat) (n : String) (hInv : Inv w) :
    (lookup w c n).1 = naiveLookup w c n := by
  show (lookupRec (w.classes.length + 1) w c n).1.map Prod.fst = naiveLookup w c n
  have hnv : naiveLookup w c n = (ownerTop w c n).map (fun x => x.2.value) := rfl
  cases hc : w.cls c with
  | none =>
      rw [lookupRec_clsnone hc, hnv, ownerTop_none hc]
      rfl
  | some k =>
      have hclt := cls_lt hc
      have hg := (lookupRec_correct c (w.classes.length + 1) (by omega) w n hInv).1
      rw [hg, hnv]
      cases ownerTop w c n <;> rfl

/-- C1: for every class chain and every finite sequence of define / remove /
lookup operations, `Klass::lookup` on any class returns exactly what the
naive walk of the base chain to the nearest owned entry returns, despite the
per-class inherited-entry caches and validity tokens. -/
theorem klass_method_cache_coherence (w0 : World) (ops : List Op)
    (c : Nat) (n : String) (hwf : WF w0)
    (hempty : ∀ k ∈ w0.classes, k.methods = []) :
    (lookup (runOps w0 ops) c n).1 = naiveLookup (runOps w0 ops) c n :=
  lookup_eq_naive (runOps w0 ops) c n
    (inv_runOps w0 ops (inv_initial w0 hwf hempty))

/-- A three-class chain 2 → 1 → 0 with no methods. -/
def klassDemoWorld : World :=
  ⟨[⟨[], none, none⟩, ⟨[], none, some 0⟩, ⟨[], none, some 1⟩], []⟩

/-- Defines, cached lookups, a removal that must invalidate the caches, and
more lookups. -/
def klassDemoOps : List Op :=
  [.defineOp 0 "m" 10, .lookupOp 2 "m", .defineOp 1 "m" 20, .lookupOp 2 "m",
   .removeOp 1 "m", .lookupOp 2 "m", .lookupOp 1 "m", .defineOp 2 "m" 30,
   .lookupOp 2 "m", .removeOp 2 "m", .lookupOp 2 "m"]

theorem klassDemoWorld_wf : WF klassDemoWorld := by
  intro c b hb
  match c with
  | 0 => simp [baseOf, World.cls, klassDemoWorld] at hb
  | 1 =>
      simp [baseOf, World.cls, klassDemoWorld] at hb
      omega
  | 2 =>
      simp [baseOf, World.cls, klassDemoWorld] at hb
      omega
  | c + 3 => simp [baseOf, World.cls, klassDemoWorld] at hb

theorem klass_method_cache_coherence_witness :
    WF klassDemoWorld ∧ (∀ k ∈ klassDemoWorld.classes, k.methods = []) ∧
    (lookup (runOps klassDemoWorld klassDemoOps) 2 "m").1 =
      naiveLookup (runOps klassDemoWorld klassDemoOps) 2 "m" :=
  ⟨klassDemoWorld_wf, by decide,
    klass_method_cache_coherence klassDemoWorld klassDemoOps 2 "m"
      klassDemoWorld_wf (by decide)⟩

end KlassModel

/-! ## Class-system bootstrap (value.cpp `Context::Context`,
builtins.cpp `load_builtins`, `Klass::Klass(Context&, base)`)

Klass headers live in a heap list; an id is a position.  Only the `klass`
(metaclass) and `base` links matter here; both start as null pointers. -/

namespace Bootstrap

structure KObj where
  klass : Option Nat
  base : Option Nat
deriving Repr, DecidableEq

def alloc (h : List KObj) (k b : Option Nat) : List KObj × Nat :=
  (h ++ [⟨k, b⟩], h.length)

def setKlass (h : List KObj) (i : Nat) (k : Nat) : List KObj :=
  match h[i]? with
  | none => h
  | some o => h.set i { o with klass := some k }

def setBase (h : List KObj) (i : Nat) (b : Nat) : List KObj :=
  match h[i]? with
  | none => h
  | some o => h.set i { o with base := some b }

def klassOf (h : List KObj) (i : Nat) : Option Nat :=
  (h[i]?).bind KObj.klass

def baseOf (h : List KObj) (i : Nat) : Option Nat :=
  (h[i]?).bind KObj.base

/-- `Klass::Klass(Context& ctx, const Ptr<Klass>& base)`: first allocate the
metaclass `alloc<Klass>(base->klass->klass, base->klass)`, then the class
itself with that metaclass and the given base. -/
def allocDerived (h : List KObj) (b : Nat) : List KObj × Nat :=
  let mk := klassOf h b
  let mkk := mk.bind (klassOf h)
  let r1 := alloc h mkk mk
  alloc r1.1 (some r1.2) (some b)

structure Ctx where
  heap : List KObj
  objectCls : Nat
  classCls : Nat
  nilCls : Nat
  boolCls : Nat
  intCls : Nat
  stringCls : Nat
  arrayCls : Nat
  functionCls : Nat
deriving Repr, DecidableEq

/-- `load_builtins` (builtins.cpp): the two-phase Object/Class bootstrap,
then one `alloc<Klass>(ctx, object_cls)` per primitive class. -/
def loadBuiltins : Ctx :=
  let r1 := alloc [] none none
  let objectCls := r1.2
  let r2 := alloc r1.1 none none
  let classCls := r2.2
  let r3 := alloc r2.1 (some classCls) (some classCls)
  let h4 := setKlass r3.1 objectCls r3.2
  let h5 := setKlass h4 classCls classCls
  let h6 := setBase h5 classCls objectCls
  let r7 := allocDerived h6 objectCls
  let r8 := allocDerived r7.1 objectCls
  let r9 := allocDerived r8.1 objectCls
  let r10 := allocDerived r9.1 objectCls
  let r11 := allocDerived r10.1 objectCls
  let r12 := allocDerived r11.1 objectCls
  ⟨r12.1, objectCls, classCls, r7.2, r8.2, r9.2, r10.2, r11.2, r12.2⟩

/-- C4: the claim's bootstrap shape is refuted: Object's metaclass is NOT
the Class object itself (it is a separately allocated metaclass), so the
conjunction `Object.meta = Class ∧ Class.meta = Class ∧ Class.base = Object
∧ primitives inherit Object` fails on its first conjunct. -/
theorem bootstrap_object_meta_counterexample :
    ¬ (klassOf loadBuiltins.heap loadBuiltins.objectCls =
          some loadBuiltins.classCls ∧
       klassOf loadBuiltins.heap loadBuiltins.classCls =
          some loadBuiltins.classCls ∧
       baseOf loadBuiltins.heap loadBuiltins.classCls =
          some loadBuiltins.objectCls ∧
       ∀ p ∈ [loadBuiltins.nilCls, loadBuiltins.boolCls, loadBuiltins.intCls,
              loadBuiltins.stringCls, loadBuiltins.arrayCls,
              loadBuiltins.functionCls],
         baseOf loadBuiltins.heap p = some loadBuiltins.objectCls) := by
  decide

/-- C4 (amended): after bootstrap, Object's metaclass is a fresh metaclass
distinct from Class whose own metaclass is Class and whose base is Class;
Class's metaclass is Class itself; Class's base is Object; and every
primitive class has Object as its base. -/
theorem bootstrap_meta_structure_amended :
    (∃ m, klassOf loadBuiltins.heap loadBuiltins.objectCls = some m ∧
       m ≠ loadBuiltins.classCls ∧
       klassOf loadBuiltins.heap m = some loadBuiltins.classCls ∧
       baseOf loadBuiltins.heap m = some loadBuiltins.classCls) ∧
    klassOf loadBuiltins.heap loadBuiltins.classCls =
       some loadBuiltins.classCls ∧
    baseOf loadBuiltins.heap loadBuiltins.classCls =
       some loadBuiltins.objectCls ∧
    ∀ p ∈ [loadBuiltins.nilCls, loadBuiltins.boolCls, loadBuiltins.intCls,
           loadBuiltins.stringCls, loadBuiltins.arrayCls,
           loadBuiltins.functionCls],
      baseOf loadBuiltins.heap p = some loadBuiltins.objectCls :=
  ⟨⟨2, by decide⟩, by decide⟩

end Bootstrap

/-! ## Int arithmetic builtins (builtins.cpp `load_int`)

64-bit signed integers are embedded as `Int` with the representable range
made explicit; the builtin bodies are translated lambda by lambda. -/

namespace IntBuiltins

def intMin : Int := -9223372036854775808

def intMax : Int := 9223372036854775807

def inRange (z : Int) : Prop := intMin ≤ z ∧ z ≤ intMax

instance (z : Int) : Decidable (inRange z) := by
  unfold inRange; infer_instance

/-- Two's-complement wrap of an out-of-range machine result. -/
def wrap64 (z : Int) : Int := (z + 9223372036854775808) % 18446744073709551616 - 9223372036854775808

/-- `Int.~` from load_int: error iff the operand equals INT64_MAX, else
return the machine negation. -/
def negB (x : Int) : Except String Int :=
  if x = intMax then .error "Int overflow" else .ok (wrap64 (-x))

/-- `Int.+`: `__builtin_add_overflow` errors exactly when the sum is not
representable. -/
def addB (x y : Int) : Except String Int :=
  if inRange (x + y) then .ok (x + y) else .error "Int overflow"

/-- `Int.-`. -/
def subB (x y : Int) : Except String Int :=
  if inRange (x - y) then .ok (x - y) else .error "Int overflow"

/-- `Int.*`. -/
def mulB (x y : Int) : Except String Int :=
  if inRange (x * y) then .ok (x * y) else .error "Int overflow"

/-- `Int./`: only a zero divisor is checked (C++ division truncates toward
zero). -/
def divB (x y : Int) : Except String Int :=
  if y = 0 then .error "Division by zero" else .ok (x.tdiv y)

instance : DecidableEq (Except String Int) := fun a b =>
  match a, b with
  | .error x, .error y =>
      decidable_of_iff (x = y) ⟨fun h => by rw [h], fun h => Except.error.inj h⟩
  | .ok x, .ok y =>
      decidable_of_iff (x = y) ⟨fun h => by rw [h], fun h => Except.ok.inj h⟩
  | .error _, .ok _ => isFalse (fun h => Except.noConfusion h)
  | .ok _, .error _ => isFalse (fun h => Except.noConfusion h)

/-- The specification's overflow-trapping negation: error exactly when the
mathematical result is not representable. -/
def negSpec (x : Int) : Except String Int :=
  if inRange (-x) then .ok (-x) else .error "Int overflow"

/-- C10: the negation builtin's overflow guard tests the wrong endpoint.
At INT64_MIN the mathematical result 2^63 is unrepresentable, yet the
builtin does not trap and silently returns the wrapped value INT64_MIN;
at INT64_MAX the result is representable, yet the builtin traps. -/
theorem int_neg_overflow_code_bug :
    negB intMin = .ok intMin ∧ ¬ inRange (-intMin) ∧
    negB intMax = .error "Int overflow" ∧ inRange (-intMax) ∧
    negB intMin ≠ negSpec intMin ∧ negB intMax ≠ negSpec intMax := by
  decide

theorem addB_traps_iff (x y : Int) :
    addB x y = .ok (x + y) ↔ inRange (x + y) := by
  unfold addB
  by_cases h : inRange (x + y) <;> simp [h]

theorem subB_traps_iff (x y : Int) :
    subB x y = .ok (x - y) ↔ inRange (x - y) := by
  unfold subB
  by_cases h : inRange (x - y) <;> simp [h]

theorem mulB_traps_iff (x y : Int) :
    mulB x y = .ok (x * y) ↔ inRange (x * y) := by
  unfold mulB
  by_cases h : inRange (x * y) <;> simp [h]

theorem divB_traps_iff (x y : Int) :
    divB x y = .error "Division by zero" ↔ y = 0 := by
  unfold divB
  by_cases h : y = 0 <;> simp [h]

end IntBuiltins

/-! ## The bytecode VM (vm.cpp / vm.h)

Stacks are lists with the bottom at index 0 and the top at the end, so the
C++ `data_stack[i]` is `dataStack[i]` and `back()` is `getLast`.  Heap
objects (functions, upvalue cells, script objects) live in lists indexed by
allocation order.  The class system and foreign functions sit behind an
`Env` oracle: `lookupM` is `Klass::lookup` and `foreign` the C++ builtin
bodies (modelled as pure functions that either return or throw a value).
A helper returns `none` where the C++ would fail an assertion or commit
undefined behaviour, so every proved fact is about defined executions. -/

namespace VMM

inductive Val where
  | nil
  | boolean (b : Bool)
  | int (z : Int)
  | str (s : String)
  | fn (f : Nat)
  | cppfn (f : Nat)
  | obj (o : Nat)
deriving Repr, DecidableEq

/-- `detail::DataFrame`: a stack value plus the optional back-reference to
the open upvalue cell covering this slot. -/
structure DFrame where
  value : Val
  upval : Option Nat
deriving Repr, DecidableEq

/-- `detail::CallFrame`. -/
structure CFrame where
  func : Nat
  ip : Nat
  dataBottom : Nat
  excBottom : Nat
deriving Repr, DecidableEq

/-- `detail::ExceptionFrame`. -/
structure EFrame where
  dataBottom : Nat
  callBottom : Nat
  address : Nat
deriving Repr, DecidableEq

inductive Instr where
  | nop
  | pop
  | nip
  | dup
  | nilV
  | getVar (i : Nat)
  | setVar (i : Nat)
  | getConst (i : Nat)
  | getUp (i : Nat)
  | setUp (i : Nat)
  | resetUp
  | makeUp (i : Nat)
  | copyUp (i : Nat)
  | getProp
  | setProp
  | call
  | send
  | ret
  | jump (a : Nat)
  | jumpIf (a : Nat)
  | jumpUnless (a : Nat)
  | throwV
  | catchV (a : Nat)
  | uncatch
deriving Repr, DecidableEq

structure Proto where
  nargs : Nat
  code : List Instr
  constants : List Val
deriving Repr, DecidableEq

/-- A `Function`: its (immutable) proto and captured upvalue cell ids. -/
structure FuncObj where
  proto : Proto
  upvalues : List Nat
deriving Repr, DecidableEq

/-- An `Upvalue` cell: open (holding a data-stack index) or closed
(holding a value). -/
inductive UpCell where
  | openIdx (i : Nat)
  | closed (v : Val)
deriving Repr, DecidableEq

structure ObjData where
  klass : Nat
  props : List (String × Val)
deriving Repr, DecidableEq

structure VMState where
  dataStack : List DFrame
  callStack : List CFrame
  excStack : List EFrame
  exceptionThrown : Bool
  funcs : List FuncObj
  upvals : List UpCell
  objs : List ObjData
deriving Repr, DecidableEq

/-- A C++ builtin body: given the popped arguments, return a value or
throw one (modelled as non-reentrant). -/
structure ForeignFn where
  nargs : Nat
  body : List Val → Except Val Val

/-- The context surrounding the VM: primitive class ids, `Klass::lookup`,
the foreign-function table and the id of `send_fallback_fn`. -/
structure Env where
  nilCls : Nat
  boolCls : Nat
  intCls : Nat
  strCls : Nat
  fnCls : Nat
  foreign : List ForeignFn
  lookupM : Nat → String → Option Val
  fallbackFn : Nat

/-- `Value::class_of` (value.cpp): primitive tags map to the builtin
classes, objects carry their own class. -/
def classOf (e : Env) (s : VMState) : Val → Option Nat
  | .nil => some e.nilCls
  | .boolean _ => some e.boolCls
  | .int _ => some e.intCls
  | .str _ => some e.strCls
  | .fn _ => some e.fnCls
  | .cppfn _ => some e.fnCls
  | .obj o => (s.objs[o]?).map ObjData.klass

def pushData (v : Val) (s : VMState) : VMState :=
  { s with dataStack := s.dataStack ++ [⟨v, none⟩] }

/-- The shift loop of `VM::remove_data`: every slot moved down one position
has its open upvalue cell's recorded index decremented (`up->get<uint64_t>()
-= 1` demands an open cell). -/
def shiftCells : List DFrame → List UpCell → Option (List UpCell)
  | [], ups => some ups
  | fr :: rest, ups =>
      match fr.upval with
      | none => shiftCells rest ups
      | some u =>
          match ups[u]? with
          | some (.openIdx (j + 1)) => shiftCells rest (ups.set u (.openIdx j))
          | _ => none

/-- `**data_stack[idx].upvalue = value`: write the removed slot's value
through its back-reference, turning the cell into a closed one. -/
def closeCell (ups : List UpCell) (fr : DFrame) : List UpCell :=
  match fr.upval with
  | none => ups
  | some u => ups.set u (.closed fr.value)

/-- `VM::remove_data(off)`: take out the slot `off` positions below the
top, first writing its value through its upvalue back-reference (closing
the cell), then shifting the slots above it down. -/
def removeData (off : Nat) (s : VMState) : Option (Val × VMState) :=
  if off < s.dataStack.length then
    let idx := s.dataStack.length - 1 - off
    match s.dataStack[idx]? with
    | none => none
    | some fr =>
        match shiftCells (s.dataStack.drop (idx + 1)) (closeCell s.upvals fr) with
        | none => none
        | some up2 =>
            some (fr.value,
              { s with dataStack := s.dataStack.take idx ++ s.dataStack.drop (idx + 1),
                       upvals := up2 })
  else none

def popData (s : VMState) : Option (Val × VMState) :=
  removeData 0 s

/-- Pop `k` values, discarding them (each pop closes the slot's upvalue). -/
def popMany : Nat → VMState → Option VMState
  | 0, s => some s
  | k + 1, s =>
      match popData s with
      | none => none
      | some (_, s2) => popMany k s2

/-- Set the instruction pointer of the topmost call frame
(`call_stack.back().ip = a`; the empty stack is undefined behaviour). -/
def setIpL (l : List CFrame) (a : Nat) : List CFrame :=
  match l.getLast? with
  | none => l
  | some fr => l.dropLast ++ [{ fr with ip := a }]

/-- `VM::throw_`: with no handler, drop everything, leave the value as the
sole data entry and mark the VM as having thrown; otherwise pop the topmost
handler, truncate both stacks to its bottoms, push the value and jump the
surviving top frame to the handler's address. -/
def throwOp (s : VMState) : Option VMState :=
  match s.excStack.getLast? with
  | none =>
      match popData s with
      | none => none
      | some (v, s1) =>
          match popMany s1.dataStack.length s1 with
          | none => none
          | some s2 =>
              some { s2 with dataStack := s2.dataStack ++ [⟨v, none⟩],
                             callStack := [], exceptionThrown := true }
  | some hd =>
      match popData s with
      | none => none
      | some (v, s1) =>
          match popMany (s1.dataStack.length - hd.dataBottom) s1 with
          | none => none
          | some s2 =>
              if (s2.callStack.take hd.callBottom).isEmpty then none
              else
                some { s2 with dataStack := s2.dataStack ++ [⟨v, none⟩],
                               excStack := s2.excStack.dropLast,
                               callStack := setIpL (s2.callStack.take hd.callBottom) hd.address }

/-- `VM::throw_string`. -/
def throwString (m : String) (s : VMState) : Option VMState :=
  throwOp (pushData (.str m) s)

/-- `VM::catch_`: record the current stack heights and the handler address. -/
def catchOp (a : Nat) (s : VMState) : VMState :=
  { s with excStack := s.excStack ++ [⟨s.dataStack.length, s.callStack.length, a⟩] }

/-- `VM::uncatch`. -/
def uncatchOp (s : VMState) : Option VMState :=
  if s.excStack.isEmpty then none
  else some { s with excStack := s.excStack.dropLast }

/-- `VM::get_variable`. -/
def getVariable (i : Nat) (s : VMState) : Option VMState :=
  match s.callStack.getLast? with
  | none => none
  | some fr =>
      match s.dataStack[fr.dataBottom + i]? with
      | none => none
      | some slot => some (pushData slot.value s)

/-- `VM::set_variable`. -/
def setVariable (i : Nat) (s : VMState) : Option VMState :=
  match s.callStack.getLast? with
  | none => none
  | some fr =>
      let idx := fr.dataBottom + i
      if idx < s.dataStack.length then
        match popData s with
        | none => none
        | some (v, s1) =>
            match s1.dataStack[idx]? with
            | none => none
            | some slot =>
                some { s1 with dataStack := s1.dataStack.set idx { slot with value := v } }
      else none

/-- `VM::get_upvalue`: an open cell reads the covered stack slot, a closed
cell its stored value. -/
def getUpvalue (i : Nat) (s : VMState) : Option VMState :=
  match s.callStack.getLast? with
  | none => none
  | some fr =>
      match s.funcs[fr.func]? with
      | none => none
      | some fo =>
          match fo.upvalues[i]? with
          | none => none
          | some u =>
              match s.upvals[u]? with
              | some (.openIdx j) =>
                  match s.dataStack[j]? with
                  | none => none
                  | some slot => some (pushData slot.value s)
              | some (.closed v) => some (pushData v s)
              | none => none

/-- `VM::set_upvalue`: an open cell writes the covered stack slot, a closed
cell is overwritten. -/
def setUpvalue (i : Nat) (s : VMState) : Option VMState :=
  match s.callStack.getLast? with
  | none => none
  | some fr =>
      match s.funcs[fr.func]? with
      | none => none
      | some fo =>
          match fo.upvalues[i]? with
          | none => none
          | some u =>
              match popData s with
              | none => none
              | some (v, s1) =>
                  match s1.upvals[u]? with
                  | some (.openIdx j) =>
                      match s1.dataStack[j]? with
                      | none => none
                      | some slot =>
                          some { s1 with dataStack :=
                            s1.dataStack.set j { slot with value := v } }
                  | some (.closed _) =>
                      some { s1 with upvals := s1.upvals.set u (.closed v) }
                  | none => none

/-- `VM::reset_upvalues`: replace the closure on top with a fresh function
sharing its proto but with no captured upvalues. -/
def resetUpvalues (s : VMState) : Option VMState :=
  match popData s with
  | some (.fn f, s1) =>
      match s1.funcs[f]? with
      | none => none
      | some fo =>
          some (pushData (.fn s1.funcs.length)
            { s1 with funcs := s1.funcs ++ [⟨fo.proto, []⟩] })
  | _ => none

/-- `VM::make_upvalue`: capture local `i` into the closure on top, creating
an open cell with a slot back-reference on first capture and reusing the
existing cell afterwards. -/
def makeUpvalue (i : Nat) (s : VMState) : Option VMState :=
  match s.dataStack.getLast? with
  | some ⟨.fn f, _⟩ =>
      match s.callStack.getLast? with
      | none => none
      | some fr =>
          let idx := fr.dataBottom + i
          match s.dataStack[idx]? with
          | none => none
          | some slot =>
              let p : Nat × VMState :=
                match slot.upval with
                | some u => (u, s)
                | none =>
                    (s.upvals.length,
                     { s with upvals := s.upvals ++ [.openIdx idx],
                              dataStack := s.dataStack.set idx
                                { slot with upval := some s.upvals.length } })
              match p.2.funcs[f]? with
              | none => none
              | some fo =>
                  let fo2 := { fo with upvalues := fo.upvalues ++ [p.1] }
                  some { p.2 with funcs := p.2.funcs.set f fo2 }
  | _ => none

/-- `VM::copy_upvalue`: share the running frame's upvalue `i` with the
closure on top. -/
def copyUpvalue (i : Nat) (s : VMState) : Option VMState :=
  match s.dataStack.getLast? with
  | some ⟨.fn f2, _⟩ =>
      match s.callStack.getLast? with
      | none => none
      | some fr =>
          match s.funcs[fr.func]? with
          | none => none
          | some fo1 =>
              match fo1.upvalues[i]? with
              | none => none
              | some u =>
                  match s.funcs[f2]? with
                  | none => none
                  | some fo2 =>
                      let fo3 := { fo2 with upvalues := fo2.upvalues ++ [u] }
                      some { s with funcs := s.funcs.set f2 fo3 }
  | _ => none

def pfind (props : List (String × Val)) (n : String) : Option Val :=
  (props.find? (fun x => x.1 == n)).map Prod.snd

def pinsert (props : List (String × Val)) (n : String) (v : Val) :
    List (String × Val) :=
  match props.find? (fun x => x.1 == n) with
  | some _ => props.map (fun x => if x.1 == n then (n, v) else x)
  | none => props ++ [(n, v)]

/-- `VM::get_property`. -/
def getProperty (s : VMState) : Option VMState :=
  match popData s with
  | some (.str name, s1) =>
      match popData s1 with
      | none => none
      | some (ov, s2) =>
          match ov with
          | .obj o =>
              match s2.objs[o]? with
              | none => none
              | some od =>
                  match pfind od.props name with
                  | some v => some (pushData v s2)
                  | none =>
                      throwString ("Property `" ++ name ++ "` not found") s2
          | _ => throwString ("Property `" ++ name ++ "` not found") s2
  | _ => none

/-- `VM::set_property`. -/
def setProperty (s : VMState) : Option VMState :=
  match popData s with
  | none => none
  | some (v, s1) =>
      match popData s1 with
      | some (.str name, s2) =>
          match popData s2 with
          | none => none
          | some (ov, s3) =>
              match ov with
              | .obj o =>
                  match s3.objs[o]? with
                  | none => none
                  | some od =>
                      let od2 := { od with props := pinsert od.props name v }
                      some { s3 with objs := s3.objs.set o od2 }
              | _ => throwString "Can't set property on a primitive value" s3
      | _ => none

/-- `VM::call_native`: arity check, then push a call frame whose data
bottom sits under the `n` arguments. -/
def callNative (f : Nat) (n : Nat) (s : VMState) : Option VMState :=
  match s.funcs[f]? with
  | none => none
  | some fo =>
      if fo.proto.nargs ≠ n then throwString "Wrong number of arguments" s
      else some { s with callStack := s.callStack ++
          [⟨f, 0, s.dataStack.length - n, s.excStack.length⟩] }

/-- Pop the `n` arguments of a foreign call, leftmost argument first in the
result. -/
def popArgs : Nat → VMState → Option (List Val × VMState)
  | 0, s => some ([], s)
  | k + 1, s =>
      match popData s with
      | none => none
      | some (v, s2) =>
          match popArgs k s2 with
          | none => none
          | some (vs, s3) => some (vs ++ [v], s3)

/-- `VM::call_foreign`: arity check, pop arguments, run the C++ body and
push its result, or push the thrown value and rethrow. -/
def callForeign (e : Env) (f : Nat) (n : Nat) (s : VMState) : Option VMState :=
  match e.foreign[f]? with
  | none => none
  | some ff =>
      if ff.nargs ≠ n then throwString "Wrong number of arguments" s
      else
        match popArgs n s with
        | none => none
        | some (args, s2) =>
            match ff.body args with
            | .ok r => some (pushData r s2)
            | .error err => throwOp (pushData err s2)

/-- `VM::call_`. -/
def callOp (e : Env) (s : VMState) : Option VMState :=
  match popData s with
  | some (.int z, s1) =>
      if z < 0 then none
      else
        match removeData z.toNat s1 with
        | none => none
        | some (fv, s2) =>
            match fv with
            | .fn f => callNative f z.toNat s2
            | .cppfn f => callForeign e f z.toNat s2
            | _ => throwString "Can't call a non-function" s2
  | _ => none

/-- `VM::send_`. -/
def sendOp (e : Env) (s : VMState) : Option VMState :=
  match popData s with
  | some (.str msg, s1) =>
      match popData s1 with
      | none => none
      | some (ov, s2) =>
          match classOf e s2 ov with
          | none => none
          | some cls =>
              match e.lookupM cls msg with
              | some meth =>
                  callOp e (pushData (.int 1) (pushData ov (pushData meth s2)))
              | none =>
                  match e.lookupM cls "not_understood" with
                  | some nu =>
                      callNative e.fallbackFn 3
                        (pushData (.str msg) (pushData ov (pushData nu s2)))
                  | none =>
                      throwString ("Message `" ++ msg ++ "` could not be handled") s2
  | _ => none

/-- `VM::return_`: pop the result, drop the frame's locals, push the
result back, drop handlers opened in the frame and pop the frame. -/
def returnOp (s : VMState) : Option VMState :=
  match s.callStack.getLast? with
  | none => none
  | some fr =>
      if s.dataStack.length ≤ fr.dataBottom then none
      else
        match popData s with
        | none => none
        | some (v, s1) =>
            match popMany (s1.dataStack.length - fr.dataBottom) s1 with
            | none => none
            | some s2 =>
                if fr.excBottom ≤ s2.excStack.length then
                  some { s2 with dataStack := s2.dataStack ++ [⟨v, none⟩],
                                 excStack := s2.excStack.take fr.excBottom,
                                 callStack := s2.callStack.dropLast }
                else none

/-- `VM::jump`. -/
def jumpOp (a : Nat) (s : VMState) : Option VMState :=
  if s.callStack.isEmpty then none
  else some { s with callStack := setIpL s.callStack a }

/-- `VM::jump_cond`. -/
def jumpCond (a : Nat) (cond : Bool) (s : VMState) : Option VMState :=
  match popData s with
  | some (.boolean b, s1) =>
      if b = cond then
        if s1.callStack.isEmpty then none
        else some { s1 with callStack := setIpL s1.callStack a }
      else some s1
  | some (_, s1) => throwString "Expected bool in conditional" s1
  | none => none

def setIpTop (a : Nat) (s : VMState) : VMState :=
  { s with callStack := setIpL s.callStack a }

/-- One iteration of the `VM::run` loop: fetch the instruction at the top
frame's ip, advance the ip, dispatch. -/
def step (e : Env) (s : VMState) : Option VMState :=
  match s.callStack.getLast? with
  | none => none
  | some fr =>
      match s.funcs[fr.func]? with
      | none => none
      | some fo =>
          match fo.proto.code[fr.ip]? with
          | none => none
          | some instr =>
              let s0 := setIpTop (fr.ip + 1) s
              match instr with
              | .nop => some s0
              | .pop => (popData s0).map Prod.snd
              | .nip => (removeData 1 s0).map Prod.snd
              | .dup =>
                  match s0.dataStack.getLast? with
                  | none => none
                  | some top => some (pushData top.value s0)
              | .nilV => some (pushData .nil s0)
              | .getVar i => getVariable i s0
              | .setVar i => setVariable i s0
              | .getConst i =>
                  match fo.proto.constants[i]? with
                  | none => none
                  | some v => some (pushData v s0)
              | .getUp i => getUpvalue i s0
              | .setUp i => setUpvalue i s0
              | .resetUp => resetUpvalues s0
              | .makeUp i => makeUpvalue i s0
              | .copyUp i => copyUpvalue i s0
              | .getProp => getProperty s0
              | .setProp => setProperty s0
              | .call => callOp e s0
              | .send => sendOp e s0
              | .ret => returnOp s0
              | .jump a => jumpOp a s0
              | .jumpIf a => jumpCond a true s0
              | .jumpUnless a => jumpCond a false s0
              | .throwV => throwOp s0
              | .catchV a => some (catchOp a s0)
              | .uncatch => uncatchOp s0

/-- The `VM::run` loop: execute until the call stack empties. -/
def runLoop (e : Env) : Nat → VMState → Option VMState
  | 0, s => if s.callStack.isEmpty then some s else none
  | fuel + 1, s =>
      if s.callStack.isEmpty then some s
      else
        match step e s with
        | none => none
        | some s2 => runLoop e fuel s2

/-- The `not_understood` trampoline installed by `VM::VM`: three arguments
`(nu, obj, msg)`, code `nu(obj)` then `(·)(msg)`, one constant `1`. -/
def fallbackProto : Proto :=
  ⟨3, [.getVar 0, .getVar 1, .getConst 0, .call, .getVar 2, .getConst 0,
       .call, .ret], [.int 1]⟩

/-- `VM::VM`: allocate `send_fallback_fn` exactly once. -/
def mkVM (funcs0 : List FuncObj) : List FuncObj × Nat :=
  (funcs0 ++ [⟨fallbackProto, []⟩], funcs0.length)

theorem shiftCells_nil_frames (ups : List UpCell) : shiftCells [] ups = some ups :=
  rfl

theorem shiftCells_of_no_upvals (l : List DFrame) (ups : List UpCell)
    (h : ∀ fr ∈ l, fr.upval = none) : shiftCells l ups = some ups := by
  induction l with
  | nil => rfl
  | cons fr rest ih =>
      have hfr : fr.upval = none := h fr (by simp)
      simp only [shiftCells, hfr]
      exact ih (fun x hx => h x (by simp [hx]))

/-- The normal form of `remove_data`: on a stack split as
`init ++ fr :: tail` with `off = tail.length`, the slot `fr` comes out,
its cell is closed, and the `tail` slots shift down. -/
theorem removeData_concat (s : VMState) (init tail : List DFrame) (fr : DFrame)
    (h : s.dataStack = init ++ fr :: tail) :
    removeData tail.length s =
      (shiftCells tail (closeCell s.upvals fr)).map
        (fun up2 => (fr.value, { s with dataStack := init ++ tail, upvals := up2 })) := by
  have hlen : s.dataStack.length = init.length + 1 + tail.length := by
    rw [h]; simp; omega
  have hidx : s.dataStack.length - 1 - tail.length = init.length := by omega
  have hget : s.dataStack[init.length]? = some fr := by
    rw [h, List.getElem?_append_right (Nat.le_refl _)]
    simp
  have htake : s.dataStack.take init.length = init := by
    rw [h]; exact List.take_left init (fr :: tail)
  have hdrop : s.dataStack.drop (init.length + 1) = tail := by
    have h2 : s.dataStack = (init ++ [fr]) ++ tail := by rw [h]; simp
    have h3 := List.drop_left (init ++ [fr]) tail
    rw [h2]
    simp at h3
    simp [h3]
  rw [removeData, if_pos (by omega)]
  simp only [hidx, hget, htake, hdrop]
  cases shiftCells tail (closeCell s.upvals fr) <;> rfl

theorem popData_concat (s : VMState) (init : List DFrame) (fr : DFrame)
    (h : s.dataStack = init ++ [fr]) :
    popData s = some (fr.value,
      { s with dataStack := init, upvals := closeCell s.upvals fr }) := by
  have := removeData_concat s init [] fr (by simpa using h)
  rw [popData]
  simp only [List.length_nil] at this
  rw [this, shiftCells_nil_frames]
  simp

theorem popData_spec (s : VMState) (hne : s.dataStack ≠ []) :
    popData s = some ((s.dataStack.getLast hne).value,
      { s with dataStack := s.dataStack.dropLast,
               upvals := closeCell s.upvals (s.dataStack.getLast hne) }) :=
  popData_concat s _ _ (List.dropLast_append_getLast hne).symm

/-- Popping `k` slots truncates the data stack to its first `length − k`
entries and touches nothing but the upvalue heap. -/
theorem popMany_spec : ∀ (k : Nat) (s : VMState), k ≤ s.dataStack.length →
    ∃ s2, popMany k s = some s2 ∧
      s2.dataStack = s.dataStack.take (s.dataStack.length - k) ∧
      s2.callStack = s.callStack ∧ s2.excStack = s.excStack ∧
      s2.exceptionThrown = s.exceptionThrown ∧ s2.funcs = s.funcs ∧
      s2.objs = s.objs := by
  intro k
  induction k with
  | zero =>
      intro s _
      exact ⟨s, rfl, by simp, rfl, rfl, rfl, rfl, rfl⟩
  | succ k ih =>
      intro s hk
      have hne : s.dataStack ≠ [] := by
        intro h0
        rw [h0] at hk
        simp at hk
      have hpop := popData_spec s hne
      obtain ⟨s2, hrun, hds, hcs, hes, het, hfs, hos⟩ :=
        ih { s with dataStack := s.dataStack.dropLast,
                    upvals := closeCell s.upvals (s.dataStack.getLast hne) }
          (by simp [List.length_dropLast]; omega)
      refine ⟨s2, ?_, ?_, hcs, hes, het, hfs, hos⟩
      · rw [popMany, hpop]
        exact hrun
      · rw [hds]
        show (s.dataStack.dropLast).take (s.dataStack.dropLast.length - k) = _
        rw [List.dropLast_eq_take, List.take_take, List.length_take]
        congr 1
        omega

theorem removeData_frames (off : Nat) (s : VMState) (v : Val) (s2 : VMState)
    (h : removeData off s = some (v, s2)) :
    s2.callStack = s.callStack ∧ s2.excStack = s.excStack ∧
    s2.exceptionThrown = s.exceptionThrown ∧ s2.funcs = s.funcs ∧
    s2.objs = s.objs ∧ s2.dataStack.length + 1 = s.dataStack.length := by
  simp only [removeData] at h
  split at h
  · split at h
    · cases h
    · split at h
      · cases h
      · rename_i hoff fr hget up2 hshift
        injection h with h1
        injection h1 with hv hs2
        subst hs2
        refine ⟨rfl, rfl, rfl, rfl, rfl, ?_⟩
        have hidx : s.dataStack.length - 1 - off < s.dataStack.length := by omega
        simp only [List.length_append, List.length_take, List.length_drop]
        omega
  · cases h

theorem popMany_frames (k : Nat) : ∀ (s s2 : VMState),
    popMany k s = some s2 →
    s2.callStack = s.callStack ∧ s2.excStack = s.excStack ∧
    s2.exceptionThrown = s.exceptionThrown ∧ s2.funcs = s.funcs ∧
    s2.objs = s.objs := by
  induction k with
  | zero =>
      intro s s2 h
      cases h
      exact ⟨rfl, rfl, rfl, rfl, rfl⟩
  | succ k ih =>
      intro s s2 h
      rw [popMany] at h
      cases hp : popData s with
      | none => rw [hp] at h; cases h
      | some p =>
          rw [hp] at h
          obtain ⟨h1, h2, h3, h4, h5⟩ := ih p.2 s2 h
          obtain ⟨g1, g2, g3, g4, g5, _⟩ := removeData_frames 0 s p.1 p.2 hp
          exact ⟨h1.trans g1, h2.trans g2, h3.trans g3, h4.trans g4, h5.trans g5⟩

theorem setIpL_length (l : List CFrame) (a : Nat) : (setIpL l a).length = l.length := by
  rw [setIpL]
  cases hl : l.getLast? with
  | none => rfl
  | some fr =>
      have hne : l ≠ [] := by
        intro h0
        rw [h0] at hl
        cases hl
      have hpos : 0 < l.length := List.length_pos.mpr hne
      simp [List.length_dropLast]
      omega

theorem setIpL_getLast (l : List CFrame) (a : Nat) (fr : CFrame)
    (h : l.getLast? = some fr) :
    (setIpL l a).getLast? = some { fr with ip := a } := by
  rw [setIpL, h]
  exact List.getLast?_concat _

theorem throwOp_nohandler (s : VMState) (v : Val) (s1 s2 : VMState)
    (hexc : s.excStack.getLast? = none)
    (hpop : popData s = some (v, s1))
    (hpm : popMany s1.dataStack.length s1 = some s2) :
    throwOp s = some { s2 with dataStack := s2.dataStack ++ [⟨v, none⟩],
                               callStack := [], exceptionThrown := true } := by
  rw [throwOp, hexc, hpop]
  show (match popMany s1.dataStack.length s1 with
    | none => none
    | some s2 =>
        some { s2 with dataStack := s2.dataStack ++ [DFrame.mk v none],
                       callStack := [], exceptionThrown := true }) = _
  rw [hpm]

theorem throwOp_handler_eq (s : VMState) (hd : EFrame) (v : Val) (s1 s2 : VMState)
    (hexc : s.excStack.getLast? = some hd)
    (hpop : popData s = some (v, s1))
    (hpm : popMany (s1.dataStack.length - hd.dataBottom) s1 = some s2) :
    throwOp s = if (s2.callStack.take hd.callBottom).isEmpty then none
      else some { s2 with dataStack := s2.dataStack ++ [⟨v, none⟩],
                          excStack := s2.excStack.dropLast,
                          callStack := setIpL (s2.callStack.take hd.callBottom) hd.address } := by
  rw [throwOp, hexc, hpop]
  show (match popMany (s1.dataStack.length - hd.dataBottom) s1 with
    | none => none
    | some s2 =>
        if (s2.callStack.take hd.callBottom).isEmpty then none
        else some { s2 with dataStack := s2.dataStack ++ [DFrame.mk v none],
                            excStack := s2.excStack.dropLast,
                            callStack := setIpL (s2.callStack.take hd.callBottom) hd.address }) = _
  rw [hpm]

/-- C6: `VM::throw_`.  With an empty exception stack, all call frames are
dropped, the thrown value is left as the sole data-stack entry and the VM
is marked as having thrown; with a nonempty exception stack, exactly the
topmost handler is popped, the data and call stacks are truncated to its
recorded bottoms, the value is pushed, and the surviving top frame's
instruction pointer becomes the handler's address. -/
theorem vm_throw_semantics (s f : VMState) (v : Val) (u : Option Nat)
    (htop : s.dataStack.getLast? = some ⟨v, u⟩)
    (hrun : throwOp s = some f) :
    (s.excStack = [] →
       f.dataStack.map DFrame.value = [v] ∧ f.callStack = [] ∧
       f.excStack = [] ∧ f.exceptionThrown = true) ∧
    (∀ initE hd, s.excStack = initE ++ [hd] →
       hd.dataBottom < s.dataStack.length →
       hd.callBottom ≤ s.callStack.length →
       f.dataStack.map DFrame.value =
         (s.dataStack.map DFrame.value).take hd.dataBottom ++ [v] ∧
       f.excStack = initE ∧
       f.callStack = setIpL (s.callStack.take hd.callBottom) hd.address ∧
       f.callStack.length = hd.callBottom ∧
       (∀ fr2, (s.callStack.take hd.callBottom).getLast? = some fr2 →
          f.callStack.getLast? = some { fr2 with ip := hd.address }) ∧
       f.exceptionThrown = s.exceptionThrown) := by
  have hne : s.dataStack ≠ [] := by
    intro h0
    rw [h0] at htop
    cases htop
  have hval : s.dataStack.getLast hne = ⟨v, u⟩ := by
    rw [List.getLast?_eq_getLast s.dataStack hne] at htop
    injection htop
  cases hexc : s.excStack.getLast? with
  | none =>
      have hempty : s.excStack = [] := List.getLast?_eq_none_iff.mp hexc
      obtain ⟨s2, hpm, hds2, hcs2, hes2, het2, _, _⟩ :=
        popMany_spec s.dataStack.dropLast.length
          { s with dataStack := s.dataStack.dropLast,
                   upvals := closeCell s.upvals (s.dataStack.getLast hne) }
          (Nat.le_refl _)
      rw [throwOp_nohandler s (s.dataStack.getLast hne).value _ s2 hexc
        (popData_spec s hne) hpm] at hrun
      replace hrun := Option.some.inj hrun
      subst hrun
      constructor
      · intro _
        have hds2' : s2.dataStack = [] := by
          rw [hds2]
          simp
        refine ⟨?_, rfl, ?_, rfl⟩
        · rw [hds2']
          simp [hval]
        · show s2.excStack = []
          rw [hes2]
          exact hempty
      · intro initE hd heq _ _
        rw [hempty] at heq
        exact absurd heq.symm (by simp)
  | some hd0 =>
      obtain ⟨s2, hpm, hds2, hcs2, hes2, het2, _, _⟩ :=
        popMany_spec (s.dataStack.dropLast.length - hd0.dataBottom)
          { s with dataStack := s.dataStack.dropLast,
                   upvals := closeCell s.upvals (s.dataStack.getLast hne) }
          (Nat.sub_le _ _)
      rw [throwOp_handler_eq s hd0 (s.dataStack.getLast hne).value _ s2 hexc
        (popData_spec s hne) hpm] at hrun
      cases hie : (s2.callStack.take hd0.callBottom).isEmpty with
      | true => rw [hie] at hrun; simp at hrun
      | false =>
          rw [if_neg (by simp [hie])] at hrun
          replace hrun := Option.some.inj hrun
          subst hrun
          constructor
          · intro h0
            rw [h0] at hexc
            simp at hexc
          · intro initE hd heq hdb hcb
            have hhd : hd0 = hd := by
              rw [heq, List.getLast?_concat] at hexc
              exact (Option.some.inj hexc).symm
            subst hhd
            have hcs2' : s2.callStack = s.callStack := hcs2
            have hes2' : s2.excStack = s.excStack := hes2
            have hds2' : s2.dataStack =
                s.dataStack.dropLast.take
                  (s.dataStack.dropLast.length -
                    (s.dataStack.dropLast.length - hd0.dataBottom)) := hds2
            have hlenD : s.dataStack.dropLast.length = s.dataStack.length - 1 := by
              simp
            have hdbl : hd0.dataBottom ≤ s.dataStack.dropLast.length := by omega
            have htk : s2.dataStack = s.dataStack.take hd0.dataBottom := by
              rw [hds2', List.dropLast_eq_take, List.take_take, List.length_take]
              congr 1
              omega
            refine ⟨?_, ?_, ?_, ?_, ?_, ?_⟩
            · rw [htk]
              simp [hval, List.map_take]
            · show s2.excStack.dropLast = initE
              rw [hes2', heq]
              exact List.dropLast_concat
            · rw [hcs2']
            · rw [setIpL_length, hcs2', List.length_take]
              omega
            · intro fr2 hfr2
              rw [hcs2']
              exact setIpL_getLast _ _ _ hfr2
            · exact het2

/-- Two frames, one handler recorded at data height 1 inside frame 0, a
thrown string on top. -/
def throwDemo : VMState :=
  { dataStack := [⟨.int 1, none⟩, ⟨.int 2, none⟩, ⟨.str "boom", none⟩],
    callStack := [⟨0, 5, 0, 0⟩, ⟨1, 3, 1, 1⟩],
    excStack := [⟨1, 1, 9⟩],
    exceptionThrown := false,
    funcs := [], upvals := [], objs := [] }

def throwDemoRes : VMState :=
  { dataStack := [⟨.int 1, none⟩, ⟨.str "boom", none⟩],
    callStack := [⟨0, 9, 0, 0⟩],
    excStack := [],
    exceptionThrown := false,
    funcs := [], upvals := [], objs := [] }

theorem vm_throw_semantics_witness :
    throwOp throwDemo = some throwDemoRes ∧
    throwDemoRes.dataStack.map DFrame.value =
      (throwDemo.dataStack.map DFrame.value).take 1 ++ [.str "boom"] ∧
    throwDemoRes.excStack = [] ∧
    throwDemoRes.callStack.getLast? = some ⟨0, 9, 0, 0⟩ := by
  have h := vm_throw_semantics throwDemo throwDemoRes (.str "boom") none
    (by decide) (by decide)
  obtain ⟨hd1, hd2, hd3, hd4, hd5, hd6⟩ :=
    h.2 [] ⟨1, 1, 9⟩ (by decide) (by decide) (by decide)
  exact ⟨by decide, hd1, hd2, hd5 ⟨0, 5, 0, 0⟩ (by decide)⟩

theorem classOf_congr (e : Env) (s1 s2 : VMState) (ov : Val)
    (h : s1.objs = s2.objs) : classOf e s1 ov = classOf e s2 ov := by
  cases ov <;> simp [classOf, h]

theorem popData_pushData (v : Val) (s : VMState) :
    popData (pushData v s) = some (v, s) :=
  popData_concat (pushData v s) s.dataStack ⟨v, none⟩ (by simp [pushData])

theorem sendOp_eq (e : Env) (s s1 s2 : VMState) (msg : String) (ov : Val)
    (cls : Nat)
    (hpop1 : popData s = some (.str msg, s1))
    (hpop2 : popData s1 = some (ov, s2))
    (hcls : classOf e s2 ov = some cls) :
    sendOp e s =
      match e.lookupM cls msg with
      | some meth => callOp e (pushData (.int 1) (pushData ov (pushData meth s2)))
      | none =>
          match e.lookupM cls "not_understood" with
          | some nu => callNative e.fallbackFn 3
              (pushData (.str msg) (pushData ov (pushData nu s2)))
          | none => throwString ("Message `" ++ msg ++ "` could not be handled") s2 := by
  simp only [sendOp, hpop1, hpop2, hcls]

theorem callOp_eq (e : Env) (s s1 s2 : VMState) (z : Int) (fv : Val)
    (hpop : popData s = some (.int z, s1)) (hz : ¬ z < 0)
    (hrm : removeData z.toNat s1 = some (fv, s2)) :
    callOp e s =
      match fv with
      | .fn f => callNative f z.toNat s2
      | .cppfn f => callForeign e f z.toNat s2
      | _ => throwString "Can't call a non-function" s2 := by
  simp only [callOp, hpop, if_neg hz, hrm]
  cases fv <;> rfl

theorem callNative_ok (f n : Nat) (s : VMState) (fo : FuncObj)
    (hf : s.funcs[f]? = some fo) (hn : fo.proto.nargs = n) :
    callNative f n s = some { s with callStack := s.callStack ++
        [⟨f, 0, s.dataStack.length - n, s.excStack.length⟩] } := by
  simp only [callNative, hf]
  rw [if_neg (by simp [hn])]

theorem callForeign_ok (e : Env) (f n : Nat) (s s2 : VMState) (ff : ForeignFn)
    (args : List Val) (r : Val)
    (hf : e.foreign[f]? = some ff) (hn : ff.nargs = n)
    (hargs : popArgs n s = some (args, s2)) (hr : ff.body args = .ok r) :
    callForeign e f n s = some (pushData r s2) := by
  simp [callForeign, hf, hn, hargs, hr]

/-- C5: `VM::send_` with `[obj, msg]` on top of the data stack resolves
`msg` through `Klass::lookup` on `class_of(obj)`.  A found script method
is called with `obj` as the sole argument (a fresh frame over just `obj`);
a found foreign method is invoked on exactly `[obj]`; with no method but a
resolvable `not_understood`, the VM calls the `send_fallback_fn`
trampoline on the three arguments `(not_understood, obj, msg)` — a
function `VM::VM` allocates exactly once, whose code computes
`not_understood(obj)(msg)`; otherwise a catchable script error is thrown. -/
theorem vm_send_dispatch (e : Env) (s : VMState) (init : List DFrame)
    (ov : Val) (msg : String) (cls : Nat)
    (hstack : s.dataStack = init ++ [⟨ov, none⟩, ⟨.str msg, none⟩])
    (hcls : classOf e s ov = some cls) :
    (∀ fid fo, e.lookupM cls msg = some (.fn fid) →
       s.funcs[fid]? = some fo → fo.proto.nargs = 1 →
       sendOp e s = some { s with dataStack := init ++ [⟨ov, none⟩],
                                  callStack := s.callStack ++ [⟨fid, 0, init.length, s.excStack.length⟩] }) ∧
    (∀ fid ff r, e.lookupM cls msg = some (.cppfn fid) →
       e.foreign[fid]? = some ff → ff.nargs = 1 → ff.body [ov] = .ok r →
       sendOp e s = some { s with dataStack := init ++ [⟨r, none⟩] }) ∧
    (∀ nu fb, e.lookupM cls msg = none →
       e.lookupM cls "not_understood" = some nu →
       s.funcs[e.fallbackFn]? = some fb → fb.proto = fallbackProto →
       sendOp e s = some { s with
                           dataStack := init ++ [⟨nu, none⟩, ⟨ov, none⟩, ⟨.str msg, none⟩],
                           callStack := s.callStack ++ [⟨e.fallbackFn, 0, init.length, s.excStack.length⟩] }) ∧
    (e.lookupM cls msg = none → e.lookupM cls "not_understood" = none →
       sendOp e s = throwString ("Message `" ++ msg ++ "` could not be handled")
         { s with dataStack := init }) ∧
    (∀ fs, (mkVM fs).1.length = fs.length + 1 ∧
       (mkVM fs).1[(mkVM fs).2]? = some ⟨fallbackProto, []⟩) := by
  have h1 : popData s = some (.str msg, { s with dataStack := init ++ [⟨ov, none⟩] }) :=
    popData_concat s (init ++ [⟨ov, none⟩]) ⟨.str msg, none⟩ (by rw [hstack]; simp)
  have h2 : popData { s with dataStack := init ++ [⟨ov, none⟩] } =
      some (ov, { s with dataStack := init }) :=
    popData_concat _ init ⟨ov, none⟩ rfl
  have hcls2 : classOf e { s with dataStack := init } ov = some cls :=
    (classOf_congr e _ s ov rfl).trans hcls
  have hmain := sendOp_eq e s _ _ msg ov cls h1 h2 hcls2
  refine ⟨?_, ?_, ?_, ?_, ?_⟩
  · intro fid fo hm hf hn
    rw [hmain, hm]
    show callOp e (pushData (.int 1)
      (pushData ov (pushData (.fn fid) { s with dataStack := init }))) = _
    have h4 : removeData (1 : Int).toNat
        (pushData ov (pushData (.fn fid) { s with dataStack := init })) =
        some (.fn fid, { s with dataStack := init ++ [⟨ov, none⟩] }) :=
      removeData_concat _ init [⟨ov, none⟩] ⟨.fn fid, none⟩ (by simp [pushData])
    rw [callOp_eq e _ _ _ 1 (.fn fid) (popData_pushData _ _) (by decide) h4]
    show callNative fid (1 : Int).toNat { s with dataStack := init ++ [⟨ov, none⟩] } = _
    have hf2 : ({ s with dataStack := init ++ [⟨ov, none⟩] } : VMState).funcs[fid]? = some fo := hf
    rw [callNative_ok fid ((1 : Int).toNat) _ fo hf2 hn]
    simp
  · intro fid ff r hm hf hn hr
    rw [hmain, hm]
    show callOp e (pushData (.int 1)
      (pushData ov (pushData (.cppfn fid) { s with dataStack := init }))) = _
    have h4 : removeData (1 : Int).toNat
        (pushData ov (pushData (.cppfn fid) { s with dataStack := init })) =
        some (.cppfn fid, { s with dataStack := init ++ [⟨ov, none⟩] }) :=
      removeData_concat _ init [⟨ov, none⟩] ⟨.cppfn fid, none⟩ (by simp [pushData])
    rw [callOp_eq e _ _ _ 1 (.cppfn fid) (popData_pushData _ _) (by decide) h4]
    show callForeign e fid (1 : Int).toNat { s with dataStack := init ++ [⟨ov, none⟩] } = _
    have h5 : popArgs 1 { s with dataStack := init ++ [⟨ov, none⟩] } =
        some ([ov], { s with dataStack := init }) := by
      rw [popArgs, h2]
      rfl
    rw [callForeign_ok e fid ((1 : Int).toNat) _ _ ff [ov] r hf hn h5 hr]
    simp [pushData]
  · intro nu fb hm hnu hf hfb
    rw [hmain, hm, hnu]
    show callNative e.fallbackFn 3
      (pushData (.str msg) (pushData ov (pushData nu { s with dataStack := init }))) = _
    have hf2 : (pushData (.str msg) (pushData ov (pushData nu { s with dataStack := init }))).funcs[e.fallbackFn]? = some fb := hf
    rw [callNative_ok e.fallbackFn 3 _ fb hf2 (by rw [hfb]; rfl)]
    simp [pushData, List.append_assoc]
  · intro hm hnu
    rw [hmain, hm, hnu]
  · intro fs
    refine ⟨by simp [mkVM], ?_⟩
    show (fs ++ [⟨fallbackProto, []⟩])[fs.length]? = _
    exact List.getElem?_concat_length fs _

def sendDemoEnv : Env :=
  { nilCls := 0, boolCls := 1, intCls := 5, strCls := 2, fnCls := 3,
    foreign := [],
    lookupM := fun c n =>
      if c = 5 ∧ n = "inc" then some (.fn 0)
      else if c = 5 ∧ n = "not_understood" then some (.fn 7)
      else none,
    fallbackFn := 1 }

def sendDemo : VMState :=
  { dataStack := [⟨.int 7, none⟩, ⟨.str "inc", none⟩],
    callStack := [], excStack := [], exceptionThrown := false,
    funcs := [⟨⟨1, [.ret], []⟩, []⟩, ⟨fallbackProto, []⟩],
    upvals := [], objs := [] }

def sendDemo2 : VMState :=
  { sendDemo with dataStack := [⟨.int 7, none⟩, ⟨.str "zap", none⟩] }

theorem vm_send_dispatch_witness :
    sendOp sendDemoEnv sendDemo =
      some { sendDemo with dataStack := [⟨.int 7, none⟩],
                           callStack := [⟨0, 0, 0, 0⟩] } ∧
    sendOp sendDemoEnv sendDemo2 =
      some { sendDemo2 with dataStack := [⟨.fn 7, none⟩, ⟨.int 7, none⟩, ⟨.str "zap", none⟩],
                            callStack := [⟨1, 0, 0, 0⟩] } := by
  constructor
  · exact (vm_send_dispatch sendDemoEnv sendDemo [] (.int 7) "inc" 5
      (by decide) (by decide)).1 0 ⟨⟨1, [.ret], []⟩, []⟩ (by decide) (by decide) rfl
  · exact ((vm_send_dispatch sendDemoEnv sendDemo2 [] (.int 7) "zap" 5
      (by decide) (by decide)).2.2.1) (.fn 7) ⟨fallbackProto, []⟩ (by decide)
      (by decide) (by decide) rfl

/-- C7: captured locals behave as one shared location.  First capture of a
slot allocates one open cell recording the slot's index and plants the
back-reference; later captures of the same slot reuse that exact cell;
while open, reads and writes through the cell go to the covered stack
slot (so every capturing closure and the original local observe the same
value); when the slot is removed its cell is closed over the slot's value
and cells of shifted slots have their recorded index decremented; once
closed, reads and writes go through the (shared) cell itself. -/
theorem vm_upvalue_shared_cell :
    (∀ (i : Nat) (s : VMState) (f : Nat) (u0 : Option Nat) (fr : CFrame)
       (slot : DFrame) (fo : FuncObj),
       s.dataStack.getLast? = some ⟨.fn f, u0⟩ →
       s.callStack.getLast? = some fr →
       s.dataStack[fr.dataBottom + i]? = some slot →
       slot.upval = none →
       s.funcs[f]? = some fo →
       makeUpvalue i s = some { s with
         dataStack := s.dataStack.set (fr.dataBottom + i)
           { slot with upval := some s.upvals.length },
         upvals := s.upvals ++ [.openIdx (fr.dataBottom + i)],
         funcs := s.funcs.set f
           { fo with upvalues := fo.upvalues ++ [s.upvals.length] } }) ∧
    (∀ (i : Nat) (s : VMState) (f : Nat) (u0 : Option Nat) (fr : CFrame)
       (slot : DFrame) (u : Nat) (fo : FuncObj),
       s.dataStack.getLast? = some ⟨.fn f, u0⟩ →
       s.callStack.getLast? = some fr →
       s.dataStack[fr.dataBottom + i]? = some slot →
       slot.upval = some u →
       s.funcs[f]? = some fo →
       makeUpvalue i s = some { s with
         funcs := s.funcs.set f
           { fo with upvalues := fo.upvalues ++ [u] } }) ∧
    (∀ (i : Nat) (s : VMState) (fr : CFrame) (fo : FuncObj) (u j : Nat)
       (slot : DFrame),
       s.callStack.getLast? = some fr →
       s.funcs[fr.func]? = some fo →
       fo.upvalues[i]? = some u →
       s.upvals[u]? = some (.openIdx j) →
       s.dataStack[j]? = some slot →
       getUpvalue i s = some (pushData slot.value s)) ∧
    (∀ (i : Nat) (s : VMState) (init : List DFrame) (v : Val) (fr : CFrame)
       (fo : FuncObj) (u j : Nat) (slot : DFrame),
       s.dataStack = init ++ [⟨v, none⟩] →
       s.callStack.getLast? = some fr →
       s.funcs[fr.func]? = some fo →
       fo.upvalues[i]? = some u →
       s.upvals[u]? = some (.openIdx j) →
       init[j]? = some slot →
       setUpvalue i s = some { s with
         dataStack := init.set j { slot with value := v } }) ∧
    (∀ (s : VMState) (init tail : List DFrame) (fr : DFrame) (u : Nat),
       s.dataStack = init ++ fr :: tail →
       fr.upval = some u →
       removeData tail.length s =
         (shiftCells tail (s.upvals.set u (.closed fr.value))).map
           (fun up2 => (fr.value, { s with dataStack := init ++ tail,
                                           upvals := up2 }))) ∧
    (∀ (fr2 : DFrame) (rest : List DFrame) (ups : List UpCell) (u2 j : Nat),
       fr2.upval = some u2 →
       ups[u2]? = some (.openIdx (j + 1)) →
       shiftCells (fr2 :: rest) ups = shiftCells rest (ups.set u2 (.openIdx j))) ∧
    (∀ (fr2 : DFrame) (rest : List DFrame) (ups : List UpCell),
       fr2.upval = none →
       shiftCells (fr2 :: rest) ups = shiftCells rest ups) ∧
    (∀ (i : Nat) (s : VMState) (fr : CFrame) (fo : FuncObj) (u : Nat) (w : Val),
       s.callStack.getLast? = some fr →
       s.funcs[fr.func]? = some fo →
       fo.upvalues[i]? = some u →
       s.upvals[u]? = some (.closed w) →
       getUpvalue i s = some (pushData w s)) ∧
    (∀ (i : Nat) (s : VMState) (init : List DFrame) (v : Val) (fr : CFrame)
       (fo : FuncObj) (u : Nat) (w : Val),
       s.dataStack = init ++ [⟨v, none⟩] →
       s.callStack.getLast? = some fr →
       s.funcs[fr.func]? = some fo →
       fo.upvalues[i]? = some u →
       s.upvals[u]? = some (.closed w) →
       setUpvalue i s = some { s with dataStack := init,
                                      upvals := s.upvals.set u (.closed v) }) := by
  refine ⟨?_, ?_, ?_, ?_, ?_, ?_, ?_, ?_, ?_⟩
  · intro i s f u0 fr slot fo htop hfr hslot hupv hf
    simp only [makeUpvalue, htop, hfr, hslot, hupv, hf]
  · intro i s f u0 fr slot u fo htop hfr hslot hupv hf
    simp only [makeUpvalue, htop, hfr, hslot, hupv, hf]
  · intro i s fr fo u j slot hfr hf hup hcell hj
    simp only [getUpvalue, hfr, hf, hup, hcell, hj]
  · intro i s init v fr fo u j slot hstack hfr hf hup hcell hj
    simp only [setUpvalue, hfr, hf, hup,
      popData_concat s init ⟨v, none⟩ hstack, closeCell, hcell, hj]
  · intro s init tail fr u h hu
    have hcc : closeCell s.upvals fr = s.upvals.set u (.closed fr.value) := by
      simp only [closeCell, hu]
    rw [removeData_concat s init tail fr h, hcc]
  · intro fr2 rest ups u2 j hu hcell
    simp only [shiftCells, hu, hcell]
  · intro fr2 rest ups hu
    simp only [shiftCells, hu]
  · intro i s fr fo u w hfr hf hup hcell
    simp only [getUpvalue, hfr, hf, hup, hcell]
  · intro i s init v fr fo u w hstack hfr hf hup hcell
    simp only [setUpvalue, hfr, hf, hup,
      popData_concat s init ⟨v, none⟩ hstack, closeCell, hcell]

/-- A frame with local 0 (value 5) and a closure on top about to capture
it. -/
def upDemo : VMState :=
  { dataStack := [⟨.int 5, none⟩, ⟨.fn 1, none⟩],
    callStack := [⟨0, 0, 0, 0⟩],
    excStack := [], exceptionThrown := false,
    funcs := [⟨⟨0, [], []⟩, []⟩, ⟨⟨0, [], []⟩, []⟩, ⟨⟨0, [], []⟩, []⟩],
    upvals := [], objs := [] }

/-- The same local already captured by closure 1 (cell 0); closure 2 on
top captures it next. -/
def upDemoShared : VMState :=
  { dataStack := [⟨.int 5, some 0⟩, ⟨.fn 2, none⟩],
    callStack := [⟨0, 0, 0, 0⟩],
    excStack := [], exceptionThrown := false,
    funcs := [⟨⟨0, [], []⟩, []⟩, ⟨⟨0, [], []⟩, [0]⟩, ⟨⟨0, [], []⟩, []⟩],
    upvals := [.openIdx 0], objs := [] }

theorem vm_upvalue_shared_cell_witness :
    makeUpvalue 0 upDemo = some { upDemo with
      dataStack := [⟨.int 5, some 0⟩, ⟨.fn 1, none⟩],
      upvals := [.openIdx 0],
      funcs := [⟨⟨0, [], []⟩, []⟩, ⟨⟨0, [], []⟩, [0]⟩, ⟨⟨0, [], []⟩, []⟩] } ∧
    makeUpvalue 0 upDemoShared = some { upDemoShared with
      funcs := [⟨⟨0, [], []⟩, []⟩, ⟨⟨0, [], []⟩, [0]⟩, ⟨⟨0, [], []⟩, [0]⟩] } ∧
    removeData 1 upDemoShared = some (.int 5, { upDemoShared with
      dataStack := [⟨.fn 2, none⟩], upvals := [.closed (.int 5)] }) := by
  obtain ⟨h1, h2, h3, h4, h5, h6, h7, h8, h9⟩ := vm_upvalue_shared_cell
  refine ⟨?_, ?_, ?_⟩
  · exact h1 0 upDemo 1 none ⟨0, 0, 0, 0⟩ ⟨.int 5, none⟩ ⟨⟨0, [], []⟩, []⟩
      (by decide) (by decide) (by decide) rfl (by decide)
  · exact h2 0 upDemoShared 2 none ⟨0, 0, 0, 0⟩ ⟨.int 5, some 0⟩ 0 ⟨⟨0, [], []⟩, []⟩
      (by decide) (by decide) (by decide) rfl (by decide)
  · have h := h5 upDemoShared [] [⟨.fn 2, none⟩] ⟨.int 5, some 0⟩ 0 (by decide) rfl
    rw [show (1 : Nat) = [(⟨.fn 2, none⟩ : DFrame)].length from rfl, h]
    decide

/-! ### Stack balance (`VM::run`, claim C9)

The loop invariant: the bottom call frame owns the whole data stack and
all handlers (`call`/`send` entry points start it with bottoms `(0, 0)`),
every recorded handler keeps at least one call frame alive, and an empty
call stack without a pending exception only arises balanced. -/

def bottomOkL (l : List CFrame) : Prop :=
  ∀ fr ∈ l.take 1, fr.dataBottom = 0 ∧ fr.excBottom = 0

def handlersOkL (el : List EFrame) : Prop :=
  ∀ h ∈ el, 1 ≤ h.callBottom

def BalancedAtExit (s : VMState) : Prop :=
  s.callStack = [] → s.exceptionThrown = false →
    s.dataStack.length = 1 ∧ s.excStack = []

def StackInv (s : VMState) : Prop :=
  BalancedAtExit s ∧ bottomOkL s.callStack ∧ handlersOkL s.excStack

theorem bottomOkL_head (l : List CFrame) (h : bottomOkL l) (fr : CFrame)
    (hfr : l[0]? = some fr) : fr.dataBottom = 0 ∧ fr.excBottom = 0 := by
  apply h
  cases l with
  | nil => cases hfr
  | cons a as =>
      simp at hfr
      simp [hfr]

theorem bottomOkL_of_head (l : List CFrame)
    (h : ∀ fr, l[0]? = some fr → fr.dataBottom = 0 ∧ fr.excBottom = 0) :
    bottomOkL l := by
  intro x hx
  cases l with
  | nil => simp at hx
  | cons a as =>
      simp at hx
      subst hx
      exact h _ (by simp)

theorem bottomOkL_take (l : List CFrame) (k : Nat) (h : bottomOkL l) :
    bottomOkL (l.take k) := by
  apply bottomOkL_of_head
  intro fr hfr
  cases k with
  | zero => cases hfr
  | succ k =>
      apply bottomOkL_head l h fr
      cases l with
      | nil => cases hfr
      | cons a as => simpa using hfr

theorem bottomOkL_dropLast (l : List CFrame) (h : bottomOkL l) :
    bottomOkL l.dropLast := by
  rw [List.dropLast_eq_take]
  exact bottomOkL_take l _ h

theorem bottomOkL_append (l : List CFrame) (fr : CFrame) (hne : l ≠ [])
    (h : bottomOkL l) : bottomOkL (l ++ [fr]) := by
  apply bottomOkL_of_head
  intro x hx
  apply bottomOkL_head l h x
  cases l with
  | nil => exact absurd rfl hne
  | cons a as => simpa using hx

theorem bottomOkL_setIpL (l : List CFrame) (a : Nat) (h : bottomOkL l) :
    bottomOkL (setIpL l a) := by
  apply bottomOkL_of_head
  intro fr hfr
  rw [setIpL] at hfr
  cases hl : l.getLast? with
  | none =>
      rw [hl] at hfr
      exact bottomOkL_head l h fr hfr
  | some g =>
      rw [hl] at hfr
      cases l with
      | nil => cases hl
      | cons b bs =>
          cases bs with
          | nil =>
              simp at hl
              simp at hfr
              subst hl
              rw [← hfr]
              exact bottomOkL_head _ h b (by simp)
          | cons c cs =>
              have hfr2 : b = fr := by simpa using hfr
              subst hfr2
              exact bottomOkL_head _ h b rfl

theorem handlersOkL_take (el : List EFrame) (k : Nat) (h : handlersOkL el) :
    handlersOkL (el.take k) :=
  fun x hx => h x (List.take_subset k el hx)

theorem handlersOkL_dropLast (el : List EFrame) (h : handlersOkL el) :
    handlersOkL el.dropLast := by
  rw [List.dropLast_eq_take]
  exact handlersOkL_take el _ h

theorem handlersOkL_append (el : List EFrame) (x : EFrame) (hx : 1 ≤ x.callBottom)
    (h : handlersOkL el) : handlersOkL (el ++ [x]) := by
  intro y hy
  rcases List.mem_append.mp hy with hy | hy
  · exact h y hy
  · simp at hy
    subst hy
    exact hx

/-- The workhorse: an operation that keeps the call and exception stacks
of a state whose call stack is nonempty keeps the invariant. -/
theorem stackInv_keep (s f : VMState) (hInv : StackInv s) (hne : s.callStack ≠ [])
    (hcs : f.callStack = s.callStack) (hes : f.excStack = s.excStack) :
    StackInv f := by
  refine ⟨?_, ?_, ?_⟩
  · intro h0 _
    rw [hcs] at h0
    exact absurd h0 hne
  · show bottomOkL f.callStack
    rw [hcs]
    exact hInv.2.1
  · show handlersOkL f.excStack
    rw [hes]
    exact hInv.2.2

theorem pushData_inv (v : Val) (s : VMState) (hInv : StackInv s)
    (hne : s.callStack ≠ []) : StackInv (pushData v s) :=
  stackInv_keep s _ hInv hne rfl rfl

theorem popArgs_frames (k : Nat) : ∀ (s : VMState) (args : List Val) (s2 : VMState),
    popArgs k s = some (args, s2) →
    s2.callStack = s.callStack ∧ s2.excStack = s.excStack ∧
    s2.exceptionThrown = s.exceptionThrown := by
  induction k with
  | zero =>
      intro s args s2 h
      cases h
      exact ⟨rfl, rfl, rfl⟩
  | succ k ih =>
      intro s args s2 h
      rw [popArgs] at h
      cases hp : popData s with
      | none => rw [hp] at h; cases h
      | some p =>
          obtain ⟨v, s1⟩ := p
          rw [hp] at h
          replace h : (match popArgs k s1 with
            | none => none
            | some (vs, s3) => some (vs ++ [v], s3)) = some (args, s2) := h
          cases hq : popArgs k s1 with
          | none => rw [hq] at h; cases h
          | some q =>
              obtain ⟨vs, s3⟩ := q
              rw [hq] at h
              replace h : some (vs ++ [v], s3) = some (args, s2) := h
              cases h
              obtain ⟨h1, h2, h3⟩ := ih s1 vs s2 hq
              obtain ⟨g1, g2, g3, _, _, _⟩ := removeData_frames 0 s v s1 hp
              exact ⟨h1.trans g1, h2.trans g2, h3.trans g3⟩

theorem popMany_len (k : Nat) : ∀ (s s2 : VMState), popMany k s = some s2 →
    s2.dataStack.length + k = s.dataStack.length := by
  induction k with
  | zero =>
      intro s s2 h
      cases h
      rfl
  | succ k ih =>
      intro s s2 h
      rw [popMany] at h
      cases hp : popData s with
      | none => rw [hp] at h; cases h
      | some p =>
          rw [hp] at h
          have h1 := ih p.2 s2 h
          have h2 := (removeData_frames 0 s p.1 p.2 hp).2.2.2.2.2
          omega

theorem throwOp_inv (s f : VMState) (hInv : StackInv s) (h : throwOp s = some f) :
    StackInv f := by
  rw [throwOp] at h
  split at h
  · split at h
    · cases h
    · rename_i v s1 hpop
      split at h
      · cases h
      · rename_i s2 hpm
        injection h with h
        subst h
        obtain ⟨c1, c2, c3, _, _⟩ := popMany_frames _ _ _ hpm
        obtain ⟨d1, d2, d3, _, _, _⟩ := removeData_frames 0 s v s1 hpop
        refine ⟨?_, ?_, ?_⟩
        · intro _ hth
          cases hth
        · intro x hx
          simp at hx
        · show handlersOkL s2.excStack
          rw [c2, d2]
          exact hInv.2.2
  · rename_i hd hexc
    split at h
    · cases h
    · rename_i v s1 hpop
      split at h
      · cases h
      · rename_i s2 hpm
        split at h
        · cases h
        · rename_i hie
          injection h with h
          subst h
          obtain ⟨c1, c2, c3, _, _⟩ := popMany_frames _ _ _ hpm
          obtain ⟨d1, d2, d3, _, _, _⟩ := removeData_frames 0 s v s1 hpop
          have hcs : s2.callStack = s.callStack := c1.trans d1
          have hes : s2.excStack = s.excStack := c2.trans d2
          refine ⟨?_, ?_, ?_⟩
          · intro h0 _
            exfalso
            apply hie
            replace h0 : setIpL (s2.callStack.take hd.callBottom) hd.address = [] := h0
            have hlen := setIpL_length (s2.callStack.take hd.callBottom) hd.address
            rw [h0] at hlen
            have hnil : s2.callStack.take hd.callBottom = [] :=
              List.length_eq_zero.mp hlen.symm
            simp [hnil]
          · show bottomOkL (setIpL (s2.callStack.take hd.callBottom) hd.address)
            apply bottomOkL_setIpL
            apply bottomOkL_take
            rw [hcs]
            exact hInv.2.1
          · show handlersOkL s2.excStack.dropLast
            apply handlersOkL_dropLast
            rw [hes]
            exact hInv.2.2

theorem throwString_inv (m : String) (s f : VMState) (hInv : StackInv s)
    (hne : s.callStack ≠ []) (h : throwString m s = some f) : StackInv f :=
  throwOp_inv _ f (pushData_inv _ s hInv hne) h

theorem returnOp_inv (s f : VMState) (hInv : StackInv s) (h : returnOp s = some f) :
    StackInv f := by
  rw [returnOp] at h
  split at h
  · cases h
  · rename_i fr hfr
    split at h
    · cases h
    · rename_i hlen
      split at h
      · cases h
      · rename_i v s1 hpop
        split at h
        · cases h
        · rename_i s2 hpm
          split at h
          · rename_i heb
            injection h with h
            subst h
            obtain ⟨c1, c2, c3, _, _⟩ := popMany_frames _ _ _ hpm
            obtain ⟨d1, d2, d3, _, _, dlen⟩ := removeData_frames 0 s v s1 hpop
            have hplen := popMany_len _ _ _ hpm
            have hcs : s2.callStack = s.callStack := c1.trans d1
            have hes : s2.excStack = s.excStack := c2.trans d2
            refine ⟨?_, ?_, ?_⟩
            · intro h0 _
              show (s2.dataStack ++ [DFrame.mk v none]).length = 1 ∧
                s2.excStack.take fr.excBottom = []
              rw [hcs] at h0
              replace h0 : s.callStack.dropLast = [] := h0
              have hne2 : s.callStack ≠ [] := by
                intro hh
                rw [hh] at hfr
                cases hfr
              have hsingle : s.callStack = [fr] := by
                have hsplit := List.dropLast_append_getLast hne2
                rw [List.getLast?_eq_getLast _ hne2] at hfr
                injection hfr with hfr
                rw [h0] at hsplit
                rw [← hsplit, hfr]
                simp
              have hbot := bottomOkL_head s.callStack hInv.2.1 fr
                (by rw [hsingle]; simp)
              constructor
              · simp only [List.length_append, List.length_cons, List.length_nil]
                rw [hbot.1] at hplen
                omega
              · rw [hbot.2]
                simp
            · show bottomOkL s2.callStack.dropLast
              apply bottomOkL_dropLast
              rw [hcs]
              exact hInv.2.1
            · show handlersOkL (s2.excStack.take fr.excBottom)
              apply handlersOkL_take
              rw [hes]
              exact hInv.2.2
          · cases h

theorem callNative_inv (fn n : Nat) (s f : VMState) (hInv : StackInv s)
    (hne : s.callStack ≠ []) (h : callNative fn n s = some f) : StackInv f := by
  rw [callNative] at h
  split at h
  · cases h
  · split at h
    · exact throwString_inv _ s f hInv hne h
    · injection h with h
      subst h
      refine ⟨?_, ?_, ?_⟩
      · intro h0 _
        exact absurd (List.append_eq_nil.mp h0).1 hne
      · exact bottomOkL_append _ _ hne hInv.2.1
      · exact hInv.2.2

theorem callForeign_inv (e : Env) (fn n : Nat) (s f : VMState) (hInv : StackInv s)
    (hne : s.callStack ≠ []) (h : callForeign e fn n s = some f) : StackInv f := by
  rw [callForeign] at h
  split at h
  · cases h
  · split at h
    · exact throwString_inv _ s f hInv hne h
    · split at h
      · cases h
      · rename_i args s2 hargs
        obtain ⟨hc1, hc2, hc3⟩ := popArgs_frames n s _ _ hargs
        have hinv2 : StackInv s2 := stackInv_keep s s2 hInv hne hc1 hc2
        have hne2 : s2.callStack ≠ [] := by
          rw [hc1]
          exact hne
        split at h
        · injection h with h
          subst h
          exact pushData_inv _ _ hinv2 hne2
        · exact throwOp_inv _ f (pushData_inv _ _ hinv2 hne2) h

theorem callOp_inv (e : Env) (s f : VMState) (hInv : StackInv s)
    (hne : s.callStack ≠ []) (h : callOp e s = some f) : StackInv f := by
  rw [callOp] at h
  split at h
  · rename_i z s1 hpop
    obtain ⟨d1, d2, d3, _, _, _⟩ := removeData_frames 0 s _ _ hpop
    have hinv1 : StackInv s1 := stackInv_keep s s1 hInv hne d1 d2
    have hne1 : s1.callStack ≠ [] := by
      rw [d1]
      exact hne
    split at h
    · cases h
    · split at h
      · cases h
      · rename_i fv s2 hrm
        obtain ⟨e1, e2, e3, _, _, _⟩ := removeData_frames _ _ _ _ hrm
        have hinv2 : StackInv s2 := stackInv_keep s1 s2 hinv1 hne1 e1 e2
        have hne2 : s2.callStack ≠ [] := by
          rw [e1]
          exact hne1
        split at h
        · exact callNative_inv _ _ s2 f hinv2 hne2 h
        · exact callForeign_inv e _ _ s2 f hinv2 hne2 h
        · exact throwString_inv _ s2 f hinv2 hne2 h
  · cases h

theorem sendOp_inv (e : Env) (s f : VMState) (hInv : StackInv s)
    (hne : s.callStack ≠ []) (h : sendOp e s = some f) : StackInv f := by
  rw [sendOp] at h
  split at h
  · rename_i msg s1 hpop
    obtain ⟨d1, d2, d3, _, _, _⟩ := removeData_frames 0 s _ _ hpop
    have hinv1 : StackInv s1 := stackInv_keep s s1 hInv hne d1 d2
    have hne1 : s1.callStack ≠ [] := by
      rw [d1]
      exact hne
    split at h
    · cases h
    · rename_i ov s2 hpop2
      obtain ⟨e1, e2, e3, _, _, _⟩ := removeData_frames 0 s1 _ _ hpop2
      have hinv2 : StackInv s2 := stackInv_keep s1 s2 hinv1 hne1 e1 e2
      have hne2 : s2.callStack ≠ [] := by
        rw [e1]
        exact hne1
      split at h
      · cases h
      · split at h
        · rename_i meth hm
          have hinv3 : StackInv (pushData (.int 1) (pushData ov (pushData meth s2))) :=
            pushData_inv _ _ (pushData_inv _ _ (pushData_inv _ _ hinv2 hne2) hne2) hne2
          exact callOp_inv e _ f hinv3 hne2 h
        · split at h
          · rename_i nu hnu
            have hinv3 : StackInv (pushData (.str msg) (pushData ov (pushData nu s2))) :=
              pushData_inv _ _ (pushData_inv _ _ (pushData_inv _ _ hinv2 hne2) hne2) hne2
            exact callNative_inv _ _ _ f hinv3 hne2 h
          · exact throwString_inv _ s2 f hinv2 hne2 h
  · cases h

theorem getVariable_inv (i : Nat) (s f : VMState) (hInv : StackInv s)
    (hne : s.callStack ≠ []) (h : getVariable i s = some f) : StackInv f := by
  rw [getVariable] at h
  split at h
  · cases h
  · split at h
    · cases h
    · injection h with h
      subst h
      exact pushData_inv _ s hInv hne

theorem setVariable_inv (i : Nat) (s f : VMState) (hInv : StackInv s)
    (hne : s.callStack ≠ []) (h : setVariable i s = some f) : StackInv f := by
  cases hfr : s.callStack.getLast? with
  | none => simp [setVariable, hfr] at h
  | some fr =>
      cases hpop : popData s with
      | none => simp [setVariable, hfr, hpop] at h
      | some p =>
          obtain ⟨v, s1⟩ := p
          by_cases hidx : fr.dataBottom + i < s.dataStack.length
          · cases hslot : s1.dataStack[fr.dataBottom + i]? with
            | none => simp [setVariable, hfr, hpop, hidx, hslot] at h
            | some slot =>
                simp only [setVariable, hfr, hpop, hslot, if_pos hidx,
                  Option.some.injEq] at h
                subst h
                obtain ⟨d1, d2, _, _, _, _⟩ := removeData_frames 0 s _ _ hpop
                exact stackInv_keep s _ hInv hne d1 d2
          · simp [setVariable, hfr, hpop, hidx] at h

theorem getUpvalue_inv (i : Nat) (s f : VMState) (hInv : StackInv s)
    (hne : s.callStack ≠ []) (h : getUpvalue i s = some f) : StackInv f := by
  rw [getUpvalue] at h
  split at h
  · cases h
  · split at h
    · cases h
    · split at h
      · cases h
      · split at h
        · split at h
          · cases h
          · injection h with h
            subst h
            exact pushData_inv _ s hInv hne
        · injection h with h
          subst h
          exact pushData_inv _ s hInv hne
        · cases h

theorem setUpvalue_inv (i : Nat) (s f : VMState) (hInv : StackInv s)
    (hne : s.callStack ≠ []) (h : setUpvalue i s = some f) : StackInv f := by
  rw [setUpvalue] at h
  split at h
  · cases h
  · split at h
    · cases h
    · split at h
      · cases h
      · split at h
        · cases h
        · rename_i v s1 hpop
          obtain ⟨d1, d2, _, _, _, _⟩ := removeData_frames 0 s _ _ hpop
          split at h
          · split at h
            · cases h
            · injection h with h
              subst h
              exact stackInv_keep s _ hInv hne d1 d2
          · injection h with h
            subst h
            exact stackInv_keep s _ hInv hne d1 d2
          · cases h

theorem resetUpvalues_inv (s f : VMState) (hInv : StackInv s)
    (hne : s.callStack ≠ []) (h : resetUpvalues s = some f) : StackInv f := by
  rw [resetUpvalues] at h
  split at h
  · rename_i fn s1 hpop
    split at h
    · cases h
    · injection h with h
      subst h
      obtain ⟨d1, d2, _, _, _, _⟩ := removeData_frames 0 s _ _ hpop
      exact stackInv_keep s _ hInv hne d1 d2
  · cases h

theorem makeUpvalue_inv (i : Nat) (s f : VMState) (hInv : StackInv s)
    (hne : s.callStack ≠ []) (h : makeUpvalue i s = some f) : StackInv f := by
  simp only [makeUpvalue] at h
  split at h
  · split at h
    · cases h
    · split at h
      · cases h
      · split at h
        · cases h
        · split at h
          · injection h with h
            subst h
            exact stackInv_keep s _ hInv hne rfl rfl
          · injection h with h
            subst h
            exact stackInv_keep s _ hInv hne rfl rfl
  · cases h

theorem copyUpvalue_inv (i : Nat) (s f : VMState) (hInv : StackInv s)
    (hne : s.callStack ≠ []) (h : copyUpvalue i s = some f) : StackInv f := by
  rw [copyUpvalue] at h
  split at h
  · split at h
    · cases h
    · split at h
      · cases h
      · split at h
        · cases h
        · split at h
          · cases h
          · injection h with h
            subst h
            exact stackInv_keep s _ hInv hne rfl rfl
  · cases h

theorem getProperty_inv (s f : VMState) (hInv : StackInv s)
    (hne : s.callStack ≠ []) (h : getProperty s = some f) : StackInv f := by
  rw [getProperty] at h
  split at h
  · rename_i name s1 hpop
    obtain ⟨d1, d2, _, _, _, _⟩ := removeData_frames 0 s _ _ hpop
    have hinv1 : StackInv s1 := stackInv_keep s s1 hInv hne d1 d2
    have hne1 : s1.callStack ≠ [] := by
      rw [d1]
      exact hne
    split at h
    · cases h
    · rename_i ov s2 hpop2
      obtain ⟨e1, e2, _, _, _, _⟩ := removeData_frames 0 s1 _ _ hpop2
      have hinv2 : StackInv s2 := stackInv_keep s1 s2 hinv1 hne1 e1 e2
      have hne2 : s2.callStack ≠ [] := by
        rw [e1]
        exact hne1
      split at h
      · split at h
        · cases h
        · split at h
          · injection h with h
            subst h
            exact pushData_inv _ _ hinv2 hne2
          · exact throwString_inv _ s2 f hinv2 hne2 h
      · exact throwString_inv _ s2 f hinv2 hne2 h
  · cases h

theorem setProperty_inv (s f : VMState) (hInv : StackInv s)
    (hne : s.callStack ≠ []) (h : setProperty s = some f) : StackInv f := by
  rw [setProperty] at h
  split at h
  · cases h
  · rename_i v s1 hpop
    obtain ⟨d1, d2, _, _, _, _⟩ := removeData_frames 0 s _ _ hpop
    have hinv1 : StackInv s1 := stackInv_keep s s1 hInv hne d1 d2
    have hne1 : s1.callStack ≠ [] := by
      rw [d1]
      exact hne
    split at h
    · rename_i name s2 hpop2
      obtain ⟨e1, e2, _, _, _, _⟩ := removeData_frames 0 s1 _ _ hpop2
      have hinv2 : StackInv s2 := stackInv_keep s1 s2 hinv1 hne1 e1 e2
      have hne2 : s2.callStack ≠ [] := by
        rw [e1]
        exact hne1
      split at h
      · cases h
      · rename_i ov s3 hpop3
        obtain ⟨g1, g2, _, _, _, _⟩ := removeData_frames 0 s2 _ _ hpop3
        have hinv3 : StackInv s3 := stackInv_keep s2 s3 hinv2 hne2 g1 g2
        have hne3 : s3.callStack ≠ [] := by
          rw [g1]
          exact hne2
        split at h
        · split at h
          · cases h
          · injection h with h
            subst h
            exact stackInv_keep s3 _ hinv3 hne3 rfl rfl
        · exact throwString_inv _ s3 f hinv3 hne3 h
    · cases h

theorem jumpOp_inv (a : Nat) (s f : VMState) (hInv : StackInv s)
    (h : jumpOp a s = some f) : StackInv f := by
  rw [jumpOp] at h
  split at h
  · cases h
  · rename_i hie
    injection h with h
    subst h
    have hne : s.callStack ≠ [] := by
      intro h0
      simp [h0] at hie
    have hlen := setIpL_length s.callStack a
    refine ⟨?_, ?_, ?_⟩
    · intro h0 _
      replace h0 : setIpL s.callStack a = [] := h0
      rw [h0] at hlen
      exact absurd (List.length_eq_zero.mp hlen.symm) hne
    · exact bottomOkL_setIpL _ _ hInv.2.1
    · exact hInv.2.2

theorem jumpCond_inv (a : Nat) (cond : Bool) (s f : VMState) (hInv : StackInv s)
    (hne : s.callStack ≠ []) (h : jumpCond a cond s = some f) : StackInv f := by
  rw [jumpCond] at h
  split at h
  · rename_i b s1 hpop
    obtain ⟨d1, d2, _, _, _, _⟩ := removeData_frames 0 s _ _ hpop
    have hne1 : s1.callStack ≠ [] := by
      rw [d1]
      exact hne
    split at h
    · split at h
      · cases h
      · injection h with h
        subst h
        have hlen := setIpL_length s1.callStack a
        refine ⟨?_, ?_, ?_⟩
        · intro h0 _
          replace h0 : setIpL s1.callStack a = [] := h0
          rw [h0] at hlen
          exact absurd (List.length_eq_zero.mp hlen.symm) hne1
        · show bottomOkL (setIpL s1.callStack a)
          apply bottomOkL_setIpL
          rw [d1]
          exact hInv.2.1
        · show handlersOkL s1.excStack
          rw [d2]
          exact hInv.2.2
    · injection h with h
      subst h
      exact stackInv_keep s _ hInv hne d1 d2
  · rename_i v s1 hv hpop
    obtain ⟨d1, d2, _, _, _, _⟩ := removeData_frames 0 s _ _ hpop
    have hinv1 : StackInv s1 := stackInv_keep s s1 hInv hne d1 d2
    have hne1 : s1.callStack ≠ [] := by
      rw [d1]
      exact hne
    exact throwString_inv _ s1 f hinv1 hne1 h
  · cases h

theorem catchOp_inv (a : Nat) (s : VMState) (hInv : StackInv s)
    (hne : s.callStack ≠ []) : StackInv (catchOp a s) := by
  refine ⟨?_, ?_, ?_⟩
  · intro h0 _
    exact absurd h0 hne
  · exact hInv.2.1
  · show handlersOkL (s.excStack ++ [⟨s.dataStack.length, s.callStack.length, a⟩])
    apply handlersOkL_append
    · show 1 ≤ s.callStack.length
      have := List.length_pos.mpr hne
      omega
    · exact hInv.2.2

theorem uncatchOp_inv (s f : VMState) (hInv : StackInv s)
    (hne : s.callStack ≠ []) (h : uncatchOp s = some f) : StackInv f := by
  rw [uncatchOp] at h
  split at h
  · cases h
  · injection h with h
    subst h
    refine ⟨?_, ?_, ?_⟩
    · intro h0 _
      exact absurd h0 hne
    · exact hInv.2.1
    · exact handlersOkL_dropLast _ hInv.2.2

theorem setIpTop_inv (a : Nat) (s : VMState) (hInv : StackInv s)
    (hne : s.callStack ≠ []) :
    StackInv (setIpTop a s) ∧ (setIpTop a s).callStack ≠ [] := by
  have hlen := setIpL_length s.callStack a
  have hne2 : setIpL s.callStack a ≠ [] := by
    intro h0
    rw [h0] at hlen
    exact hne (List.length_eq_zero.mp hlen.symm)
  refine ⟨⟨?_, ?_, ?_⟩, hne2⟩
  · intro h0 _
    exact absurd h0 hne2
  · exact bottomOkL_setIpL _ _ hInv.2.1
  · exact hInv.2.2

/-- One step of the `run` loop preserves the invariant. -/
theorem step_inv (e : Env) (s f : VMState) (hInv : StackInv s)
    (h : step e s = some f) : StackInv f := by
  simp only [step] at h
  split at h
  · cases h
  · rename_i fr hfr
    have hne : s.callStack ≠ [] := by
      intro h0
      rw [h0] at hfr
      cases hfr
    split at h
    · cases h
    · split at h
      · cases h
      · obtain ⟨hInv0, hne0⟩ := setIpTop_inv (fr.ip + 1) s hInv hne
        split at h
        · injection h with h
          subst h
          exact hInv0
        · cases hp : popData (setIpTop (fr.ip + 1) s) with
          | none => rw [hp] at h; cases h
          | some p =>
              rw [hp] at h
              injection h with h
              subst h
              obtain ⟨d1, d2, _, _, _, _⟩ := removeData_frames 0 _ p.1 p.2 hp
              exact stackInv_keep _ _ hInv0 hne0 d1 d2
        · cases hp : removeData 1 (setIpTop (fr.ip + 1) s) with
          | none => rw [hp] at h; cases h
          | some p =>
              rw [hp] at h
              injection h with h
              subst h
              obtain ⟨d1, d2, _, _, _, _⟩ := removeData_frames 1 _ p.1 p.2 hp
              exact stackInv_keep _ _ hInv0 hne0 d1 d2
        · split at h
          · cases h
          · injection h with h
            subst h
            exact pushData_inv _ _ hInv0 hne0
        · injection h with h
          subst h
          exact pushData_inv _ _ hInv0 hne0
        · exact getVariable_inv _ _ f hInv0 hne0 h
        · exact setVariable_inv _ _ f hInv0 hne0 h
        · split at h
          · cases h
          · injection h with h
            subst h
            exact pushData_inv _ _ hInv0 hne0
        · exact getUpvalue_inv _ _ f hInv0 hne0 h
        · exact setUpvalue_inv _ _ f hInv0 hne0 h
        · exact resetUpvalues_inv _ f hInv0 hne0 h
        · exact makeUpvalue_inv _ _ f hInv0 hne0 h
        · exact copyUpvalue_inv _ _ f hInv0 hne0 h
        · exact getProperty_inv _ f hInv0 hne0 h
        · exact setProperty_inv _ f hInv0 hne0 h
        · exact callOp_inv e _ f hInv0 hne0 h
        · exact sendOp_inv e _ f hInv0 hne0 h
        · exact returnOp_inv _ f hInv0 h
        · exact jumpOp_inv _ _ f hInv0 h
        · exact jumpCond_inv _ _ _ f hInv0 hne0 h
        · exact jumpCond_inv _ _ _ f hInv0 hne0 h
        · exact throwOp_inv _ f hInv0 h
        · injection h with h
          subst h
          exact catchOp_inv _ _ hInv0 hne0
        · exact uncatchOp_inv _ f hInv0 hne0 h

theorem runLoop_inv (e : Env) : ∀ (fuel : Nat) (s f : VMState), StackInv s →
    runLoop e fuel s = some f → StackInv f ∧ f.callStack = [] := by
  intro fuel
  induction fuel with
  | zero =>
      intro s f hInv h
      rw [runLoop] at h
      split at h
      · rename_i hie
        injection h with h
        subst h
        exact ⟨hInv, by simpa using hie⟩
      · cases h
  | succ fuel ih =>
      intro s f hInv h
      rw [runLoop] at h
      split at h
      · rename_i hie
        injection h with h
        subst h
        exact ⟨hInv, by simpa using hie⟩
      · split at h
        · cases h
        · rename_i s2 hstep
          exact ih s2 f (step_inv e s s2 hInv hstep) h

/-- C9: if the `VM::run` loop, started in a state satisfying the stack
invariant (as the `call`/`send` entry points arrange), terminates without
a pending exception, the data stack holds exactly one entry — the result —
and the call and exception stacks are empty. -/
theorem vm_run_stack_balance (e : Env) (fuel : Nat) (s f : VMState)
    (hInv : StackInv s) (hrun : runLoop e fuel s = some f)
    (hnorm : f.exceptionThrown = false) :
    f.dataStack.length = 1 ∧ f.callStack = [] ∧ f.excStack = [] := by
  obtain ⟨hInvF, hcs⟩ := runLoop_inv e fuel s f hInv hrun
  obtain ⟨h1, h2⟩ := hInvF.1 hcs hnorm
  exact ⟨h1, hcs, h2⟩

def runDemoEnv : Env :=
  { nilCls := 0, boolCls := 0, intCls := 0, strCls := 0, fnCls := 0,
    foreign := [], lookupM := fun _ _ => none, fallbackFn := 0 }

/-- A one-function program: push the constant 42 and return. -/
def runDemo : VMState :=
  { dataStack := [], callStack := [⟨0, 0, 0, 0⟩], excStack := [],
    exceptionThrown := false,
    funcs := [⟨⟨0, [.getConst 0, .ret], [.int 42]⟩, []⟩],
    upvals := [], objs := [] }

def runDemoRes : VMState :=
  { dataStack := [⟨.int 42, none⟩], callStack := [], excStack := [],
    exceptionThrown := false,
    funcs := [⟨⟨0, [.getConst 0, .ret], [.int 42]⟩, []⟩],
    upvals := [], objs := [] }

theorem vm_run_stack_balance_witness :
    StackInv runDemo ∧
    runLoop runDemoEnv 5 runDemo = some runDemoRes ∧
    runDemoRes.exceptionThrown = false ∧
    runDemoRes.dataStack.length = 1 ∧ runDemoRes.callStack = [] ∧
    runDemoRes.excStack = [] := by
  have hInv : StackInv runDemo := by
    refine ⟨?_, ?_, ?_⟩
    · intro h0 _
      exact absurd h0 (by decide)
    · intro fr hfr
      simp [runDemo] at hfr
      subst hfr
      exact ⟨rfl, rfl⟩
    · intro x hx
      simp [runDemo] at hx
  have hrun : runLoop runDemoEnv 5 runDemo = some runDemoRes := by decide
  have hb := vm_run_stack_balance runDemoEnv 5 runDemo runDemoRes hInv hrun
    (by decide)
  exact ⟨hInv, hrun, by decide, hb⟩

end VMM

/-! ## The compiler's defer machinery (compiler.cpp `compile_leave`,
`compile_defer`)

Instructions are shared with the VM model.  A `Deferral` keeps the local
count and code address its body was compiled at, plus a copy of that body;
`compile_leave` replays the last `n` blocks' deferrals — innermost block
first, most recently registered first — relocating each copy, and
`compile_defer` installs the catch-and-rethrow handler around the body. -/

namespace Comp

open VMM (Instr)

structure Deferral where
  bottom : Nat
  address : Nat
  code : List Instr
deriving Repr, DecidableEq

structure BlockEnv where
  bottom : Nat
  deferrals : List Deferral
  isTry : Bool
deriving Repr, DecidableEq

structure FunctionEnv where
  code : List Instr
  locals : Nat
  blocks : List BlockEnv
deriving Repr, DecidableEq

/-- The relocation of one instruction in `compile_leave`: stack indices
move by `idxDiff`, jump targets by `addrDiff`. -/
def reloc (idxDiff addrDiff : Nat) : Instr → Instr
  | .getVar i => .getVar (i + idxDiff)
  | .setVar i => .setVar (i + idxDiff)
  | .makeUp i => .makeUp (i + idxDiff)
  | .jump a => .jump (a + addrDiff)
  | .jumpIf a => .jumpIf (a + addrDiff)
  | .jumpUnless a => .jumpUnless (a + addrDiff)
  | .catchV a => .catchV (a + addrDiff)
  | i => i

/-- Replaying one deferral: `Uncatch`, then the body relocated by
`locals − bottom` and `get_address() − address`. -/
def emitDefer (fe : FunctionEnv) (d : Deferral) : FunctionEnv :=
  let fe1 : FunctionEnv := { fe with code := fe.code ++ [.uncatch] }
  { fe1 with code := fe1.code ++
      d.code.map (reloc (fe1.locals - d.bottom) (fe1.code.length - d.address)) }

/-- One block of `compile_leave`: its deferrals in reverse registration
order, then an extra `Uncatch` for a try block. -/
def emitBlock (fe : FunctionEnv) (b : BlockEnv) : FunctionEnv :=
  let fe2 := b.deferrals.reverse.foldl emitDefer fe
  if b.isTry then { fe2 with code := fe2.code ++ [.uncatch] } else fe2

/-- `Compiler::compile_leave(nblocks)`: the last `nblocks` blocks,
innermost first. -/
def compileLeave (fe : FunctionEnv) (n : Nat) : FunctionEnv :=
  (fe.blocks.reverse.take n).foldl emitBlock fe

def emit (fe : FunctionEnv) (i : Instr) : FunctionEnv :=
  { fe with code := fe.code ++ [i] }

def setArg : Instr → Nat → Instr
  | .jump _, a => .jump a
  | .jumpIf _, a => .jumpIf a
  | .jumpUnless _, a => .jumpUnless a
  | .catchV _, a => .catchV a
  | i, _ => i

def patchArg (fe : FunctionEnv) (pos target : Nat) : FunctionEnv :=
  match fe.code[pos]? with
  | some i => { fe with code := fe.code.set pos (setArg i target) }
  | none => fe

def pushDeferral (bs : List BlockEnv) (d : Deferral) : List BlockEnv :=
  match bs.getLast? with
  | none => bs
  | some b => bs.dropLast ++ [{ b with deferrals := b.deferrals ++ [d] }]

/-- `Compiler::compile_defer`, with the recursive compilation of the defer
body abstracted as the instruction list `body` it emits (compiled at one
extra local, with its block left and locals popped, so the local count is
back to the handler's level afterwards). -/
def compileDefer (fe : FunctionEnv) (body : List Instr) : FunctionEnv × Deferral :=
  let fe1 := emit fe (.catchV (fe.code.length + 2))
  let skip := fe1.code.length
  let fe2 := emit fe1 (.jump 0)
  let fe3 : FunctionEnv := { fe2 with locals := fe2.locals + 1 }
  let addr := fe3.code.length
  let bottom := fe3.locals
  let fe4 : FunctionEnv := { fe3 with code := fe3.code ++ body }
  let d : Deferral := ⟨bottom, addr, fe4.code.drop addr⟩
  let fe5 := emit fe4 .throwV
  let fe6 : FunctionEnv := { fe5 with locals := fe5.locals - 1 }
  let fe7 := patchArg fe6 skip fe6.code.length
  let fe8 : FunctionEnv := { fe7 with blocks := pushDeferral fe7.blocks d }
  let fe9 : FunctionEnv := { (emit fe8 .nilV) with locals := fe8.locals + 1 }
  (fe9, d)

/-- The specification-side layout of one replayed deferral starting at
address `addr`. -/
def deferChunk (locals addr : Nat) (d : Deferral) : List Instr :=
  .uncatch :: d.code.map (reloc (locals - d.bottom) (addr + 1 - d.address))

def defersChunk (locals addr : Nat) : List Deferral → List Instr
  | [] => []
  | d :: ds =>
      deferChunk locals addr d ++
        defersChunk locals (addr + (deferChunk locals addr d).length) ds

def blockChunk (locals addr : Nat) (b : BlockEnv) : List Instr :=
  let c := defersChunk locals addr b.deferrals.reverse
  if b.isTry then c ++ [.uncatch] else c

def blocksChunk (locals addr : Nat) : List BlockEnv → List Instr
  | [] => []
  | b :: bs =>
      blockChunk locals addr b ++
        blocksChunk locals (addr + (blockChunk locals addr b).length) bs

theorem emitDefer_spec (fe : FunctionEnv) (d : Deferral) :
    (emitDefer fe d).code = fe.code ++ deferChunk fe.locals fe.code.length d ∧
    (emitDefer fe d).locals = fe.locals ∧ (emitDefer fe d).blocks = fe.blocks := by
  refine ⟨?_, rfl, rfl⟩
  show (fe.code ++ [.uncatch]) ++
      d.code.map (reloc (fe.locals - d.bottom) ((fe.code ++ [Instr.uncatch]).length - d.address)) =
    fe.code ++ deferChunk fe.locals fe.code.length d
  rw [deferChunk]
  simp [List.append_assoc]

theorem foldl_emitDefer_spec (ds : List Deferral) : ∀ (fe : FunctionEnv),
    (ds.foldl emitDefer fe).code =
      fe.code ++ defersChunk fe.locals fe.code.length ds ∧
    (ds.foldl emitDefer fe).locals = fe.locals ∧
    (ds.foldl emitDefer fe).blocks = fe.blocks := by
  induction ds with
  | nil => intro fe; exact ⟨by simp [defersChunk], rfl, rfl⟩
  | cons d ds ih =>
      intro fe
      obtain ⟨hc, hl, hb⟩ := ih (emitDefer fe d)
      obtain ⟨ec, el, eb⟩ := emitDefer_spec fe d
      refine ⟨?_, ?_, ?_⟩
      · show (ds.foldl emitDefer (emitDefer fe d)).code = _
        rw [hc, ec, el, defersChunk]
        simp [List.append_assoc]
      · show (ds.foldl emitDefer (emitDefer fe d)).locals = _
        rw [hl, el]
      · show (ds.foldl emitDefer (emitDefer fe d)).blocks = _
        rw [hb, eb]

theorem emitBlock_spec (fe : FunctionEnv) (b : BlockEnv) :
    (emitBlock fe b).code = fe.code ++ blockChunk fe.locals fe.code.length b ∧
    (emitBlock fe b).locals = fe.locals ∧ (emitBlock fe b).blocks = fe.blocks := by
  obtain ⟨hc, hl, hb⟩ := foldl_emitDefer_spec b.deferrals.reverse fe
  rw [emitBlock, blockChunk]
  cases ht : b.isTry with
  | true =>
      simp only [if_true]
      refine ⟨?_, hl, hb⟩
      rw [hc]
      simp [List.append_assoc]
  | false =>
      simp only [Bool.false_eq_true, if_false]
      exact ⟨hc, hl, hb⟩

theorem foldl_emitBlock_spec (bs : List BlockEnv) : ∀ (fe : FunctionEnv),
    (bs.foldl emitBlock fe).code =
      fe.code ++ blocksChunk fe.locals fe.code.length bs ∧
    (bs.foldl emitBlock fe).locals = fe.locals ∧
    (bs.foldl emitBlock fe).blocks = fe.blocks := by
  induction bs with
  | nil => intro fe; exact ⟨by simp [blocksChunk], rfl, rfl⟩
  | cons b bs ih =>
      intro fe
      obtain ⟨hc, hl, hb⟩ := ih (emitBlock fe b)
      obtain ⟨ec, el, eb⟩ := emitBlock_spec fe b
      refine ⟨?_, ?_, ?_⟩
      · show (bs.foldl emitBlock (emitBlock fe b)).code = _
        rw [hc, ec, el, blocksChunk]
        simp [List.append_assoc]
      · show (bs.foldl emitBlock (emitBlock fe b)).locals = _
        rw [hl, el]
      · show (bs.foldl emitBlock (emitBlock fe b)).blocks = _
        rw [hb, eb]

theorem compileDefer_eq (fe : FunctionEnv) (body : List Instr) :
    compileDefer fe body =
      ({ code := fe.code ++ [.catchV (fe.code.length + 2),
                             .jump (fe.code.length + 3 + body.length)] ++
                   body ++ [.throwV, .nilV],
         locals := fe.locals + 1,
         blocks := pushDeferral fe.blocks
           ⟨fe.locals + 1, fe.code.length + 2, body⟩ },
       ⟨fe.locals + 1, fe.code.length + 2, body⟩) := by
  have hdrop : (((fe.code ++ [Instr.catchV (fe.code.length + 2)]) ++ [Instr.jump 0]) ++ body).drop (fe.code.length + 1 + 1) = body :=
    List.drop_left' (by simp)
  have hget : ((((fe.code ++ [Instr.catchV (fe.code.length + 2)]) ++ [Instr.jump 0]) ++ body) ++ [Instr.throwV])[fe.code.length + 1]? = some (.jump 0) := by
    rw [List.getElem?_append_left (by simp), List.getElem?_append_left (by simp),
      List.getElem?_append_right (by simp)]
    simp
  have hset : (((((fe.code ++ [Instr.catchV (fe.code.length + 2)]) ++ [Instr.jump 0]) ++ body) ++ [Instr.throwV])).set (fe.code.length + 1) (.jump (fe.code.length + 3 + body.length)) = (((fe.code ++ [Instr.catchV (fe.code.length + 2)]) ++ [Instr.jump (fe.code.length + 3 + body.length)]) ++ body) ++ [Instr.throwV] := by
    rw [List.set_append, if_pos (by simp), List.set_append, if_pos (by simp),
      List.set_append, if_neg (by simp)]
    simp
  simp only [compileDefer, emit, patchArg, List.length_append, List.length_cons,
    List.length_nil, Nat.zero_add, hdrop, hget]
  simp only [setArg]
  rw [show fe.code.length + 1 + 1 + body.length + 1 = fe.code.length + 3 + body.length by omega]
  rw [hset]
  rw [show fe.code.length + 1 + 1 = fe.code.length + 2 from rfl]
  rw [show fe.locals + 1 - 1 + 1 = fe.locals + 1 from rfl]
  simp [List.append_assoc]

/-- C8: the defer machinery of the compiler.  `compile_leave(n)` appends,
for the innermost `n` blocks in inner-to-outer order, each block's
deferrals most-recently-registered first — every deferral replayed as an
`Uncatch` followed by its body relocated by `locals − bottom` on variable
indices (`GetVar`/`SetVar`/`MakeUp`) and by `emission address − recorded
address` on jump targets (`Jump`/`JumpIf`/`JumpUnless`/`Catch`) — with one
extra `Uncatch` per try block.  `compile_defer` wraps the body as an
exception handler `Catch (here+2); Jump past; body; Throw` (so the
exception path runs the body and re-raises), records the deferral (body
copy, its address and local depth) at the end of the current block's list,
and leaves `Nil` as the expression's value. -/
theorem compile_defer_leave_structure :
    (∀ (fe : FunctionEnv) (n : Nat),
       (compileLeave fe n).code =
         fe.code ++ blocksChunk fe.locals fe.code.length
           (fe.blocks.reverse.take n) ∧
       (compileLeave fe n).locals = fe.locals) ∧
    (∀ (fe : FunctionEnv) (body : List Instr) (bs : List BlockEnv) (b : BlockEnv),
       fe.blocks = bs ++ [b] →
       (compileDefer fe body).1.code =
         fe.code ++ [.catchV (fe.code.length + 2),
                     .jump (fe.code.length + 3 + body.length)] ++
           body ++ [.throwV, .nilV] ∧
       (compileDefer fe body).2 = ⟨fe.locals + 1, fe.code.length + 2, body⟩ ∧
       (compileDefer fe body).1.blocks =
         bs ++ [{ b with deferrals :=
           b.deferrals ++ [⟨fe.locals + 1, fe.code.length + 2, body⟩] }]) := by
  constructor
  · intro fe n
    obtain ⟨hc, hl, _⟩ := foldl_emitBlock_spec (fe.blocks.reverse.take n) fe
    exact ⟨hc, hl⟩
  · intro fe body bs b hb
    rw [compileDefer_eq]
    refine ⟨rfl, rfl, ?_⟩
    show pushDeferral fe.blocks _ = _
    rw [hb]
    simp only [pushDeferral, List.getLast?_concat]
    rw [List.dropLast_concat]

/-- Two nested blocks: the outer one holds one deferral, the inner try
block two; three locals are live. -/
def compDemoFe : FunctionEnv :=
  { code := [.nilV, .nilV],
    locals := 3,
    blocks := [⟨0, [⟨1, 0, [.getVar 0, .jump 1]⟩], false⟩,
               ⟨2, [⟨2, 1, [.setVar 0]⟩, ⟨3, 2, [.makeUp 1]⟩], true⟩] }

theorem compile_defer_leave_structure_witness :
    (compileLeave compDemoFe 2).code =
      compDemoFe.code ++ blocksChunk compDemoFe.locals compDemoFe.code.length
        (compDemoFe.blocks.reverse.take 2) ∧
    (compileLeave compDemoFe 2).code =
      [.nilV, .nilV, .uncatch, .makeUp 1, .uncatch, .setVar 1, .uncatch,
       .uncatch, .getVar 2, .jump 9] ∧
    (compileDefer compDemoFe [.getVar 1]).1.code =
      [.nilV, .nilV, .catchV 4, .jump 6, .getVar 1, .throwV, .nilV] ∧
    (compileDefer compDemoFe [.getVar 1]).2 = ⟨4, 4, [.getVar 1]⟩ := by
  obtain ⟨hL, hD⟩ := compile_defer_leave_structure
  obtain ⟨hc, _⟩ := hL compDemoFe 2
  obtain ⟨hc2, hd2, _⟩ := hD compDemoFe [.getVar 1]
    [⟨0, [⟨1, 0, [.getVar 0, .jump 1]⟩], false⟩]
    ⟨2, [⟨2, 1, [.setVar 0]⟩, ⟨3, 2, [.makeUp 1]⟩], true⟩ (by decide)
  exact ⟨hc, by decide, by decide, hd2⟩

end Comp
